import Mathlib

/-!
# calcflow-engine: expression validation, infix→postfix conversion, task planning

A shallow embedding of `pkg/calculator/expression_parser.go` and of
`CalculatorService.Calculate` from `internal/service/calculator.go`.

Conventions of the embedding

* A Go `string` holding well-formed UTF-8 is a Lean `String`; its bytes are
  obtained with `utf8Bytes`, so that byte indexing (`expr[i]`) and rune
  iteration (`for i, ch := range expr`) are kept apart exactly as in the source.
* `unicode.IsDigit` consults the Unicode table `unicode.Digit` for runes above
  Latin-1.  That table belongs to the Go standard library, not to this
  repository; every definition that reaches it takes it as the parameter
  `digitTable`.
* `uuid.New().String()` is modelled by an `IdSupply`: the `k`-th identifier
  drawn during a run is `ids.next k`, and every identifier has the canonical
  36-character form.
* A Go run-time panic (index out of range) is `none` in `Option`-valued
  definitions of the converter; the unbounded `for` loop of `Calculate` is
  executed with fuel, `none` meaning that the fuel did not suffice.
-/

namespace Calcflow

/-! ## Strings, bytes and runes -/

/-- UTF-8 encoding of one code point, as performed by the Go runtime. -/
def utf8EncodeRune (r : Nat) : List Nat :=
  if r < 0x80 then [r]
  else if r < 0x800 then [0xC0 + r / 64, 0x80 + r % 64]
  else if r < 0x10000 then [0xE0 + r / 4096, 0x80 + (r / 64) % 64, 0x80 + r % 64]
  else [0xF0 + r / 262144, 0x80 + (r / 4096) % 64, 0x80 + (r / 64) % 64, 0x80 + r % 64]

/-- The bytes of a Go string: `len(expr)` is `(utf8Bytes expr).length` and
`expr[i]` is the element at index `i`. -/
def utf8Bytes (s : List Char) : List Nat :=
  s.flatMap (fun c => utf8EncodeRune c.toNat)

/-- Go `unicode.IsDigit` on a rune given by its code point: the Latin-1 fast
path of the standard library, and the table `unicode.Digit` above it. -/
def unicodeIsDigit (digitTable : Nat → Bool) (r : Nat) : Bool :=
  if r ≤ 0xFF then decide (48 ≤ r ∧ r ≤ 57) else digitTable r

/-- Go `strings.ContainsRune(s, r)`, the rune given by its code point. -/
def stringsContainsRune (s : String) (r : Nat) : Bool :=
  s.data.any (fun c => c.toNat == r)

/-- Go `strings.ReplaceAll(s, " ", "")`. -/
def stringsReplaceAllSpace (s : String) : String :=
  ⟨s.data.filter (fun c => c != ' ')⟩

/-- Splitting of a character list at every space; `cur` is the piece being
read, in order. -/
def splitSpaceAux : List Char → List Char → List String
  | cur, [] => [⟨cur⟩]
  | cur, c :: rest =>
    if c = ' ' then ⟨cur⟩ :: splitSpaceAux [] rest
    else splitSpaceAux (cur ++ [c]) rest

/-- Go `strings.Split(s, " ")`: never empty, `[""]` on the empty string. -/
def stringsSplitSpace (s : String) : List String :=
  splitSpaceAux [] s.data

/-- Go `strings.Join(list, " ")`. -/
def stringsJoinSpace : List String → String
  | [] => ""
  | [a] => a
  | a :: b :: rest => a ++ " " ++ stringsJoinSpace (b :: rest)

/-! ## Operator tables -/

/-- The map `OperatorPriority`; `none` is the `ok = false` of a Go map lookup. -/
def OperatorPriority (sign : String) : Option Nat :=
  if sign = "+" then some 1
  else if sign = "-" then some 1
  else if sign = "*" then some 2
  else if sign = "/" then some 2
  else if sign = "^" then some 3
  else if sign = "~" then some 4
  else if sign = "(" then some 6
  else none

/-- A single-valued lookup `OperatorPriority[top]`: the zero value when the key
is absent. -/
def priorityOf (sign : String) : Nat :=
  (OperatorPriority sign).getD 0

/-- The map `RightAssociative`, read with the single-valued lookup. -/
def RightAssociative (sign : String) : Bool :=
  decide (sign = "^")

/-! ## Tasks and identifiers -/

/-- The fields of `models.Task` that the engine and the service touch. -/
structure Task where
  Num1 : String
  Num2 : String
  Sign : String
  Variable : String
  ExampleID : String
  Index : Nat
  IsFinal : Bool
deriving DecidableEq, Repr

/-- The stream of results of `uuid.New().String()`: `next k` is the `k`-th
identifier drawn, in the canonical 36-character form
`xxxxxxxx-xxxx-xxxx-xxxx-xxxxxxxxxxxx`. -/
structure IdSupply where
  next : Nat → String
  canonical : ∀ k, (next k).length = 36

/-- `NewExample(num1, num2, sign)`, with the drawn identifier passed in. -/
def NewExample (fresh : String) (num1 num2 sign : String) : Task × String :=
  (⟨num1, num2, sign, fresh, "", 0, false⟩, fresh)

/-! ## Stack (top of the stack first: the Go slice read from its end) -/

structure Stack where
  list : List String
deriving DecidableEq, Repr

def NewStack : Stack := ⟨[]⟩

def Stack.Push (s : Stack) (item : String) : Stack := ⟨item :: s.list⟩

def Stack.IsEmptyStack (s : Stack) : Bool := s.list.isEmpty

/-- `Pop`: the popped item and the remaining stack; `none` is the index panic
on an empty stack. -/
def Stack.Pop (s : Stack) : Option (String × Stack) :=
  match s.list with
  | [] => none
  | top :: rest => some (top, ⟨rest⟩)

/-- `Peek`; `none` is the index panic on an empty stack. -/
def Stack.Peek (s : Stack) : Option String :=
  s.list.head?

/-! ## Expression and validator -/

structure Expression where
  Infix : String
  Postfix : String
deriving DecidableEq, Repr

def NewExpression (str : String) : Expression := ⟨str, ""⟩

/-- The first loop of `IsValidMathExpression`, `for i, ch := range expr`:
`i` is the byte offset of the rune `ch`, `bytes` the bytes of `expr`. -/
def allowedLoop (digitTable : Nat → Bool) (bytes : List Nat) : Nat → List Char → Bool
  | _, [] => true
  | i, ch :: rest =>
    if !unicodeIsDigit digitTable ch.toNat && !stringsContainsRune "+-*/().~^" ch.toNat then false
    else if ch = '.' then
      if i = bytes.length - 1 then false
      else if !unicodeIsDigit digitTable (bytes.getD (i + 1) 0) then false
      else allowedLoop digitTable bytes (i + (utf8EncodeRune ch.toNat).length) rest
    else allowedLoop digitTable bytes (i + (utf8EncodeRune ch.toNat).length) rest

/-- The bracket loop: `none` when it returns false on an extra closing bracket,
otherwise the final `balance`. -/
def bracketLoop : Int → List Char → Option Int
  | balance, [] => some balance
  | balance, ch :: rest =>
    if ch = '(' then bracketLoop (balance + 1) rest
    else if ch = ')' then
      if balance - 1 < 0 then none else bracketLoop (balance - 1) rest
    else bracketLoop balance rest

/-- The loop `for i := 0; i < len(expr)-1; i++` over the bytes of `expr`; the
first argument counts the iterations still to run. -/
def operatorLoop (digitTable : Nat → Bool) (expr : List Nat) : Nat → Nat → Bool
  | 0, _ => true
  | n + 1, i =>
    let curr := expr.getD i 0
    let next := expr.getD (i + 1) 0
    if stringsContainsRune "+-*/^" curr && stringsContainsRune "+-*/^" next then false
    else if curr = 126 then
      if i = expr.length - 1 then false
      else if next ≠ 40 && !unicodeIsDigit digitTable next && next ≠ 126 then false
      else operatorLoop digitTable expr n (i + 1)
    else operatorLoop digitTable expr n (i + 1)

def isDigitOrUnaryMinusOrOpenParen (digitTable : Nat → Bool) (ch : Nat) : Bool :=
  unicodeIsDigit digitTable ch || ch = 126 || ch = 40

/-- `IsValidMathExpression`.  The bytes `'~'`, `'('` are 126 and 40. -/
def Expression.IsValidMathExpression (digitTable : Nat → Bool) (s : Expression) : Bool :=
  let expr := stringsReplaceAllSpace s.Infix
  let bytes := utf8Bytes expr.data
  if expr = "" then false
  else if !allowedLoop digitTable bytes 0 expr.data then false
  else
    match bracketLoop 0 expr.data with
    | none => false
    | some balance =>
      if balance ≠ 0 then false
      else if !operatorLoop digitTable bytes (bytes.length - 1) 0 then false
      else if !isDigitOrUnaryMinusOrOpenParen digitTable (bytes.getD 0 0) then false
      else if stringsContainsRune "+-*/^~" (bytes.getD (bytes.length - 1) 0) then false
      else true

def Expression.Check (digitTable : Nat → Bool) (s : Expression) : Bool :=
  s.IsValidMathExpression digitTable

/-! ## Infix→postfix converter -/

/-- The scratch state of `Convert`: the output `list`, the operator `stack`
and the digits of the `number` being read. -/
structure ConvertState where
  list : List String
  stack : Stack
  number : List Char
deriving DecidableEq, Repr

/-- The loop `for !stack.IsEmptyStack()` that `Convert` runs on an operator of
priority `value`: the remaining stack (top first) and the extended output. -/
def popOperators (value : Nat) (sign : String) : List String → List String → List String × List String
  | [], list => ([], list)
  | top :: rest, list =>
    if top = "(" then (top :: rest, list)
    else if priorityOf top > value then popOperators value sign rest (list ++ [top])
    else if priorityOf top = value then
      if !RightAssociative sign then popOperators value sign rest (list ++ [top])
      else (top :: rest, list)
    else (top :: rest, list)

/-- The loop `for stack.Peek() != "("` that `Convert` runs on `)`: the stack
with `(` on top and the extended output; `none` when `Peek` panics. -/
def popUntilOpen : List String → List String → Option (List String × List String)
  | [], _ => none
  | top :: rest, list =>
    if top ≠ "(" then popUntilOpen rest (list ++ [top])
    else some (top :: rest, list)

/-- One iteration of `for _, i := range example` in `Convert`. -/
def convertStep (digitTable : Nat → Bool) (st : ConvertState) (i : Char) : Option ConvertState :=
  let sign := String.singleton i
  if unicodeIsDigit digitTable i.toNat then
    some { st with number := st.number ++ [i] }
  else
    let st1 : ConvertState :=
      if sign = "." then { st with number := st.number ++ ['.'] }
      else if st.number.length ≠ 0 then { st with list := st.list ++ [String.mk st.number], number := [] }
      else st
    let st2 : ConvertState :=
      match OperatorPriority sign with
      | some value =>
        let popped := popOperators value sign st1.stack.list st1.list
        { st1 with list := popped.2, stack := Stack.Push ⟨popped.1⟩ sign }
      | none => st1
    if i = ')' then
      match popUntilOpen st2.stack.list st2.list with
      | none => none
      | some (stack, list) =>
        match Stack.Pop ⟨stack⟩ with
        | none => none
        | some (_, stack) => some { st2 with list := list, stack := stack }
    else some st2

/-- The whole loop `for _, i := range example`. -/
def convertLoop (digitTable : Nat → Bool) : ConvertState → List Char → Option ConvertState
  | st, [] => some st
  | st, i :: rest =>
    match convertStep digitTable st i with
    | none => none
    | some st => convertLoop digitTable st rest

/-- The output list of `Convert` on the space-free text `example`, after the
last number and the remaining stack have been appended. -/
def convertTokens (digitTable : Nat → Bool) (text : String) : Option (List String) :=
  match convertLoop digitTable ⟨[], NewStack, []⟩ text.data with
  | none => none
  | some st =>
    let list := if st.number.length > 0 then st.list ++ [String.mk st.number] else st.list
    some (list ++ st.stack.list)

def malformedError : String :=
  "line is not a mathematical expression or contains an error"

/-- `Convert`: the receiver after the call, the boolean and the error
(`none` for `nil`).  The outer `none` is a run-time panic. -/
def Expression.Convert (digitTable : Nat → Bool) (s : Expression) :
    Option (Expression × Bool × Option String) :=
  if !s.Check digitTable then some (s, false, some malformedError)
  else
    match convertTokens digitTable (stringsReplaceAllSpace s.Infix) with
    | none => none
    | some list => some ({ s with Postfix := stringsJoinSpace list }, true, none)

/-! ## Task graph builder -/

def replaceUnary (expr : List String) (opIndex : Nat) (varName : String) : List String :=
  let start : Int := (opIndex : Int) - 1
  let stop : Int := (opIndex : Int) + 1
  let start : Int := if start < 0 then 0 else start
  let stop : Int := if stop > (expr.length : Int) then (expr.length : Int) else stop
  expr.take start.toNat ++ [varName] ++ expr.drop stop.toNat

def replaceBinary (expr : List String) (opIndex : Nat) (varName : String) : List String :=
  let start : Int := (opIndex : Int) - 2
  let stop : Int := (opIndex : Int) + 1
  let start : Int := if start < 0 then 0 else start
  let stop : Int := if stop > (expr.length : Int) then (expr.length : Int) else stop
  expr.take start.toNat ++ [varName] ++ expr.drop stop.toNat

/-- The scan `for index, sign := range expression` up to its first operator:
the index and the token at which the body runs and breaks. -/
def findOperator : List String → Nat → Option (Nat × String)
  | [], _ => none
  | sign :: rest, index =>
    if (OperatorPriority sign).isSome then some (index, sign)
    else findOperator rest (index + 1)

/-- The loop `for len(expression) != 1` of `Calculate` and the return that
follows it.  Every pass of the loop uses one unit of fuel; `none` is fuel
exhausted.  The failure return `nil, ""` is `some ([], "")`. -/
def calculateLoop (ids : IdSupply) : Nat → List String → List Task → Option (List Task × String)
  | fuel, expression, results =>
    if expression.length = 1 then some (results, expression.getD 0 "")
    else
      match fuel with
      | 0 => none
      | fuel + 1 =>
        match findOperator expression 0 with
        | none => calculateLoop ids fuel expression results
        | some (index, sign) =>
          if sign = "~" then
            if index < 1 then some ([], "")
            else
              let num1 := "0"
              let num2 := expression.getD (index - 1) ""
              let made := NewExample (ids.next results.length) num1 num2 "-"
              calculateLoop ids fuel (replaceUnary expression index made.2) (results ++ [made.1])
          else
            if index < 2 then some ([], "")
            else
              let num1 := expression.getD (index - 2) ""
              let num2 := expression.getD (index - 1) ""
              let made := NewExample (ids.next results.length) num1 num2 sign
              calculateLoop ids fuel (replaceBinary expression index made.2) (results ++ [made.1])

/-- `Calculate`: the task list and the final identifier. -/
def Expression.Calculate (ids : IdSupply) (fuel : Nat) (s : Expression) :
    Option (List Task × String) :=
  let expression := stringsSplitSpace s.Postfix
  if expression.length = 1 then
    let num := expression.getD 0 ""
    let made := NewExample (ids.next 0) "0" num "+"
    some ([made.1], made.2)
  else calculateLoop ids fuel expression []

/-! ## Service orchestration -/

/-- The fields of `models.Example` that `CalculatorService.Calculate` touches. -/
structure Example where
  ID : String
  Expression : String
  UserID : String
  Error : Option String
  SimpleExamples : List Task
  Response : String
deriving DecidableEq, Repr

/-- The collaborators of the service that `Calculate` calls: each returns the
error text, `none` for `nil`. -/
structure CalculatorService where
  SaveExample : Example → Option String
  SendTask : Task → Option String

/-- What one call of the service did: the records handed to `SaveExample`, the
tasks handed to `SendTask`, and the returned pair. -/
structure ServiceRun where
  saved : List Example
  sent : List Task
  result : Option Example
  err : Option String
deriving DecidableEq, Repr

/-- The `kafkaTask` built for the task at position `i` of `results`. -/
def kafkaTask (exampleID final : String) (i : Nat) (task : Task) : Task :=
  { Num1 := task.Num1, Num2 := task.Num2, Sign := task.Sign, Variable := task.Variable,
    ExampleID := exampleID, Index := i, IsFinal := decide (task.Variable = final) }

/-- The loop `for i, task := range results`: the tasks handed to `SendTask`
(the one that failed included) and the error that stopped the loop. -/
def sendLoop (svc : CalculatorService) (exampleID final : String) :
    Nat → List Task → List Task × Option String
  | _, [] => ([], none)
  | i, task :: rest =>
    let k := kafkaTask exampleID final i task
    match svc.SendTask k with
    | some e => ([k], some ("failed to send task to kafka: " ++ e))
    | none =>
      let r := sendLoop svc exampleID final (i + 1) rest
      (k :: r.1, r.2)

/-- `CalculatorService.Calculate`; `exampleID` is the identifier drawn at its
start.  The outer `none` is a panic of `Convert` or exhausted fuel. -/
def CalculatorService.Calculate (svc : CalculatorService) (digitTable : Nat → Bool)
    (ids : IdSupply) (fuel : Nat) (exampleID : String) (request : Example) : Option ServiceRun :=
  let resultExample : Example :=
    { ID := exampleID, Expression := request.Expression, UserID := request.UserID,
      Error := none, SimpleExamples := [], Response := "" }
  let expr := NewExpression request.Expression
  match expr.Convert digitTable with
  | none => none
  | some (_, _, some errString) =>
    let resultExample := { resultExample with Error := some errString }
    match svc.SaveExample resultExample with
    | some errSave =>
      some ⟨[resultExample], [], none, some ("calculate: save example: " ++ errSave)⟩
    | none => some ⟨[resultExample], [], some resultExample, none⟩
  | some (expr, _, none) =>
    match expr.Calculate ids fuel with
    | none => none
    | some (results, final) =>
      let resultExample := { resultExample with SimpleExamples := results, Response := final }
      match svc.SaveExample resultExample with
      | some err => some ⟨[resultExample], [], none, some ("calculate: save example: " ++ err)⟩
      | none =>
        let r := sendLoop svc exampleID final 0 results
        match r.2 with
        | some err => some ⟨[resultExample], r.1, none, some err⟩
        | none => some ⟨[resultExample], r.1, some resultExample, none⟩

/-! ## The validator's rules, character by character

The eight rules of the validator as the specification words them, on the list
of characters of the text.  `digit` is the notion of digit used for "every
character is a digit, ..." and `plainDigit` the one used where a digit has to
follow a decimal point or a `~`, or to start the text. -/

/-- The digits `0` to `9`. -/
def isAsciiDigit (c : Char) : Bool :=
  decide (48 ≤ c.toNat ∧ c.toNat ≤ 57)

/-- A digit in the sense of `unicode.IsDigit`. -/
def isUnicodeDigit (digitTable : Nat → Bool) (c : Char) : Bool :=
  unicodeIsDigit digitTable c.toNat

/-- One of `+ - * / ^`. -/
def isBinaryOperatorChar (c : Char) : Bool :=
  c = '+' || c = '-' || c = '*' || c = '/' || c = '^'

/-- Space, tab, line feed, vertical tab, form feed, carriage return. -/
def isWhitespace (c : Char) : Bool :=
  c = ' ' || c = '\t' || c = '\n' || c = '\x0b' || c = '\x0c' || c = '\r'

/-- The text with its whitespace removed. -/
def removeWhitespace (t : List Char) : List Char :=
  t.filter (fun c => !isWhitespace c)

/-- The text with its space characters (U+0020) removed. -/
def removeSpaces (t : List Char) : List Char :=
  t.filter (fun c => c != ' ')

/-- Rule 2: every character is a digit, a decimal point, or one of
`+ - * / ^ ~ ( )`. -/
def ruleAlphabet (digit : Char → Bool) (t : List Char) : Bool :=
  t.all (fun c => digit c || c = '.' || isBinaryOperatorChar c || c = '~' || c = '(' || c = ')')

/-- Rule 3: every decimal point is not the last character and is immediately
followed by a digit. -/
def rulePoints (plainDigit : Char → Bool) : List Char → Bool
  | [] => true
  | c :: rest =>
    (if c = '.' then (match rest with | [] => false | d :: _ => plainDigit d) else true)
      && rulePoints plainDigit rest

/-- The running depth after the first `n` characters: opening minus closing
parentheses. -/
def runningDepth (t : List Char) (n : Nat) : Int :=
  ((t.take n).count '(' : Int) - ((t.take n).count ')' : Int)

/-- Rule 4: the running depth never goes negative and ends at zero. -/
def ruleBalanced (t : List Char) : Bool :=
  (List.range (t.length + 1)).all (fun n => decide (0 ≤ runningDepth t n))
    && decide (runningDepth t t.length = 0)

/-- Rule 5: no two characters of `+ - * / ^` are adjacent. -/
def ruleNoAdjacentBinary : List Char → Bool
  | a :: b :: rest =>
    !(isBinaryOperatorChar a && isBinaryOperatorChar b) && ruleNoAdjacentBinary (b :: rest)
  | _ => true

/-- Rule 6: every `~` is not the last character and is followed by a digit,
`(` or `~`. -/
def ruleUnaryMinus (plainDigit : Char → Bool) : List Char → Bool
  | [] => true
  | c :: rest =>
    (if c = '~' then
        (match rest with | [] => false | d :: _ => plainDigit d || d = '(' || d = '~')
      else true)
      && ruleUnaryMinus plainDigit rest

/-- Rule 7: the first character is a digit, `~` or `(`. -/
def ruleFirst (plainDigit : Char → Bool) (t : List Char) : Bool :=
  match t.head? with
  | none => false
  | some c => plainDigit c || c = '~' || c = '('

/-- Rule 8: the last character is none of `+ - * / ^ ~`. -/
def ruleLast (t : List Char) : Bool :=
  match t.getLast? with
  | none => false
  | some c => !(isBinaryOperatorChar c || c = '~')

/-- All eight rules together. -/
def validatorRules (digit plainDigit : Char → Bool) (t : List Char) : Bool :=
  !t.isEmpty && ruleAlphabet digit t && rulePoints plainDigit t && ruleBalanced t
    && ruleNoAdjacentBinary t && ruleUnaryMinus plainDigit t && ruleFirst plainDigit t
    && ruleLast t

/-! ### Auxiliary forms of the validator loops -/

/-- The pair test of `operatorLoop` by recursion on the bytes. -/
def bytePairsOk (digitTable : Nat → Bool) : List Nat → Bool
  | a :: b :: rest =>
    if stringsContainsRune "+-*/^" a && stringsContainsRune "+-*/^" b then false
    else if a = 126 then
      if b ≠ 40 && !unicodeIsDigit digitTable b && b ≠ 126 then false
      else bytePairsOk digitTable (b :: rest)
    else bytePairsOk digitTable (b :: rest)
  | _ => true

/-- The pair test of `operatorLoop` on characters: rule 5 together with rule 6
for every `~` but a last one. -/
def charPairsOk : List Char → Bool
  | a :: b :: rest =>
    !(isBinaryOperatorChar a && isBinaryOperatorChar b)
      && (!(a = '~') || (b = '(' || isAsciiDigit b || b = '~'))
      && charPairsOk (b :: rest)
  | _ => true

/-! ## One pass of the rescanning loop -/

/-- What one pass of `for len(expression) != 1` does: the scan finds no
operator (`idle`), or the body returns `nil, ""` (`failed`), or it replaces an
operator and its operands and appends a task (`reduced`). -/
inductive Pass where
  | idle
  | failed
  | reduced (expression : List String) (task : Task)
deriving DecidableEq, Repr

/-- The pass of the loop body on `expression`, `fresh` being the identifier
that `NewExample` draws. -/
def passOf (expression : List String) (fresh : String) : Pass :=
  match findOperator expression 0 with
  | none => Pass.idle
  | some (index, sign) =>
    if sign = "~" then
      if index < 1 then Pass.failed
      else
        Pass.reduced (replaceUnary expression index fresh)
          (NewExample fresh "0" (expression.getD (index - 1) "") "-").1
    else
      if index < 2 then Pass.failed
      else
        Pass.reduced (replaceBinary expression index fresh)
          (NewExample fresh (expression.getD (index - 2) "") (expression.getD (index - 1) "") sign).1

/-- The four fields of a task that the builder fills in. -/
def Task.core (t : Task) : String × String × String × String :=
  (t.Num1, t.Num2, t.Sign, t.Variable)

/-! ## The single-pass operand-stack reduction of the specification -/

/-- One of the binary operators `+ - * / ^`. -/
def isBinaryOperator (t : String) : Bool :=
  t = "+" || t = "-" || t = "*" || t = "/" || t = "^"

/-- The left-to-right scan of section 4.3 of the specification.  `stack` is the
operand stack (top first), `emitted` the tasks emitted so far; a task gets the
next identifier of the supply as its `variable` and its position in emission
order as its `index`.  `none` is the internal consistency failure (too few
operands) or a scan that does not end with exactly one value. -/
def specScan (ids : IdSupply) : List String → List String → List Task → Option (List Task × String)
  | [], stack, emitted =>
    match stack with
    | [final] => some (emitted, final)
    | _ => none
  | token :: rest, stack, emitted =>
    if token = "~" then
      match stack with
      | operand :: stack =>
        let fresh := ids.next emitted.length
        specScan ids rest (fresh :: stack)
          (emitted ++ [⟨"0", operand, "-", fresh, "", emitted.length, false⟩])
      | [] => none
    else if isBinaryOperator token then
      match stack with
      | num2 :: num1 :: stack =>
        let fresh := ids.next emitted.length
        specScan ids rest (fresh :: stack)
          (emitted ++ [⟨num1, num2, token, fresh, "", emitted.length, false⟩])
      | _ => none
    else specScan ids rest (token :: stack) emitted

/-- The general case of the builder of the specification: the scan from an
empty operand stack, then `isFinal` set on the tasks whose `variable` is the
final identifier. -/
def specGeneral (ids : IdSupply) (tokens : List String) : Option (List Task × String) :=
  match specScan ids tokens [] [] with
  | none => none
  | some (emitted, final) =>
    some (emitted.map (fun t => { t with IsFinal := decide (t.Variable = final) }), final)

/-- The task graph builder of the specification: the special case of a single
token that is no operator (one task `0 + literal`), otherwise the general
case. -/
def specBuild (ids : IdSupply) (tokens : List String) : Option (List Task × String) :=
  match tokens with
  | [literal] =>
    if literal = "~" || isBinaryOperator literal then specGeneral ids tokens
    else some ([⟨"0", literal, "+", ids.next 0, "", 0, true⟩], ids.next 0)
  | _ => specGeneral ids tokens

/-! ## Invariants of the rescanning loop -/

/-- Every operand of every task is the literal `"0"` of the builder, one of
the input tokens, or the `Variable` of a task at a smaller position. -/
@[reducible] def Produced (tokens : List String) (results : List Task) : Prop :=
  ∀ (n : Nat) (t : Task), results[n]? = some t → ∀ o, (o = t.Num1 ∨ o = t.Num2) →
    o = "0" ∨ o ∈ tokens ∨ ∃ j, j < n ∧ (results.map Task.Variable)[j]? = some o

/-- Every token of the working sequence is an input token or the `Variable`
of a task already emitted. -/
@[reducible] def Known (tokens : List String) (results : List Task) (expression : List String) : Prop :=
  ∀ x ∈ expression, x ∈ tokens ∨ x ∈ results.map Task.Variable

/-- Every `Variable` is an identifier in canonical form. -/
@[reducible] def Canonical (results : List Task) : Prop :=
  ∀ t ∈ results, t.Variable.length = 36

/-- A supply for examples: ten distinct identifiers, repeated. -/
def sampleIds : IdSupply :=
  ⟨fun k => "00000000-0000-4000-8000-00000000000" ++ String.singleton (Char.ofNat (48 + k % 10)),
    fun _ => rfl⟩

/-! ## The pipeline and the comparison of two runs -/

/-- The conversion followed by the builder, as the service chains them: the
builder runs when `Convert` returned no error. -/
def pipeline (digitTable : Nat → Bool) (ids : IdSupply) (fuel : Nat) (text : String) :
    Option (List Task × String) :=
  match (NewExpression text).Convert digitTable with
  | some (expr, _, none) => expr.Calculate ids fuel
  | _ => none

/-- Two operands of the tasks at position `i` of two runs play the same role:
they are the same literal (the `"0"` of the builder or an input token), or
each is the `Variable` of the task at one and the same earlier position of its
own list. -/
@[reducible] def SameOperand (tokens : List String) (tasks1 tasks2 : List Task) (i : Nat)
    (o1 o2 : String) : Prop :=
  (o1 = o2 ∧ (o1 = "0" ∨ o1 ∈ tokens))
  ∨ ∃ j : Nat, j < i ∧ (tasks1.map Task.Variable)[j]? = some o1
      ∧ (tasks2.map Task.Variable)[j]? = some o2

/-- Two task lists have the same structure. -/
@[reducible] def SameShape (tokens : List String) (tasks1 tasks2 : List Task) : Prop :=
  tasks1.length = tasks2.length
  ∧ ∀ (i : Nat) (t1 t2 : Task), tasks1[i]? = some t1 → tasks2[i]? = some t2 →
      t1.Sign = t2.Sign ∧ SameOperand tokens tasks1 tasks2 i t1.Num1 t2.Num1
        ∧ SameOperand tokens tasks1 tasks2 i t1.Num2 t2.Num2

/-- The final identifiers of two runs refer to the task at the same position
(or both runs returned the empty result). -/
@[reducible] def SameFinal (tasks1 tasks2 : List Task) (final1 final2 : String) : Prop :=
  (tasks1 = [] ∧ tasks2 = [] ∧ final1 = "" ∧ final2 = "")
  ∨ ∃ j : Nat, (tasks1.map Task.Variable)[j]? = some final1
      ∧ (tasks2.map Task.Variable)[j]? = some final2

/-- Two tokens of the working sequences of two runs correspond. -/
@[reducible] def SameToken (tokens : List String) (results1 results2 : List Task)
    (a b : String) : Prop :=
  (a = b ∧ a ∈ tokens)
  ∨ ∃ j : Nat, (results1.map Task.Variable)[j]? = some a ∧ (results2.map Task.Variable)[j]? = some b

/-- A second supply for examples, disjoint from `sampleIds`. -/
def otherIds : IdSupply :=
  ⟨fun k => "ffffffff-ffff-4fff-8fff-fffffffffff" ++ String.singleton (Char.ofNat (48 + k % 10)),
    fun _ => rfl⟩

/-! ## Numeric literals -/

/-- A decimal numeric literal: one or more of the digits `0` to `9`,
optionally followed by one decimal point and one or more digits. -/
def isNumericLiteral (s : String) : Bool :=
  let whole := s.data.takeWhile isAsciiDigit
  let rest := s.data.dropWhile isAsciiDigit
  !whole.isEmpty
    && (rest.isEmpty
        || (rest.head? = some '.' && !rest.tail.isEmpty && rest.tail.all isAsciiDigit))

/-- What the validator and the converter need of a literal: it is not empty,
begins and ends with a digit, holds digits and points only, and every point in
it is followed by a digit. -/
structure PlainLiteral (l : List Char) : Prop where
  first : ∃ d tail, l = d :: tail ∧ isAsciiDigit d = true
  last : ∃ front d, l = front ++ [d] ∧ isAsciiDigit d = true
  plain : ∀ c ∈ l, isAsciiDigit c = true ∨ c = '.'
  points : ∀ rest, rulePoints isAsciiDigit (l ++ rest) = rulePoints isAsciiDigit rest

/-! ## Number tokens and runs of digits -/

/-- A character of a number: a digit, as `unicode.IsDigit` has it, or the
decimal point. -/
def isNumberChar (digitTable : Nat → Bool) (c : Char) : Bool :=
  unicodeIsDigit digitTable c.toNat || decide (c = '.')

/-- A number token: not empty, made of digits and decimal points only. -/
def isNumberToken (digitTable : Nat → Bool) (s : String) : Bool :=
  !s.data.isEmpty && s.data.all (isNumberChar digitTable)

/-- The number tokens of a postfix text, in order. -/
def numberTokens (digitTable : Nat → Bool) (text : String) : List String :=
  (stringsSplitSpace text).filter (isNumberToken digitTable)

/-- The maximal runs of digits and decimal points of a text, in order: the
text is cut at every other character and the empty pieces are dropped. -/
def numberRuns (digitTable : Nat → Bool) (t : List Char) : List String :=
  ((t.splitOnP (fun c => !isNumberChar digitTable c)).filter (fun r => !r.isEmpty)).map String.mk

/-! ## Expression trees and their fully parenthesised rendering -/

/-- The binary operators `+ - * / ^`. -/
inductive BinOp where
  | add
  | sub
  | mul
  | div
  | pow
deriving DecidableEq, Repr

/-- The character of a binary operator. -/
def BinOp.char : BinOp → Char
  | BinOp.add => '+'
  | BinOp.sub => '-'
  | BinOp.mul => '*'
  | BinOp.div => '/'
  | BinOp.pow => '^'

/-- An expression tree: a literal, a binary node, or a negation. -/
inductive ExprTree where
  | lit (n : String)
  | bin (op : BinOp) (l r : ExprTree)
  | neg (e : ExprTree)
deriving DecidableEq, Repr

/-- Every leaf of the tree is a decimal numeric literal. -/
def ExprTree.literals : ExprTree → Bool
  | ExprTree.lit n => isNumericLiteral n
  | ExprTree.bin _ l r => l.literals && r.literals
  | ExprTree.neg e => e.literals

/-- The fully parenthesised infix rendering: a literal as itself, a binary
node as `(` left op right `)`, a negation as `(~` operand `)`. -/
def ExprTree.render : ExprTree → String
  | ExprTree.lit n => n
  | ExprTree.bin op l r => "(" ++ l.render ++ String.singleton op.char ++ r.render ++ ")"
  | ExprTree.neg e => "(~" ++ e.render ++ ")"

/-- The post-order token sequence of the tree. -/
def ExprTree.postorder : ExprTree → List String
  | ExprTree.lit n => [n]
  | ExprTree.bin op l r => l.postorder ++ r.postorder ++ [String.singleton op.char]
  | ExprTree.neg e => e.postorder ++ ["~"]

/-- What the validator's rules need of a piece of text that stands for an
operand: how it begins and ends, and that each rule passes over it. -/
structure OperandText (digitTable : Nat → Bool) (w : List Char) : Prop where
  first : ∃ c tail, w = c :: tail ∧ (isAsciiDigit c = true ∨ c = '(')
  last : ∃ front c, w = front ++ [c] ∧ (isAsciiDigit c = true ∨ c = ')')
  nospace : ∀ c ∈ w, c ≠ ' '
  alphabet : ∀ rest, ruleAlphabet (isUnicodeDigit digitTable) (w ++ rest)
    = ruleAlphabet (isUnicodeDigit digitTable) rest
  points : ∀ rest, rulePoints isAsciiDigit (w ++ rest) = rulePoints isAsciiDigit rest
  unary : ∀ rest, ruleUnaryMinus isAsciiDigit (w ++ rest) = ruleUnaryMinus isAsciiDigit rest
  adjacent : ∀ rest, ruleNoAdjacentBinary (w ++ rest) = ruleNoAdjacentBinary rest
  brackets : ∀ (b : Int) rest, 0 ≤ b → bracketLoop b (w ++ rest) = bracketLoop b rest

/-! ## Occurrences of an identifier as an operand -/

/-- How many of the two operands of a task are `v`. -/
def Task.uses (t : Task) (v : String) : Nat :=
  (if t.Num1 = v then 1 else 0) + (if t.Num2 = v then 1 else 0)

/-- The number of occurrences of `v` as an operand (`Num1` or `Num2`) among
all the tasks of a list. -/
def operandCount (v : String) (tasks : List Task) : Nat :=
  (tasks.map (fun t => t.uses v)).sum

/-! # Theorems -/

/-! ## The rescanning loop on concrete postfix texts -/

/-- When the scan finds no operator the working sequence is left as it is, so
the loop `for len(expression) != 1` never ends: no amount of fuel suffices. -/
theorem calculateLoop_no_operator (ids : IdSupply) (expression : List String)
    (hlen : expression.length ≠ 1) (hnone : findOperator expression 0 = none) :
    ∀ (fuel : Nat) (results : List Task), calculateLoop ids fuel expression results = none := by
  intro fuel
  induction fuel with
  | zero => intro results; unfold calculateLoop; simp [hlen]
  | succ n ih => intro results; unfold calculateLoop; simp [hlen, hnone, ih]

/-- C1 (the code at the failing input).  The chained unary minus `~~3` passes
the validator, `Convert` turns it into the postfix `~ 3 ~`, and `Calculate`
meets the first `~` at index 0 with no operand before it: it returns the empty
result `nil, ""`.  The same happens for `(+2)`, whose postfix is `2 +`. -/
theorem C1_validated_input_reaches_operand_failure (digitTable : Nat → Bool) (ids : IdSupply)
    (fuel : Nat) :
    ((NewExpression "~~3").IsValidMathExpression digitTable = true
      ∧ (NewExpression "~~3").Convert digitTable = some (⟨"~~3", "~ 3 ~"⟩, true, none)
      ∧ Expression.Calculate ids (fuel + 1) ⟨"~~3", "~ 3 ~"⟩ = some ([], ""))
    ∧ ((NewExpression "(+2)").IsValidMathExpression digitTable = true
      ∧ (NewExpression "(+2)").Convert digitTable = some (⟨"(+2)", "2 +"⟩, true, none)
      ∧ Expression.Calculate ids (fuel + 1) ⟨"(+2)", "2 +"⟩ = some ([], "")) :=
  ⟨⟨rfl, rfl, rfl⟩, ⟨rfl, rfl, rfl⟩⟩

/-- C2 (the code at the failing input).  The text `2(3)` passes the validator,
`Convert` turns it into the postfix `2 3`, and the loop of `Calculate` on the
two tokens `2`, `3` finds no operator and never shortens the sequence: whatever
the fuel, it has not returned. -/
theorem C2_validated_input_never_returns (digitTable : Nat → Bool) (ids : IdSupply)
    (fuel : Nat) :
    (NewExpression "2(3)").IsValidMathExpression digitTable = true
    ∧ (NewExpression "2(3)").Convert digitTable = some (⟨"2(3)", "2 3"⟩, true, none)
    ∧ Expression.Calculate ids fuel ⟨"2(3)", "2 3"⟩ = none := by
  refine ⟨rfl, rfl, ?_⟩
  have h : Expression.Calculate ids fuel ⟨"2(3)", "2 3"⟩
      = calculateLoop ids fuel ["2", "3"] [] := rfl
  rw [h]
  exact calculateLoop_no_operator ids _ (by decide) (by decide) fuel []

/-- C6 (the code at the failing input).  On `~~3` the conversion succeeds, the
builder returns `nil, ""`, and the service, with a store and a queue that accept
everything, saves a record without error and hands no task to the queue: no
task at all carries `IsFinal = true`. -/
theorem C6_no_final_task_sent (digitTable : Nat → Bool) (ids : IdSupply) (fuel : Nat)
    (exampleID userID : String) :
    ((NewExpression "~~3").Convert digitTable).map (fun r => r.2.2) = some none
    ∧ ∃ run, CalculatorService.Calculate ⟨fun _ => none, fun _ => none⟩ digitTable ids (fuel + 1)
          exampleID ⟨"", "~~3", userID, none, [], ""⟩ = some run
        ∧ run.sent = [] ∧ run.err = none
        ∧ run.result = some ⟨exampleID, "~~3", userID, none, [], ""⟩ :=
  ⟨rfl, _, rfl, rfl, rfl, rfl⟩

/-! ## Bytes and runes -/

theorem char_toNat_lt (c : Char) : c.toNat < 0x110000 := by
  have h := c.valid
  unfold UInt32.isValidChar Nat.isValidChar at h
  unfold Char.toNat
  omega

theorem char_eq_of_toNat {c d : Char} (h : c.toNat = d.toNat) : c = d := by
  apply Char.ext
  unfold Char.toNat at h
  exact UInt32.ext h

theorem char_eq_iff_toNat (c d : Char) : c = d ↔ c.toNat = d.toNat :=
  ⟨fun h => by rw [h], char_eq_of_toNat⟩

theorem utf8EncodeRune_ascii {r : Nat} (h : r < 128) : utf8EncodeRune r = [r] := by
  unfold utf8EncodeRune; simp [h]

theorem utf8EncodeRune_high {r : Nat} (h : 128 ≤ r) (h2 : r < 0x110000) :
    ∃ b rest, utf8EncodeRune r = b :: rest ∧ (128 ≤ b ∧ b < 256)
      ∧ ∀ x ∈ rest, 128 ≤ x ∧ x < 256 := by
  unfold utf8EncodeRune
  have h0 : ¬ r < 128 := by omega
  simp only [h0, if_false]
  split
  · exact ⟨_, _, rfl, by omega, by intro x hx; simp at hx; omega⟩
  · split
    · exact ⟨_, _, rfl, by omega, by intro x hx; simp at hx; omega⟩
    · exact ⟨_, _, rfl, by omega, by intro x hx; simp at hx; omega⟩

/-- The encoding of a character: one byte equal to the code point when it is
ASCII, otherwise bytes that all lie in `128..255`. -/
theorem utf8_char_cases (c : Char) :
    (c.toNat < 128 ∧ utf8EncodeRune c.toNat = [c.toNat])
    ∨ (128 ≤ c.toNat ∧ ∃ b rest, utf8EncodeRune c.toNat = b :: rest ∧ (128 ≤ b ∧ b < 256)
        ∧ ∀ x ∈ rest, 128 ≤ x ∧ x < 256) := by
  by_cases h : c.toNat < 128
  · exact Or.inl ⟨h, utf8EncodeRune_ascii h⟩
  · exact Or.inr ⟨by omega, utf8EncodeRune_high (by omega) (char_toNat_lt c)⟩

theorem utf8Bytes_nil : utf8Bytes [] = [] := rfl

theorem utf8Bytes_cons (c : Char) (t : List Char) :
    utf8Bytes (c :: t) = utf8EncodeRune c.toNat ++ utf8Bytes t := by
  simp [utf8Bytes, List.flatMap_cons]

theorem utf8Bytes_append (s t : List Char) :
    utf8Bytes (s ++ t) = utf8Bytes s ++ utf8Bytes t := by
  simp [utf8Bytes, List.flatMap_append]

/-- The first byte of a non-empty text, related to its first character. -/
theorem utf8Bytes_head (c : Char) (t : List Char) :
    ∃ b rest, utf8Bytes (c :: t) = b :: rest ∧ b < 256
      ∧ ((c.toNat < 128 ∧ b = c.toNat) ∨ (128 ≤ c.toNat ∧ 128 ≤ b)) := by
  rw [utf8Bytes_cons]
  rcases utf8_char_cases c with ⟨h, he⟩ | ⟨h, b, rest, he, hb, _⟩
  · exact ⟨c.toNat, utf8Bytes t, by simp [he], by omega, Or.inl ⟨h, rfl⟩⟩
  · exact ⟨b, rest ++ utf8Bytes t, by simp [he], hb.2, Or.inr ⟨h, hb.1⟩⟩

/-! ## The character tests on code points -/

theorem containsRune_binary (b : Nat) :
    stringsContainsRune "+-*/^" b = true ↔ (b = 43 ∨ b = 45 ∨ b = 42 ∨ b = 47 ∨ b = 94) := by
  simp [stringsContainsRune, List.any_cons]
  omega

theorem containsRune_last (b : Nat) :
    stringsContainsRune "+-*/^~" b = true
      ↔ (b = 43 ∨ b = 45 ∨ b = 42 ∨ b = 47 ∨ b = 94 ∨ b = 126) := by
  simp [stringsContainsRune, List.any_cons]
  omega

theorem containsRune_allowed (b : Nat) :
    stringsContainsRune "+-*/().~^" b = true
      ↔ (b = 43 ∨ b = 45 ∨ b = 42 ∨ b = 47 ∨ b = 40 ∨ b = 41 ∨ b = 46 ∨ b = 126 ∨ b = 94) := by
  simp [stringsContainsRune, List.any_cons]
  omega

theorem isBinaryOperatorChar_iff (c : Char) :
    isBinaryOperatorChar c = true
      ↔ (c.toNat = 43 ∨ c.toNat = 45 ∨ c.toNat = 42 ∨ c.toNat = 47 ∨ c.toNat = 94) := by
  simp [isBinaryOperatorChar, char_eq_iff_toNat]
  omega

theorem isAsciiDigit_iff (c : Char) :
    isAsciiDigit c = true ↔ (48 ≤ c.toNat ∧ c.toNat ≤ 57) := by
  simp [isAsciiDigit]

theorem unicodeIsDigit_byte (digitTable : Nat → Bool) {b : Nat} (h : b < 256) :
    unicodeIsDigit digitTable b = true ↔ (48 ≤ b ∧ b ≤ 57) := by
  have h1 : b ≤ 255 := by omega
  simp [unicodeIsDigit, h1]

/-! ## The first validator loop, character by character -/

theorem alphabet_test (digitTable : Nat → Bool) (c : Char) :
    (!unicodeIsDigit digitTable c.toNat && !stringsContainsRune "+-*/().~^" c.toNat)
      = !(isUnicodeDigit digitTable c || c = '.' || isBinaryOperatorChar c || c = '~'
            || c = '(' || c = ')') := by
  have e1 : ('.' : Char).toNat = 46 := rfl
  have e2 : ('~' : Char).toNat = 126 := rfl
  have e3 : ('(' : Char).toNat = 40 := rfl
  have e4 : (')' : Char).toNat = 41 := rfl
  have hb := isBinaryOperatorChar_iff c
  have ha := containsRune_allowed c.toNat
  rw [Bool.eq_iff_iff]
  cases h1 : unicodeIsDigit digitTable c.toNat <;>
  cases h2 : isBinaryOperatorChar c <;>
  cases h3 : stringsContainsRune "+-*/().~^" c.toNat <;>
  simp [isUnicodeDigit, h1, h2, h3, char_eq_iff_toNat, e1, e2, e3, e4] <;>
  simp [h2, h3] at hb ha <;> omega

theorem utf8Bytes_eq_nil {t : List Char} (h : utf8Bytes t = []) : t = [] := by
  cases t with
  | nil => rfl
  | cons c t =>
    obtain ⟨b, rest, he, _⟩ := utf8Bytes_head c t
    rw [he] at h; cases h

theorem allowedLoop_eq (digitTable : Nat → Bool) : ∀ (rest pre : List Char),
    allowedLoop digitTable (utf8Bytes (pre ++ rest)) (utf8Bytes pre).length rest
      = (ruleAlphabet (isUnicodeDigit digitTable) rest && rulePoints isAsciiDigit rest) := by
  intro rest
  induction rest with
  | nil => intro pre; simp [allowedLoop, ruleAlphabet, rulePoints]
  | cons ch rest ih =>
    intro pre
    have hstep : pre ++ ch :: rest = (pre ++ [ch]) ++ rest := by simp
    have hlen : (utf8Bytes (pre ++ [ch])).length
        = (utf8Bytes pre).length + (utf8EncodeRune ch.toNat).length := by
      simp [utf8Bytes_append, utf8Bytes_cons, utf8Bytes_nil]
    have ih' := ih (pre ++ [ch])
    rw [← hstep, hlen] at ih'
    unfold allowedLoop
    rw [alphabet_test, ih']
    simp only [ruleAlphabet, List.all_cons, rulePoints]
    cases hok : (isUnicodeDigit digitTable ch || decide (ch = '.') || isBinaryOperatorChar ch
        || decide (ch = '~') || decide (ch = '(') || decide (ch = ')'))
    · simp
    · by_cases hdot : ch = '.'
      · subst hdot
        cases rest with
        | nil =>
          simp [utf8Bytes_append, utf8Bytes_cons, utf8Bytes_nil, utf8EncodeRune]
        | cons d rest =>
          obtain ⟨b, tail, he, hb, hcase⟩ := utf8Bytes_head d rest
          have hbytes : utf8Bytes (pre ++ '.' :: d :: rest) = utf8Bytes pre ++ (46 :: b :: tail) := by
            rw [utf8Bytes_append, utf8Bytes_cons, he]; rfl
          have hne : ¬ (utf8Bytes pre).length = (utf8Bytes (pre ++ '.' :: d :: rest)).length - 1 := by
            rw [hbytes]; simp
          have hget : (utf8Bytes (pre ++ '.' :: d :: rest)).getD ((utf8Bytes pre).length + 1) 0 = b := by
            rw [hbytes, List.getD_append_right _ _ _ _ (by omega)]
            simp
          have hdig : unicodeIsDigit digitTable b = isAsciiDigit d := by
            rw [Bool.eq_iff_iff, unicodeIsDigit_byte digitTable hb, isAsciiDigit_iff]
            omega
          simp only [hne, if_false, hget, hdig]
          cases hd : isAsciiDigit d <;> simp [hd]
      · simp [hdot]

/-! ## The bracket loop and the running depth -/

theorem runningDepth_zero (t : List Char) : runningDepth t 0 = 0 := by
  simp [runningDepth]

theorem runningDepth_cons (c : Char) (t : List Char) (n : Nat) :
    runningDepth (c :: t) (n + 1)
      = (if c = '(' then 1 else 0) - (if c = ')' then 1 else 0) + runningDepth t n := by
  simp only [runningDepth, List.take_succ_cons, List.count_cons, beq_iff_eq]
  by_cases h1 : c = '(' <;> by_cases h2 : c = ')' <;> simp [h1, h2] <;> omega

theorem bracketLoop_iff : ∀ (t : List Char) (b b' : Int), 0 ≤ b →
    (bracketLoop b t = some b'
      ↔ (∀ n, n ≤ t.length → 0 ≤ b + runningDepth t n) ∧ b' = b + runningDepth t t.length) := by
  intro t
  induction t with
  | nil =>
    intro b b' hb
    simp only [bracketLoop, List.length_nil, Nat.le_zero]
    constructor
    · intro h
      have : b = b' := by simpa using h
      subst this
      exact ⟨by intro n hn; subst hn; simpa [runningDepth_zero] using hb, by simp [runningDepth_zero]⟩
    · rintro ⟨_, h⟩
      simp [runningDepth_zero] at h
      simp [h]
  | cons c t ih =>
    intro b b' hb
    have hall : ∀ (P : Nat → Prop), (∀ n, n ≤ (c :: t).length → P n)
        ↔ (P 0 ∧ ∀ n, n ≤ t.length → P (n + 1)) := by
      intro P
      constructor
      · intro h
        exact ⟨h 0 (by simp), fun n hn => h (n + 1) (by simpa using hn)⟩
      · rintro ⟨h0, h1⟩ n hn
        cases n with
        | zero => exact h0
        | succ n => exact h1 n (by simpa using hn)
    rw [hall]
    simp only [List.length_cons, runningDepth_cons, runningDepth_zero, add_zero]
    unfold bracketLoop
    by_cases h1 : c = '('
    · subst h1
      simp only [if_true]
      rw [ih (b + 1) b' (by omega)]
      have : ¬ ('(' : Char) = ')' := by decide
      simp only [this, if_false]
      constructor
      · rintro ⟨h, e⟩
        exact ⟨⟨hb, fun n hn => by have := h n hn; omega⟩, by omega⟩
      · rintro ⟨⟨_, h⟩, e⟩
        exact ⟨fun n hn => by have := h n hn; omega, by omega⟩
    · by_cases h2 : c = ')'
      · subst h2
        simp only [h1, if_false, if_true]
        by_cases hneg : b - 1 < 0
        · simp only [hneg, if_true]
          constructor
          · intro h; cases h
          · rintro ⟨⟨_, h⟩, _⟩
            have := h 0 (by omega)
            rw [runningDepth_zero] at this
            omega
        · simp only [hneg, if_false]
          rw [ih (b - 1) b' (by omega)]
          constructor
          · rintro ⟨h, e⟩
            exact ⟨⟨hb, fun n hn => by have := h n hn; omega⟩, by omega⟩
          · rintro ⟨⟨_, h⟩, e⟩
            exact ⟨fun n hn => by have := h n hn; omega, by omega⟩
      · simp only [h1, h2, if_false]
        rw [ih b b' hb]
        constructor
        · rintro ⟨h, e⟩
          exact ⟨⟨hb, fun n hn => by have := h n hn; omega⟩, by omega⟩
        · rintro ⟨⟨_, h⟩, e⟩
          exact ⟨fun n hn => by have := h n hn; omega, by omega⟩

theorem ruleBalanced_iff (t : List Char) :
    ruleBalanced t = true
      ↔ (∀ n, n ≤ t.length → 0 ≤ runningDepth t n) ∧ runningDepth t t.length = 0 := by
  simp only [ruleBalanced, Bool.and_eq_true, List.all_eq_true, List.mem_range, decide_eq_true_eq]
  constructor
  · rintro ⟨h, e⟩; exact ⟨fun n hn => h n (by omega), e⟩
  · rintro ⟨h, e⟩; exact ⟨fun n hn => h n (by omega), e⟩

theorem bracketLoop_balanced (t : List Char) :
    bracketLoop 0 t = some 0 ↔ ruleBalanced t = true := by
  rw [bracketLoop_iff t 0 0 (le_refl 0), ruleBalanced_iff]
  simp only [zero_add]
  constructor
  · rintro ⟨h, e⟩; exact ⟨h, e.symm⟩
  · rintro ⟨h, e⟩; exact ⟨h, e.symm⟩

/-! ## The operator loop: from indices to bytes to characters -/

theorem operatorLoop_eq (digitTable : Nat → Bool) (expr : List Nat) :
    ∀ (n i : Nat), n = expr.length - 1 - i →
      operatorLoop digitTable expr n i = bytePairsOk digitTable (expr.drop i) := by
  intro n
  induction n with
  | zero =>
    intro i h
    have hlen : (expr.drop i).length ≤ 1 := by simp; omega
    unfold operatorLoop
    match hd : expr.drop i, hlen with
    | [], _ => simp [bytePairsOk]
    | [_], _ => simp [bytePairsOk]
    | _ :: _ :: _, hl => simp at hl
  | succ n ih =>
    intro i h
    have h1 : i < expr.length := by omega
    have h2 : i + 1 < expr.length := by omega
    have hd1 : expr.drop i = expr[i] :: expr[i + 1] :: expr.drop (i + 2) := by
      rw [List.drop_eq_getElem_cons h1, List.drop_eq_getElem_cons h2]
    have hd2 : expr.drop (i + 1) = expr[i + 1] :: expr.drop (i + 2) := by
      rw [List.drop_eq_getElem_cons h2]
    have hne : ¬ i = expr.length - 1 := by omega
    unfold operatorLoop
    rw [hd1]
    unfold bytePairsOk
    rw [ih (i + 1) (by omega), hd2, List.getD_eq_getElem _ _ h1, List.getD_eq_getElem _ _ h2]
    simp only [hne, if_false]

/-- A byte in `128..255` passes every test of the pair loop. -/
theorem bytePairsOk_high (digitTable : Nat → Bool) {h : Nat} (hh : 128 ≤ h) (l : List Nat) :
    bytePairsOk digitTable (h :: l) = bytePairsOk digitTable l := by
  cases l with
  | nil => simp [bytePairsOk]
  | cons m l =>
    have h1 : stringsContainsRune "+-*/^" h = false := by
      rw [← Bool.not_eq_true, containsRune_binary]; omega
    have h2 : ¬ h = 126 := by omega
    rw [bytePairsOk]
    simp only [h1, Bool.false_and, h2, if_false]
    simp

theorem bytePairsOk_high_append (digitTable : Nat → Bool) :
    ∀ (hs : List Nat), (∀ x ∈ hs, 128 ≤ x ∧ x < 256) → ∀ l,
      bytePairsOk digitTable (hs ++ l) = bytePairsOk digitTable l := by
  intro hs
  induction hs with
  | nil => intro _ l; rfl
  | cons h hs ih =>
    intro hall l
    rw [List.cons_append, bytePairsOk_high digitTable (hall h (by simp)).1]
    exact ih (fun x hx => hall x (by simp [hx])) l

/-- The tests of the validator on the first byte of a character agree with
the tests on the character itself. -/
theorem first_byte_tests (digitTable : Nat → Bool) {d : Char} {fb : Nat} (hlt : fb < 256)
    (hcase : (d.toNat < 128 ∧ fb = d.toNat) ∨ (128 ≤ d.toNat ∧ 128 ≤ fb)) :
    stringsContainsRune "+-*/^" fb = isBinaryOperatorChar d
    ∧ unicodeIsDigit digitTable fb = isAsciiDigit d
    ∧ (fb = 40 ↔ d = '(') ∧ (fb = 126 ↔ d = '~')
    ∧ stringsContainsRune "+-*/^~" fb = (isBinaryOperatorChar d || decide (d = '~')) := by
  have e1 : ('~' : Char).toNat = 126 := rfl
  have e3 : ('(' : Char).toNat = 40 := rfl
  refine ⟨?_, ?_, ?_, ?_, ?_⟩
  · rw [Bool.eq_iff_iff, containsRune_binary, isBinaryOperatorChar_iff]; omega
  · rw [Bool.eq_iff_iff, unicodeIsDigit_byte digitTable hlt, isAsciiDigit_iff]; omega
  · rw [char_eq_iff_toNat, e3]; omega
  · rw [char_eq_iff_toNat, e1]; omega
  · rw [Bool.eq_iff_iff, containsRune_last, Bool.or_eq_true, isBinaryOperatorChar_iff,
      decide_eq_true_eq, char_eq_iff_toNat, e1]
    omega

theorem bytePairsOk_chars (digitTable : Nat → Bool) : ∀ (t : List Char),
    bytePairsOk digitTable (utf8Bytes t) = charPairsOk t := by
  intro t
  induction t with
  | nil => rfl
  | cons c t ih =>
    rw [utf8Bytes_cons]
    rcases utf8_char_cases c with ⟨hc, he⟩ | ⟨hc, b, rest, he, hb, hrest⟩
    · rw [he]
      cases t with
      | nil => simp [utf8Bytes_nil, bytePairsOk, charPairsOk]
      | cons d t =>
        obtain ⟨fb, tail, hfb, hlt, hcase⟩ := utf8Bytes_head d t
        rw [hfb] at ih
        rw [hfb]
        simp only [List.singleton_append]
        rw [bytePairsOk, charPairsOk, ih]
        obtain ⟨t1, t2, t3, t4, _⟩ := first_byte_tests digitTable hlt hcase
        obtain ⟨s1, _, _, s4, _⟩ :=
          @first_byte_tests digitTable c c.toNat (by omega) (Or.inl ⟨hc, rfl⟩)
        rw [s1, t1, t2]
        by_cases hct : c = '~'
        · have hc126 : c.toNat = 126 := s4.2 hct
          by_cases hd1 : d = '('
          · have := t3.2 hd1
            cases isBinaryOperatorChar c <;> cases isBinaryOperatorChar d <;>
              cases isAsciiDigit d <;> simp [hct, hc126, hd1, this]
          · have h40 : ¬ fb = 40 := fun h => hd1 (t3.1 h)
            by_cases hd2 : d = '~'
            · have := t4.2 hd2
              cases isBinaryOperatorChar c <;> cases isBinaryOperatorChar d <;>
                cases isAsciiDigit d <;> simp [hct, hc126, hd2, this]
            · have h126 : ¬ fb = 126 := fun h => hd2 (t4.1 h)
              cases isBinaryOperatorChar c <;> cases isBinaryOperatorChar d <;>
                cases isAsciiDigit d <;> simp [hct, hc126, hd1, hd2, h40, h126]
        · have hc126 : ¬ c.toNat = 126 := fun h => hct (s4.1 h)
          cases isBinaryOperatorChar c <;> cases isBinaryOperatorChar d <;>
            simp [hct, hc126]
    · rw [he]
      have hall : ∀ x ∈ b :: rest, 128 ≤ x ∧ x < 256 := by
        intro x hx
        rcases List.mem_cons.1 hx with h | h
        · rw [h]; exact hb
        · exact hrest x h
      rw [bytePairsOk_high_append digitTable _ hall, ih]
      cases t with
      | nil => simp [charPairsOk]
      | cons d t =>
        rw [charPairsOk]
        have e1 : ('~' : Char).toNat = 126 := rfl
        have hbc := isBinaryOperatorChar_iff c
        have h1 : isBinaryOperatorChar c = false := by
          rw [← Bool.not_eq_true, hbc]; omega
        have h2 : ¬ c = '~' := by rw [char_eq_iff_toNat, e1]; omega
        simp [h1, h2]

/-! ## First and last byte of the text -/

theorem first_byte_rule (digitTable : Nat → Bool) (c : Char) (t : List Char) :
    isDigitOrUnaryMinusOrOpenParen digitTable ((utf8Bytes (c :: t)).getD 0 0)
      = ruleFirst isAsciiDigit (c :: t) := by
  obtain ⟨fb, tail, hfb, hlt, hcase⟩ := utf8Bytes_head c t
  obtain ⟨_, t2, t3, t4, _⟩ := first_byte_tests digitTable hlt hcase
  rw [hfb]
  simp only [List.getD_cons_zero, isDigitOrUnaryMinusOrOpenParen, t2, ruleFirst, List.head?_cons,
    decide_eq_decide.2 t3, decide_eq_decide.2 t4]

theorem utf8Bytes_last (init : List Char) (c : Char) :
    ∃ lb, (utf8Bytes (init ++ [c])).getD ((utf8Bytes (init ++ [c])).length - 1) 0 = lb
      ∧ lb < 256 ∧ ((c.toNat < 128 ∧ lb = c.toNat) ∨ (128 ≤ c.toNat ∧ 128 ≤ lb)) := by
  have hb : utf8Bytes (init ++ [c]) = utf8Bytes init ++ utf8EncodeRune c.toNat := by
    rw [utf8Bytes_append, utf8Bytes_cons, utf8Bytes_nil, List.append_nil]
  rw [hb]
  rcases utf8_char_cases c with ⟨hc, he⟩ | ⟨hc, b, rest, he, hb', hrest⟩
  · refine ⟨c.toNat, ?_, by omega, Or.inl ⟨hc, rfl⟩⟩
    rw [he, List.getD_append_right _ _ _ _ (by simp)]
    simp
  · rw [he]
    have hidx : (utf8Bytes init ++ b :: rest).length - 1 - (utf8Bytes init).length = rest.length := by
      simp
    have hlt : rest.length < (b :: rest).length := by simp
    have hmem : (b :: rest)[rest.length] ∈ b :: rest := List.getElem_mem hlt
    have hhigh : 128 ≤ (b :: rest)[rest.length] ∧ (b :: rest)[rest.length] < 256 := by
      rcases List.mem_cons.1 hmem with h | h
      · rw [h]; exact hb'
      · exact hrest _ h
    refine ⟨(b :: rest)[rest.length], ?_, hhigh.2, Or.inr ⟨hc, hhigh.1⟩⟩
    rw [List.getD_append_right _ _ _ _ (by simp), hidx, List.getD_eq_getElem _ _ hlt]

theorem last_byte_rule (t : List Char) (ht : t ≠ []) :
    stringsContainsRune "+-*/^~" ((utf8Bytes t).getD ((utf8Bytes t).length - 1) 0)
      = !ruleLast t := by
  obtain ⟨init, c, rfl⟩ : ∃ init c, t = init ++ [c] :=
    ⟨t.dropLast, t.getLast ht, (List.dropLast_append_getLast ht).symm⟩
  obtain ⟨lb, hlb, hlt, hcase⟩ := utf8Bytes_last init c
  obtain ⟨_, _, _, _, t5⟩ := first_byte_tests (fun _ => false) hlt hcase
  rw [hlb, t5]
  simp [ruleLast, List.getLast?_concat]

/-! ## The pair test and rules 5, 6, 8 -/

theorem ruleLast_cons_cons (c d : Char) (t : List Char) :
    ruleLast (c :: d :: t) = ruleLast (d :: t) := by
  simp [ruleLast, List.getLast?_cons_cons]

theorem charPairs_rules : ∀ (t : List Char) (c : Char),
    (charPairsOk (c :: t) = true ∧ ruleLast (c :: t) = true)
      ↔ (ruleNoAdjacentBinary (c :: t) = true ∧ ruleUnaryMinus isAsciiDigit (c :: t) = true
          ∧ ruleLast (c :: t) = true) := by
  intro t
  induction t with
  | nil =>
    intro c
    simp only [charPairsOk, ruleNoAdjacentBinary, ruleUnaryMinus, ruleLast, List.getLast?_singleton]
    by_cases h : c = '~' <;> cases isBinaryOperatorChar c <;> simp [h]
  | cons d t ih =>
    intro c
    have ih' := ih d
    rw [ruleLast_cons_cons, charPairsOk, ruleNoAdjacentBinary, ruleUnaryMinus]
    simp only [Bool.and_eq_true]
    have key : ((!decide (c = '~') || (decide (d = '(') || isAsciiDigit d || decide (d = '~'))) = true)
        ↔ ((if c = '~' then (isAsciiDigit d || decide (d = '(') || decide (d = '~')) else true) = true) := by
      by_cases h : c = '~' <;> simp [h]
      cases isAsciiDigit d <;> simp
    rw [key]
    constructor
    · rintro ⟨⟨⟨h1, h2⟩, h3⟩, h4⟩
      obtain ⟨a1, a2, a3⟩ := ih'.1 ⟨h3, h4⟩
      exact ⟨⟨h1, a1⟩, ⟨h2, a2⟩, a3⟩
    · rintro ⟨⟨h1, a1⟩, ⟨h2, a2⟩, a3⟩
      obtain ⟨h3, h4⟩ := ih'.2 ⟨a1, a2, a3⟩
      exact ⟨⟨⟨h1, h2⟩, h3⟩, h4⟩

/-! ## The validator, rule by rule -/

/-- The validator computes the conjunction of its four loops and two end
tests, each read on the characters of the space-free text. -/
theorem validator_loops (digitTable : Nat → Bool) (s : Expression) :
    s.IsValidMathExpression digitTable = true
      ↔ (removeSpaces s.Infix.data ≠ []
          ∧ ruleAlphabet (isUnicodeDigit digitTable) (removeSpaces s.Infix.data) = true
          ∧ rulePoints isAsciiDigit (removeSpaces s.Infix.data) = true
          ∧ ruleBalanced (removeSpaces s.Infix.data) = true
          ∧ charPairsOk (removeSpaces s.Infix.data) = true
          ∧ ruleFirst isAsciiDigit (removeSpaces s.Infix.data) = true
          ∧ ruleLast (removeSpaces s.Infix.data) = true) := by
  have hdata : (stringsReplaceAllSpace s.Infix).data = removeSpaces s.Infix.data := rfl
  generalize ht : removeSpaces s.Infix.data = t at hdata
  unfold Expression.IsValidMathExpression
  simp only [hdata]
  have hempty : (stringsReplaceAllSpace s.Infix = "") ↔ t = [] := by
    rw [String.ext_iff, hdata]
  cases t with
  | nil => simp [hempty]
  | cons c t =>
    have hne : ¬ stringsReplaceAllSpace s.Infix = "" := by rw [hempty]; simp
    have hA := allowedLoop_eq digitTable (c :: t) []
    simp only [List.nil_append, utf8Bytes_nil, List.length_nil] at hA
    have hO := operatorLoop_eq digitTable (utf8Bytes (c :: t)) ((utf8Bytes (c :: t)).length - 1) 0
      (by omega)
    rw [List.drop_zero, bytePairsOk_chars] at hO
    have hF := first_byte_rule digitTable c t
    have hL := last_byte_rule (c :: t) (by simp)
    have hB := bracketLoop_balanced (c :: t)
    simp only [hne, if_false, hA, hO, hF, hL]
    cases hb : bracketLoop 0 (c :: t) with
    | none =>
      have : ¬ ruleBalanced (c :: t) = true := by rw [← hB, hb]; simp
      simp [this]
    | some b =>
      by_cases hb0 : b = 0
      · subst hb0
        have : ruleBalanced (c :: t) = true := hB.1 hb
        cases h1 : ruleAlphabet (isUnicodeDigit digitTable) (c :: t) <;>
        cases h2 : rulePoints isAsciiDigit (c :: t) <;>
        cases h3 : charPairsOk (c :: t) <;>
        cases h4 : ruleFirst isAsciiDigit (c :: t) <;>
        cases h5 : ruleLast (c :: t) <;> simp [this]
      · have : ¬ ruleBalanced (c :: t) = true := by
          rw [← hB, hb]; simpa using hb0
        simp [hb0, this]

/-! ## The converter never panics on a validated text -/

theorem singleton_eq_iff (i c : Char) : String.singleton i = String.singleton c ↔ i = c := by
  constructor
  · intro h
    have := String.ext_iff.1 h
    simpa [String.singleton] using this
  · intro h; rw [h]

theorem popOperators_count (value : Nat) (sign : String) :
    ∀ (stack list : List String),
      (popOperators value sign stack list).1.count "(" = stack.count "(" := by
  intro stack
  induction stack with
  | nil => intro list; simp [popOperators]
  | cons top rest ih =>
    intro list
    unfold popOperators
    by_cases h : top = "("
    · simp [h]
    · have hc : (top :: rest).count "(" = rest.count "(" := by
        simp [List.count_cons, h]
      simp only [h, if_false]
      split
      · rw [ih, hc]
      · split
        · split
          · rw [ih, hc]
          · rfl
        · rfl

theorem popUntilOpen_some :
    ∀ (stack list : List String), 0 < stack.count "(" →
      ∃ rest list', popUntilOpen stack list = some ("(" :: rest, list')
        ∧ ("(" :: rest).count "(" = stack.count "(" := by
  intro stack
  induction stack with
  | nil => intro list h; simp at h
  | cons top rest ih =>
    intro list h
    unfold popUntilOpen
    by_cases ht : top = "("
    · subst ht
      exact ⟨rest, list, by simp, rfl⟩
    · have hc : (top :: rest).count "(" = rest.count "(" := by
        simp [List.count_cons, ht]
      rw [hc] at h
      obtain ⟨r, l', h1, h2⟩ := ih (list ++ [top]) h
      exact ⟨r, l', by simp [ht, h1], by rw [h2, hc]⟩

theorem not_digit_of_paren (digitTable : Nat → Bool) {i : Char} (h : i = '(' ∨ i = ')') :
    unicodeIsDigit digitTable i.toNat = false := by
  rcases h with h | h <;> subst h <;> rfl

/-- The state after the number handling of one converter step. -/
theorem flush_stack (st : ConvertState) (sign : String) :
    (if sign = "." then { st with number := st.number ++ ['.'] }
      else if st.number.length ≠ 0 then
        { st with list := st.list ++ [String.mk st.number], number := [] }
      else st : ConvertState).stack = st.stack := by
  split
  · rfl
  · split <;> rfl

/-- One step of the converter keeps the number of `(` on the operator stack
equal to the running depth of the validator's bracket loop. -/
theorem convertStep_depth (digitTable : Nat → Bool) (st : ConvertState) (i : Char) :
    (i = '(' → ∃ st', convertStep digitTable st i = some st'
        ∧ st'.stack.list.count "(" = st.stack.list.count "(" + 1)
    ∧ (i = ')' → 0 < st.stack.list.count "(" → ∃ st', convertStep digitTable st i = some st'
        ∧ st'.stack.list.count "(" + 1 = st.stack.list.count "(")
    ∧ (i ≠ '(' → i ≠ ')' → ∃ st', convertStep digitTable st i = some st'
        ∧ st'.stack.list.count "(" = st.stack.list.count "(") := by
  refine ⟨?_, ?_, ?_⟩
  · intro h
    subst h
    have hs : String.singleton '(' = "(" := rfl
    simp only [convertStep, not_digit_of_paren digitTable (Or.inl rfl), hs]
    simp [OperatorPriority, Stack.Push, popOperators_count]
    split <;> simp [popOperators_count]
  · intro h hpos
    subst h
    have hs : String.singleton ')' = ")" := rfl
    have hp : OperatorPriority ")" = none := rfl
    have hd : (")" : String) ≠ "." := by decide
    simp only [convertStep, not_digit_of_paren digitTable (Or.inr rfl), hs, hp, hd, if_false,
      if_true, Bool.false_eq_true]
    generalize hst1 : (if st.number.length ≠ 0 then
        ({ st with list := st.list ++ [String.mk st.number], number := [] } : ConvertState)
      else st) = st1
    have hstack : st1.stack = st.stack := by
      rw [← hst1]; split <;> rfl
    rw [← hstack] at hpos
    obtain ⟨rest, list', h1, h2⟩ := popUntilOpen_some st1.stack.list st1.list hpos
    rw [h1]
    refine ⟨_, rfl, ?_⟩
    simp only [Stack.Pop]
    rw [← hstack, ← h2]
    simp
  · intro h1 h2
    by_cases hdig : unicodeIsDigit digitTable i.toNat = true
    · exact ⟨{ st with number := st.number ++ [i] }, by simp [convertStep, hdig], rfl⟩
    · have hne : String.singleton i ≠ "(" := by
        intro h; exact h1 ((singleton_eq_iff i '(').1 h)
      simp only [convertStep, hdig, if_false, h2, Bool.false_eq_true]
      generalize hst1 : (if String.singleton i = "." then
          ({ st with number := st.number ++ ['.'] } : ConvertState)
        else if st.number.length ≠ 0 then
          { st with list := st.list ++ [String.mk st.number], number := [] }
        else st) = st1
      have hstack : st1.stack = st.stack := by
        rw [← hst1]; exact flush_stack st _
      cases hop : OperatorPriority (String.singleton i) with
      | none => exact ⟨_, rfl, by simp [hstack]⟩
      | some value =>
        refine ⟨_, rfl, ?_⟩
        simp only [Stack.Push]
        rw [List.count_cons, popOperators_count, hstack]
        simp [hne]

theorem convertLoop_no_panic (digitTable : Nat → Bool) :
    ∀ (t : List Char) (st : ConvertState) (b b' : Int), bracketLoop b t = some b' →
      (st.stack.list.count "(" : Int) = b → ∃ st', convertLoop digitTable st t = some st' := by
  intro t
  induction t with
  | nil => intro st b b' _ _; exact ⟨st, rfl⟩
  | cons i t ih =>
    intro st b b' hb hst
    obtain ⟨hopen, hclose, hother⟩ := convertStep_depth digitTable st i
    unfold bracketLoop at hb
    unfold convertLoop
    by_cases h1 : i = '('
    · obtain ⟨st1, e1, c1⟩ := hopen h1
      simp only [h1, if_true] at hb
      rw [e1]
      exact ih st1 (b + 1) b' hb (by rw [c1]; push_cast; omega)
    · by_cases h2 : i = ')'
      · simp only [h1, h2, if_false, if_true] at hb
        by_cases hneg : b - 1 < 0
        · simp [hneg] at hb
        · simp only [hneg, if_false] at hb
          obtain ⟨st1, e1, c1⟩ := hclose h2 (by omega)
          rw [e1]
          exact ih st1 (b - 1) b' hb (by omega)
      · simp only [h1, h2, if_false] at hb
        obtain ⟨st1, e1, c1⟩ := hother h1 h2
        rw [e1]
        exact ih st1 b b' hb (by rw [c1]; exact hst)

/-- A validated text is converted without a panic. -/
theorem convertTokens_of_valid (digitTable : Nat → Bool) (s : Expression)
    (h : s.IsValidMathExpression digitTable = true) :
    ∃ tokens, convertTokens digitTable (stringsReplaceAllSpace s.Infix) = some tokens := by
  have hb := (validator_loops digitTable s).1 h
  have hbal := (bracketLoop_balanced _).2 hb.2.2.2.1
  obtain ⟨st', hst'⟩ := convertLoop_no_panic digitTable _ ⟨[], NewStack, []⟩ 0 0 hbal (by simp [NewStack])
  have hdata : (stringsReplaceAllSpace s.Infix).data = removeSpaces s.Infix.data := rfl
  unfold convertTokens
  rw [hdata, hst']
  exact ⟨_, rfl⟩

/-- C7.  `Convert` returns the malformed-expression error together with
`false` exactly when the validator rejects `Infix`, and then the receiver is
returned as it was (its `Postfix` untouched); otherwise the conversion runs to
its end without a panic and `Convert` returns `true, nil` with `Postfix` set to
the output tokens joined by single spaces. -/
theorem C7_convert_contract (digitTable : Nat → Bool) (s : Expression) :
    (s.IsValidMathExpression digitTable = false
      ∧ s.Convert digitTable = some (s, false, some malformedError))
    ∨ (s.IsValidMathExpression digitTable = true
      ∧ ∃ tokens, convertTokens digitTable (stringsReplaceAllSpace s.Infix) = some tokens
        ∧ s.Convert digitTable
            = some ({ Infix := s.Infix, Postfix := stringsJoinSpace tokens }, true, none)) := by
  cases h : s.IsValidMathExpression digitTable with
  | false =>
    left
    exact ⟨rfl, by simp [Expression.Convert, Expression.Check, h]⟩
  | true =>
    right
    obtain ⟨tokens, ht⟩ := convertTokens_of_valid digitTable s h
    exact ⟨rfl, tokens, ht, by simp [Expression.Convert, Expression.Check, h, ht]⟩

/-! ## The scan for the leftmost operator -/

theorem findOperator_append (pre : List String) (sign : String) (post : List String)
    (hpre : ∀ x ∈ pre, OperatorPriority x = none) (hsign : (OperatorPriority sign).isSome = true) :
    ∀ k, findOperator (pre ++ sign :: post) k = some (k + pre.length, sign) := by
  induction pre with
  | nil => intro k; simp [findOperator, hsign]
  | cons x pre ih =>
    intro k
    have hx : OperatorPriority x = none := hpre x (by simp)
    have := ih (fun y hy => hpre y (by simp [hy])) (k + 1)
    have e : k + 1 + pre.length = k + (pre.length + 1) := by omega
    rw [e] at this
    simp only [List.cons_append, findOperator, hx, Option.isSome_none, Bool.false_eq_true,
      if_false, List.length_cons]
    exact this

theorem findOperator_none (expression : List String) :
    ∀ k, findOperator expression k = none → ∀ x ∈ expression, OperatorPriority x = none := by
  induction expression with
  | nil => intro k _ x hx; simp at hx
  | cons a rest ih =>
    intro k h x hx
    unfold findOperator at h
    by_cases ha : (OperatorPriority a).isSome = true
    · simp [ha] at h
    · simp only [ha, if_false] at h
      rcases List.mem_cons.1 hx with e | e
      · rw [e]; simpa using ha
      · exact ih (k + 1) h x e

theorem findOperator_some (expression : List String) :
    ∀ k index sign, findOperator expression k = some (index, sign) →
      ∃ pre post, expression = pre ++ sign :: post ∧ index = k + pre.length
        ∧ (∀ x ∈ pre, OperatorPriority x = none) ∧ (OperatorPriority sign).isSome = true := by
  induction expression with
  | nil => intro k index sign h; simp [findOperator] at h
  | cons a rest ih =>
    intro k index sign h
    unfold findOperator at h
    by_cases ha : (OperatorPriority a).isSome = true
    · simp only [ha, if_true, Option.some.injEq, Prod.mk.injEq] at h
      obtain ⟨h1, h2⟩ := h
      subst h1 h2
      exact ⟨[], rest, rfl, by simp, by simp, ha⟩
    · simp only [ha, if_false] at h
      obtain ⟨pre, post, e, hi, hp, hs⟩ := ih (k + 1) index sign h
      refine ⟨a :: pre, post, by rw [e]; rfl, by simp; omega, ?_, hs⟩
      intro x hx
      rcases List.mem_cons.1 hx with e | e
      · rw [e]; simpa using ha
      · exact hp x e

/-! ## The replacement functions -/

theorem replaceUnary_eq (pre : List String) (x sign : String) (post : List String) (v : String) :
    replaceUnary (pre ++ x :: sign :: post) (pre.length + 1) v = pre ++ v :: post := by
  unfold replaceUnary
  have h1 : ¬ ((pre.length + 1 : Nat) : Int) - 1 < 0 := by omega
  have h2 : ¬ ((pre.length + 1 : Nat) : Int) + 1 > ((pre ++ x :: sign :: post).length : Int) := by
    simp; omega
  simp only [h1, h2, if_false]
  have e1 : (((pre.length + 1 : Nat) : Int) - 1).toNat = pre.length := by omega
  have e2 : (((pre.length + 1 : Nat) : Int) + 1).toNat = pre.length + 2 := by omega
  rw [e1, e2]
  simp [List.take_append_eq_append_take, List.drop_append_eq_append_drop]

theorem replaceBinary_eq (pre : List String) (x y sign : String) (post : List String)
    (v : String) :
    replaceBinary (pre ++ x :: y :: sign :: post) (pre.length + 2) v = pre ++ v :: post := by
  unfold replaceBinary
  have h1 : ¬ ((pre.length + 2 : Nat) : Int) - 2 < 0 := by omega
  have h2 : ¬ ((pre.length + 2 : Nat) : Int) + 1 > ((pre ++ x :: y :: sign :: post).length : Int) := by
    simp; omega
  simp only [h1, h2, if_false]
  have e1 : (((pre.length + 2 : Nat) : Int) - 2).toNat = pre.length := by omega
  have e2 : (((pre.length + 2 : Nat) : Int) + 1).toNat = pre.length + 3 := by omega
  rw [e1, e2]
  simp [List.take_append_eq_append_take, List.drop_append_eq_append_drop]

/-! ## One pass of the loop, on a decomposed working sequence -/

theorem passOf_unary (pre : List String) (x : String) (post : List String) (v : String)
    (hpre : ∀ y ∈ pre ++ [x], OperatorPriority y = none) :
    passOf (pre ++ x :: "~" :: post) v
      = Pass.reduced (pre ++ v :: post) ⟨"0", x, "-", v, "", 0, false⟩ := by
  have hf := findOperator_append (pre ++ [x]) "~" post hpre (by decide) 0
  have e : pre ++ x :: "~" :: post = (pre ++ [x]) ++ "~" :: post := by simp
  unfold passOf
  rw [e, hf]
  have hlen : ¬ (0 + (pre ++ [x]).length < 1) := by simp
  simp only [if_true, hlen, if_false]
  have hl : 0 + (pre ++ [x]).length = pre.length + 1 := by simp
  rw [hl, ← e, replaceUnary_eq]
  have hg : (pre ++ x :: "~" :: post).getD (pre.length + 1 - 1) "" = x := by
    rw [List.getD_append_right _ _ _ _ (by simp)]; simp
  simp only [NewExample, hg]

theorem passOf_binary (pre : List String) (x y sign : String) (post : List String) (v : String)
    (hpre : ∀ z ∈ pre ++ [x, y], OperatorPriority z = none)
    (hsign : (OperatorPriority sign).isSome = true) (hne : sign ≠ "~") :
    passOf (pre ++ x :: y :: sign :: post) v
      = Pass.reduced (pre ++ v :: post) ⟨x, y, sign, v, "", 0, false⟩ := by
  have hf := findOperator_append (pre ++ [x, y]) sign post hpre hsign 0
  have e : pre ++ x :: y :: sign :: post = (pre ++ [x, y]) ++ sign :: post := by simp
  unfold passOf
  rw [e, hf]
  have hlen : ¬ (0 + (pre ++ [x, y]).length < 2) := by simp
  simp only [hne, hlen, if_false]
  have hl : 0 + (pre ++ [x, y]).length = pre.length + 2 := by simp
  rw [hl, ← e, replaceBinary_eq]
  have hg1 : (pre ++ x :: y :: sign :: post).getD (pre.length + 2 - 2) "" = x := by
    rw [List.getD_append_right _ _ _ _ (by simp)]; simp
  have hg2 : (pre ++ x :: y :: sign :: post).getD (pre.length + 2 - 1) "" = y := by
    rw [List.getD_append_right _ _ _ _ (by simp)]; simp
  simp only [NewExample, hg1, hg2]

/-- The four outcomes of a pass. -/
theorem passOf_cases (expression : List String) (v : String) :
    (passOf expression v = Pass.idle ∧ ∀ x ∈ expression, OperatorPriority x = none)
    ∨ passOf expression v = Pass.failed
    ∨ (∃ pre x post, expression = pre ++ x :: "~" :: post
        ∧ (∀ y ∈ pre ++ [x], OperatorPriority y = none)
        ∧ passOf expression v = Pass.reduced (pre ++ v :: post) ⟨"0", x, "-", v, "", 0, false⟩)
    ∨ (∃ pre x y sign post, expression = pre ++ x :: y :: sign :: post
        ∧ (∀ z ∈ pre ++ [x, y], OperatorPriority z = none)
        ∧ (OperatorPriority sign).isSome = true ∧ sign ≠ "~"
        ∧ passOf expression v
            = Pass.reduced (pre ++ v :: post) ⟨x, y, sign, v, "", 0, false⟩) := by
  cases hf : findOperator expression 0 with
  | none =>
    left
    exact ⟨by simp [passOf, hf], findOperator_none expression 0 hf⟩
  | some r =>
    obtain ⟨index, sign⟩ := r
    obtain ⟨P, post, he, hi, hP, hs⟩ := findOperator_some expression 0 index sign hf
    by_cases ht : sign = "~"
    · subst ht
      rcases List.eq_nil_or_concat P with hnil | ⟨pre, x, hcat⟩
      · right; left
        subst hnil
        simp at hi
        simp [passOf, hf, hi]
      · right; right; left
        have hcat' : P = pre ++ [x] := by simpa using hcat
        subst hcat'
        have he' : expression = pre ++ x :: "~" :: post := by rw [he]; simp
        exact ⟨pre, x, post, he', hP, by rw [he']; exact passOf_unary pre x post v hP⟩
    · rcases List.eq_nil_or_concat P with hnil | ⟨Q, y, hcat⟩
      · right; left
        subst hnil
        simp at hi
        simp [passOf, hf, hi, ht]
      · have hcat' : P = Q ++ [y] := by simpa using hcat
        subst hcat'
        rcases List.eq_nil_or_concat Q with hnil | ⟨pre, x, hcat2⟩
        · right; left
          subst hnil
          simp at hi
          simp [passOf, hf, hi, ht]
        · right; right; right
          have hcat2' : Q = pre ++ [x] := by simpa using hcat2
          subst hcat2'
          have he' : expression = pre ++ x :: y :: sign :: post := by rw [he]; simp
          have hP' : ∀ z ∈ pre ++ [x, y], OperatorPriority z = none := by
            intro z hz; exact hP z (by simpa using hz)
          exact ⟨pre, x, y, sign, post, he', hP', hs, ht,
            by rw [he']; exact passOf_binary pre x y sign post v hP' hs ht⟩

/-! ## The loop, pass by pass -/

theorem calculateLoop_done (ids : IdSupply) (fuel : Nat) (expression : List String)
    (results : List Task) (h : expression.length = 1) :
    calculateLoop ids fuel expression results = some (results, expression.getD 0 "") := by
  unfold calculateLoop; simp [h]

theorem calculateLoop_succ (ids : IdSupply) (fuel : Nat) (expression : List String)
    (results : List Task) (h : expression.length ≠ 1) :
    calculateLoop ids (fuel + 1) expression results
      = match passOf expression (ids.next results.length) with
        | Pass.idle => calculateLoop ids fuel expression results
        | Pass.failed => some ([], "")
        | Pass.reduced e t => calculateLoop ids fuel e (results ++ [t]) := by
  rw [calculateLoop]
  simp only [h, if_false, passOf]
  cases hf : findOperator expression 0 with
  | none => rfl
  | some r =>
    obtain ⟨index, sign⟩ := r
    simp only
    by_cases ht : sign = "~"
    · by_cases hi : index < 1 <;> simp [ht, hi, NewExample]
    · by_cases hi : index < 2 <;> simp [ht, hi, NewExample]

theorem calculateLoop_zero (ids : IdSupply) (expression : List String)
    (results : List Task) (h : expression.length ≠ 1) :
    calculateLoop ids 0 expression results = none := by
  unfold calculateLoop; simp [h]

/-! ## Producer before consumer -/

theorem produced_append (tokens : List String) (results : List Task) (t : Task)
    (hp : Produced tokens results)
    (ht : ∀ o, (o = t.Num1 ∨ o = t.Num2) →
      o = "0" ∨ o ∈ tokens ∨ o ∈ results.map Task.Variable) :
    Produced tokens (results ++ [t]) := by
  intro n u hu o ho
  by_cases hn : n < results.length
  · rw [List.getElem?_append_left hn] at hu
    rcases hp n u hu o ho with h | h | ⟨j, hj, hv⟩
    · exact Or.inl h
    · exact Or.inr (Or.inl h)
    · refine Or.inr (Or.inr ⟨j, hj, ?_⟩)
      rw [List.map_append, List.getElem?_append_left (by simp; omega)]
      exact hv
  · have hlen : n = results.length := by
      by_contra hne
      have : (results ++ [t])[n]? = none := List.getElem?_eq_none (by simp; omega)
      rw [this] at hu; cases hu
    subst hlen
    rw [List.getElem?_concat_length] at hu
    cases hu
    rcases ht o ho with h | h | h
    · exact Or.inl h
    · exact Or.inr (Or.inl h)
    · obtain ⟨j, hj⟩ := List.mem_iff_getElem?.1 h
      have hjl : j < (results.map Task.Variable).length := by
        by_contra hc
        rw [List.getElem?_eq_none (by omega)] at hj; cases hj
      refine Or.inr (Or.inr ⟨j, by simpa using hjl, ?_⟩)
      rw [List.map_append, List.getElem?_append_left hjl]
      exact hj

theorem known_step (tokens : List String) (results : List Task) (pre args : List String)
    (sign : String) (post : List String) (t : Task)
    (hk : Known tokens results (pre ++ args ++ sign :: post)) :
    Known tokens (results ++ [t]) (pre ++ t.Variable :: post) := by
  intro x hx
  have hmono : ∀ y, y ∈ tokens ∨ y ∈ results.map Task.Variable →
      y ∈ tokens ∨ y ∈ (results ++ [t]).map Task.Variable := by
    intro y hy
    rcases hy with h | h
    · exact Or.inl h
    · exact Or.inr (by simp only [List.map_append, List.mem_append]; exact Or.inl h)
  rcases List.mem_append.1 hx with h | h
  · exact hmono x (hk x (by simp [h]))
  · rcases List.mem_cons.1 h with h | h
    · right; simp [h]
    · exact hmono x (hk x (by simp [h]))

theorem loop_produced (ids : IdSupply) (tokens : List String) :
    ∀ (fuel : Nat) (expression : List String) (results T : List Task) (f : String),
      calculateLoop ids fuel expression results = some (T, f) →
      Produced tokens results → Known tokens results expression → Canonical results →
      Produced tokens T ∧ Canonical T := by
  intro fuel
  induction fuel with
  | zero =>
    intro expression results T f h hp hk hc
    by_cases hl : expression.length = 1
    · rw [calculateLoop_done ids 0 expression results hl] at h
      cases h; exact ⟨hp, hc⟩
    · rw [calculateLoop_zero ids expression results hl] at h; cases h
  | succ fuel ih =>
    intro expression results T f h hp hk hc
    by_cases hl : expression.length = 1
    · rw [calculateLoop_done ids _ expression results hl] at h
      cases h; exact ⟨hp, hc⟩
    · rw [calculateLoop_succ ids fuel expression results hl] at h
      have hcanon : ∀ t : Task, t.Variable = ids.next results.length →
          Canonical (results ++ [t]) := by
        intro t ht u hu
        rcases List.mem_append.1 hu with e | e
        · exact hc u e
        · simp at e; rw [e, ht]; exact ids.canonical _
      rcases passOf_cases expression (ids.next results.length) with
        ⟨hpass, _⟩ | hpass | ⟨pre, x, post, he, _, hpass⟩ | ⟨pre, x, y, sign, post, he, _, _, _, hpass⟩
      · rw [hpass] at h
        exact ih expression results T f h hp hk hc
      · rw [hpass] at h
        cases h
        exact ⟨fun n t ht => by simp at ht, fun t ht => by simp at ht⟩
      · rw [hpass] at h
        refine ih _ _ T f h ?_ ?_ (hcanon _ rfl)
        · apply produced_append tokens results _ hp
          intro o ho
          rcases ho with ho | ho
          · exact Or.inl ho
          · have := hk x (by rw [he]; simp)
            rw [ho]; exact Or.inr this
        · have hk' : Known tokens results (pre ++ [x] ++ "~" :: post) := by
            rw [he] at hk; simpa using hk
          exact known_step tokens results pre [x] "~" post
            ⟨"0", x, "-", ids.next results.length, "", 0, false⟩ hk'
      · rw [hpass] at h
        refine ih _ _ T f h ?_ ?_ (hcanon _ rfl)
        · apply produced_append tokens results _ hp
          intro o ho
          rcases ho with ho | ho
          · have := hk x (by rw [he]; simp)
            rw [ho]; exact Or.inr this
          · have := hk y (by rw [he]; simp)
            rw [ho]; exact Or.inr this
        · have hk' : Known tokens results (pre ++ [x, y] ++ sign :: post) := by
            rw [he] at hk; simpa using hk
          exact known_step tokens results pre [x, y] sign post
            ⟨x, y, sign, ids.next results.length, "", 0, false⟩ hk'

theorem calculate_produced (ids : IdSupply) (fuel : Nat) (e : Expression) (tasks : List Task)
    (final : String) (hrun : e.Calculate ids fuel = some (tasks, final)) :
    Produced (stringsSplitSpace e.Postfix) tasks ∧ Canonical tasks := by
  unfold Expression.Calculate at hrun
  by_cases hl : (stringsSplitSpace e.Postfix).length = 1
  · simp only [hl, if_true, NewExample, Option.some.injEq, Prod.mk.injEq] at hrun
    obtain ⟨h1, _⟩ := hrun
    subst h1
    constructor
    · intro n t ht o ho
      cases n with
      | zero =>
        simp at ht
        subst ht
        rcases ho with ho | ho
        · exact Or.inl ho
        · right; left
          rw [ho]
          match hs : stringsSplitSpace e.Postfix, hl with
          | [a], _ => simp
      | succ n => simp at ht
    · intro t ht
      simp at ht
      rw [ht]; exact ids.canonical 0
  · simp only [hl, if_false] at hrun
    exact loop_produced ids _ fuel _ [] tasks final hrun
      (fun n t ht => by simp at ht) (fun x hx => Or.inl hx) (fun t ht => by simp at ht)

/-- C4.  Producer before consumer: in a task list returned by `Calculate`,
whose identifiers are pairwise distinct and differ from every input token,
every operand (`Num1` or `Num2`) of the task at position `i` that is one of the
generated identifiers is the `Variable` of a task at a position `j < i`, and of
no task at any other position. -/
theorem C4_producer_before_consumer (ids : IdSupply) (fuel : Nat) (e : Expression)
    (tasks : List Task) (final : String)
    (hrun : e.Calculate ids fuel = some (tasks, final))
    (hdistinct : (tasks.map Task.Variable).Nodup)
    (hfresh : ∀ t ∈ tasks, t.Variable ∉ stringsSplitSpace e.Postfix)
    (i : Nat) (task : Task) (hi : tasks[i]? = some task)
    (operand : String) (hoperand : operand = task.Num1 ∨ operand = task.Num2)
    (hgenerated : operand ∈ tasks.map Task.Variable) :
    ∃ j, j < i ∧ (tasks.map Task.Variable)[j]? = some operand
      ∧ ∀ k, (tasks.map Task.Variable)[k]? = some operand → k = j := by
  obtain ⟨hp, hc⟩ := calculate_produced ids fuel e tasks final hrun
  obtain ⟨u, hu, hvar⟩ := List.mem_map.1 hgenerated
  rcases hp i task hi operand hoperand with h | h | ⟨j, hj, hv⟩
  · exfalso
    have := hc u hu
    rw [hvar, h] at this
    exact absurd this (by decide)
  · exfalso
    exact hfresh u hu (by rw [hvar]; exact h)
  · refine ⟨j, hj, hv, ?_⟩
    intro k hk
    obtain ⟨hk1, hk2⟩ := List.getElem?_eq_some.1 hk
    obtain ⟨hj1, hj2⟩ := List.getElem?_eq_some.1 hv
    exact (List.Nodup.getElem_inj_iff hdistinct).1 (hk2.trans hj2.symm)

/-- C4 at work on the postfix `2 3 4 * +`: the second operand of the task at
position 1 is the identifier of the task at position 0. -/
theorem C4_producer_before_consumer_witness :
    ∃ j, j < 1 ∧ ([sampleIds.next 0, sampleIds.next 1])[j]? = some (sampleIds.next 0)
      ∧ ∀ k, ([sampleIds.next 0, sampleIds.next 1])[k]? = some (sampleIds.next 0) → k = j :=
  C4_producer_before_consumer sampleIds 5 ⟨"2+3*4", "2 3 4 * +"⟩
    [⟨"3", "4", "*", sampleIds.next 0, "", 0, false⟩,
     ⟨"2", sampleIds.next 0, "+", sampleIds.next 1, "", 0, false⟩]
    (sampleIds.next 1) rfl (by decide) (by decide) 1
    ⟨"2", sampleIds.next 0, "+", sampleIds.next 1, "", 0, false⟩ rfl
    (sampleIds.next 0) (Or.inr rfl) (by decide)

/-! ## The rescanning loop refines the operand-stack scan -/

theorem operatorPriority_canonical {s : String} (h : s.length = 36) :
    OperatorPriority s = none := by
  have h1 : s ≠ "+" := fun e => by rw [e] at h; exact absurd h (by decide)
  have h2 : s ≠ "-" := fun e => by rw [e] at h; exact absurd h (by decide)
  have h3 : s ≠ "*" := fun e => by rw [e] at h; exact absurd h (by decide)
  have h4 : s ≠ "/" := fun e => by rw [e] at h; exact absurd h (by decide)
  have h5 : s ≠ "^" := fun e => by rw [e] at h; exact absurd h (by decide)
  have h6 : s ≠ "~" := fun e => by rw [e] at h; exact absurd h (by decide)
  have h7 : s ≠ "(" := fun e => by rw [e] at h; exact absurd h (by decide)
  simp [OperatorPriority, h1, h2, h3, h4, h5, h6, h7]

theorem operatorPriority_binary {t : String} (h : isBinaryOperator t = true) :
    (OperatorPriority t).isSome = true ∧ t ≠ "~" := by
  simp only [isBinaryOperator, Bool.or_eq_true, decide_eq_true_eq] at h
  rcases h with (((h | h) | h) | h) | h <;> subst h <;> exact ⟨rfl, by decide⟩

theorem operatorPriority_operand {t : String} (h1 : t ≠ "~") (h2 : isBinaryOperator t = false)
    (h3 : t ≠ "(") : OperatorPriority t = none := by
  simp only [isBinaryOperator, Bool.or_eq_false_iff, decide_eq_false_iff_not] at h2
  obtain ⟨⟨⟨⟨a, b⟩, c⟩, d⟩, e⟩ := h2
  simp [OperatorPriority, a, b, c, d, e, h1, h3]

theorem scan_refines (ids : IdSupply) :
    ∀ (rest stack : List String) (emitted results T : List Task) (f : String),
      specScan ids rest stack emitted = some (T, f) →
      (∀ x ∈ stack, OperatorPriority x = none) → "(" ∉ rest →
      results.map Task.core = emitted.map Task.core →
      ∀ fuel, rest.length ≤ fuel →
        ∃ built, calculateLoop ids fuel (stack.reverse ++ rest) results = some (built, f)
          ∧ built.map Task.core = T.map Task.core := by
  intro rest
  induction rest with
  | nil =>
    intro stack emitted results T f hs _ _ hcore fuel _
    unfold specScan at hs
    match stack, hs with
    | [final], hs =>
      simp only [Option.some.injEq, Prod.mk.injEq] at hs
      obtain ⟨h1, h2⟩ := hs
      subst h1 h2
      exact ⟨results, by rw [calculateLoop_done] <;> simp, hcore⟩
  | cons token rest ih =>
    intro stack emitted results T f hs hstack hparen hcore fuel hfuel
    have hlen : results.length = emitted.length := by
      have := congrArg List.length hcore
      simpa using this
    have hrest : "(" ∉ rest := fun h => hparen (by simp [h])
    obtain ⟨fuel', rfl⟩ : ∃ fuel', fuel = fuel' + 1 := ⟨fuel - 1, by simp at hfuel; omega⟩
    have hfuel' : rest.length ≤ fuel' := by simp at hfuel; omega
    unfold specScan at hs
    by_cases h1 : token = "~"
    · subst h1
      simp only [if_true] at hs
      match stack, hs, hstack with
      | operand :: stack', hs, hstack =>
        have hexpr : (operand :: stack').reverse ++ "~" :: rest
            = stack'.reverse ++ operand :: "~" :: rest := by simp
        have hnon : ∀ y ∈ stack'.reverse ++ [operand], OperatorPriority y = none := by
          intro y hy
          apply hstack
          rcases List.mem_append.1 hy with e | e
          · simp [List.mem_reverse.1 e]
          · simp at e; simp [e]
        rw [hexpr, calculateLoop_succ ids fuel' _ results (by simp; omega),
          passOf_unary _ operand rest _ hnon]
        have hnext : stack'.reverse ++ ids.next results.length :: rest
            = (ids.next results.length :: stack').reverse ++ rest := by simp
        simp only
        rw [hnext]
        rw [hlen] at *
        refine ih _ _ _ T f hs ?_ hrest ?_ fuel' hfuel'
        · intro x hx
          rcases List.mem_cons.1 hx with e | e
          · rw [e]; exact operatorPriority_canonical (ids.canonical _)
          · exact hstack x (by simp [e])
        · simp [Task.core, hcore]
    · simp only [h1, if_false] at hs
      by_cases h2 : isBinaryOperator token = true
      · simp only [h2, if_true] at hs
        obtain ⟨hsome, hne⟩ := operatorPriority_binary h2
        match stack, hs, hstack with
        | num2 :: num1 :: stack', hs, hstack =>
          have hexpr : (num2 :: num1 :: stack').reverse ++ token :: rest
              = stack'.reverse ++ num1 :: num2 :: token :: rest := by simp
          have hnon : ∀ y ∈ stack'.reverse ++ [num1, num2], OperatorPriority y = none := by
            intro y hy
            apply hstack
            rcases List.mem_append.1 hy with e | e
            · simp [List.mem_reverse.1 e]
            · simp at e; rcases e with e | e <;> simp [e]
          rw [hexpr, calculateLoop_succ ids fuel' _ results (by simp; omega),
            passOf_binary _ num1 num2 token rest _ hnon hsome hne]
          have hnext : stack'.reverse ++ ids.next results.length :: rest
              = (ids.next results.length :: stack').reverse ++ rest := by simp
          simp only
          rw [hnext]
          rw [hlen] at *
          refine ih _ _ _ T f hs ?_ hrest ?_ fuel' hfuel'
          · intro x hx
            rcases List.mem_cons.1 hx with e | e
            · rw [e]; exact operatorPriority_canonical (ids.canonical _)
            · exact hstack x (by simp [e])
          · simp [Task.core, hcore]
      · simp only [h2, if_false] at hs
        have hop : OperatorPriority token = none :=
          operatorPriority_operand h1 (by simpa using h2) (fun e => hparen (by simp [e]))
        have hexpr : stack.reverse ++ token :: rest = (token :: stack).reverse ++ rest := by simp
        rw [hexpr]
        refine ih _ _ _ T f hs ?_ hrest hcore (fuel' + 1) (by omega)
        intro x hx
        rcases List.mem_cons.1 hx with e | e
        · rw [e]; exact hop
        · exact hstack x e

/-- C5.  On every postfix token sequence (the tokens of `Postfix`, none of
them a parenthesis) on which the single left-to-right operand-stack reduction
of the specification succeeds with one value left, the rescanning loop of
`Calculate`, given the same identifier supply and fuel for one pass per token,
returns the same final identifier and a task list with the same `Num1`, `Num2`,
`Sign` and `Variable` at every position. -/
theorem C5_rescan_equals_stack_scan (ids : IdSupply) (e : Expression) (tasks : List Task)
    (final : String) (hnoparen : "(" ∉ stringsSplitSpace e.Postfix)
    (hspec : specBuild ids (stringsSplitSpace e.Postfix) = some (tasks, final))
    (fuel : Nat) (hfuel : (stringsSplitSpace e.Postfix).length ≤ fuel) :
    ∃ built, e.Calculate ids fuel = some (built, final)
      ∧ built.map Task.core = tasks.map Task.core := by
  have hgeneral : specGeneral ids (stringsSplitSpace e.Postfix) = some (tasks, final) →
      ∃ built, calculateLoop ids fuel (stringsSplitSpace e.Postfix) [] = some (built, final)
        ∧ built.map Task.core = tasks.map Task.core := by
    intro hg
    unfold specGeneral at hg
    cases hscan : specScan ids (stringsSplitSpace e.Postfix) [] [] with
    | none => rw [hscan] at hg; cases hg
    | some r =>
      obtain ⟨emitted, f⟩ := r
      rw [hscan] at hg
      simp only [Option.some.injEq, Prod.mk.injEq] at hg
      obtain ⟨h1, h2⟩ := hg
      subst h2
      obtain ⟨built, hb, hc⟩ := scan_refines ids _ [] [] [] emitted f hscan
        (fun x hx => by simp at hx) hnoparen rfl fuel hfuel
      refine ⟨built, by simpa using hb, ?_⟩
      rw [hc, ← h1, List.map_map]
      rfl
  unfold Expression.Calculate
  have hshape : stringsSplitSpace e.Postfix = []
      ∨ (∃ literal, stringsSplitSpace e.Postfix = [literal])
      ∨ (∃ a b rest, stringsSplitSpace e.Postfix = a :: b :: rest) := by
    match stringsSplitSpace e.Postfix with
    | [] => exact Or.inl rfl
    | [literal] => exact Or.inr (Or.inl ⟨literal, rfl⟩)
    | a :: b :: rest => exact Or.inr (Or.inr ⟨a, b, rest, rfl⟩)
  rcases hshape with h | ⟨literal, h⟩ | ⟨a, b, rest, h⟩
  · rw [h] at hspec hgeneral ⊢
    simp only [List.length_nil, Nat.zero_ne_one, if_false]
    exact hgeneral (by simpa [specBuild] using hspec)
  · rw [h] at hspec ⊢
    unfold specBuild at hspec
    by_cases hop : (decide (literal = "~") || isBinaryOperator literal) = true
    · simp only [hop, if_true] at hspec
      exfalso
      unfold specGeneral specScan at hspec
      by_cases h1 : literal = "~"
      · simp [h1] at hspec
      · have h2 : isBinaryOperator literal = true := by simpa [h1] using hop
        simp [h1, h2] at hspec
    · simp only [hop, if_false, Option.some.injEq, Prod.mk.injEq, Bool.false_eq_true] at hspec
      obtain ⟨h1, h2⟩ := hspec
      subst h1 h2
      exact ⟨[⟨"0", literal, "+", ids.next 0, "", 0, false⟩], by simp [NewExample], rfl⟩
  · rw [h] at hspec hgeneral ⊢
    have hl : ¬ (a :: b :: rest).length = 1 := by simp
    simp only [hl, if_false]
    exact hgeneral (by simpa [specBuild] using hspec)

/-- C5 at work on the postfix `2 3 4 * +`. -/
theorem C5_rescan_equals_stack_scan_witness :
    ∃ built, Expression.Calculate sampleIds 5 ⟨"2+3*4", "2 3 4 * +"⟩
        = some (built, sampleIds.next 1)
      ∧ built.map Task.core
        = [("3", "4", "*", sampleIds.next 0), ("2", sampleIds.next 0, "+", sampleIds.next 1)] :=
  C5_rescan_equals_stack_scan sampleIds ⟨"2+3*4", "2 3 4 * +"⟩
    [⟨"3", "4", "*", sampleIds.next 0, "", 0, false⟩,
     ⟨"2", sampleIds.next 0, "+", sampleIds.next 1, "", 1, true⟩]
    (sampleIds.next 1) (by decide) rfl 5 (by decide)

/-- Why C5 leaves parentheses out: `(` is a key of `OperatorPriority`, so the
loop of `Calculate` takes a `(` token for a binary operator, while the scan of
the specification has no rule for it and pushes it as an operand. -/
theorem paren_token_differs (ids : IdSupply) (fuel : Nat) :
    Expression.Calculate ids (fuel + 1) ⟨"", "( ~"⟩ = some ([], "")
    ∧ specBuild ids ["(", "~"]
        = some ([⟨"0", "(", "-", ids.next 0, "", 0, true⟩], ids.next 0) := by
  refine ⟨rfl, ?_⟩
  simp [specBuild, specGeneral, specScan, isBinaryOperator]

/-! ## The final identifier is the last task's variable -/

theorem passOf_reduced_mem (expression : List String) (v : String) (e' : List String) (t : Task)
    (h : passOf expression v = Pass.reduced e' t) : t.Variable = v ∧ v ∈ e' := by
  rcases passOf_cases expression v with
    ⟨hp, _⟩ | hp | ⟨pre, x, post, _, _, hp⟩ | ⟨pre, x, y, sign, post, _, _, _, _, hp⟩
  · rw [hp] at h; cases h
  · rw [hp] at h; cases h
  · rw [hp] at h; cases h; exact ⟨rfl, by simp⟩
  · rw [hp] at h; cases h; exact ⟨rfl, by simp⟩

theorem loop_final (ids : IdSupply) :
    ∀ (fuel : Nat) (expression : List String) (results T : List Task) (f : String),
      calculateLoop ids fuel expression results = some (T, f) →
      (∀ t, results.getLast? = some t → t.Variable ∈ expression) →
      (results = [] → expression.length ≠ 1) →
      (T = [] ∧ f = "") ∨ ∃ t, T.getLast? = some t ∧ t.Variable = f := by
  intro fuel
  induction fuel with
  | zero =>
    intro expression results T f h hlast hne
    by_cases hl : expression.length = 1
    · rw [calculateLoop_done ids 0 expression results hl] at h
      cases h
      rcases List.eq_nil_or_concat results with e | ⟨R, t, e⟩
      · exact absurd hl (hne e)
      · right
        have e' : results = R ++ [t] := by simpa using e
        have hm := hlast t (by rw [e']; simp)
        match expression, hl, hm with
        | [a], _, hm =>
          simp at hm
          exact ⟨t, by rw [e']; simp, by simp [hm]⟩
    · rw [calculateLoop_zero ids expression results hl] at h; cases h
  | succ fuel ih =>
    intro expression results T f h hlast hne
    by_cases hl : expression.length = 1
    · rw [calculateLoop_done ids _ expression results hl] at h
      cases h
      rcases List.eq_nil_or_concat results with e | ⟨R, t, e⟩
      · exact absurd hl (hne e)
      · right
        have e' : results = R ++ [t] := by simpa using e
        have hm := hlast t (by rw [e']; simp)
        match expression, hl, hm with
        | [a], _, hm =>
          simp at hm
          exact ⟨t, by rw [e']; simp, by simp [hm]⟩
    · rw [calculateLoop_succ ids fuel expression results hl] at h
      cases hp : passOf expression (ids.next results.length) with
      | idle =>
        rw [hp] at h
        exact ih expression results T f h hlast hne
      | failed =>
        rw [hp] at h
        cases h
        exact Or.inl ⟨rfl, rfl⟩
      | reduced e' t =>
        rw [hp] at h
        obtain ⟨hv, hmem⟩ := passOf_reduced_mem _ _ _ _ hp
        refine ih e' (results ++ [t]) T f h ?_ (by simp)
        intro u hu
        simp at hu
        rw [← hu, hv]; exact hmem

/-! ## The shape of the working sequence decides the pass -/

theorem findOperator_idle (expression : List String)
    (h : ∀ x ∈ expression, OperatorPriority x = none) :
    ∀ k, findOperator expression k = none := by
  induction expression with
  | nil => intro k; rfl
  | cons a rest ih =>
    intro k
    have ha : OperatorPriority a = none := h a (by simp)
    simp only [findOperator, ha, Option.isSome_none, Bool.false_eq_true, if_false]
    exact ih (fun x hx => h x (by simp [hx])) (k + 1)

theorem passOf_idle (expression : List String) (v : String)
    (h : ∀ x ∈ expression, OperatorPriority x = none) : passOf expression v = Pass.idle := by
  simp [passOf, findOperator_idle expression h 0]

theorem passOf_failed_head (sign : String) (post : List String) (v : String)
    (hsign : (OperatorPriority sign).isSome = true) :
    passOf (sign :: post) v = Pass.failed := by
  have hf : findOperator (sign :: post) 0 = some (0, sign) := by simp [findOperator, hsign]
  unfold passOf
  rw [hf]
  by_cases h : sign = "~" <;> simp [h]

theorem passOf_failed_second (x sign : String) (post : List String) (v : String)
    (hx : OperatorPriority x = none) (hsign : (OperatorPriority sign).isSome = true)
    (hne : sign ≠ "~") :
    passOf (x :: sign :: post) v = Pass.failed := by
  have hf : findOperator (x :: sign :: post) 0 = some (1, sign) := by
    simp [findOperator, hsign, hx]
  unfold passOf
  rw [hf]
  simp [hne]

/-- The five shapes of a working sequence. -/
theorem expression_shape (expression : List String) :
    (∀ x ∈ expression, OperatorPriority x = none)
    ∨ (∃ sign post, expression = sign :: post ∧ (OperatorPriority sign).isSome = true)
    ∨ (∃ x sign post, expression = x :: sign :: post ∧ OperatorPriority x = none
        ∧ (OperatorPriority sign).isSome = true ∧ sign ≠ "~")
    ∨ (∃ pre x post, expression = pre ++ x :: "~" :: post
        ∧ (∀ y ∈ pre ++ [x], OperatorPriority y = none))
    ∨ (∃ pre x y sign post, expression = pre ++ x :: y :: sign :: post
        ∧ (∀ z ∈ pre ++ [x, y], OperatorPriority z = none)
        ∧ (OperatorPriority sign).isSome = true ∧ sign ≠ "~") := by
  cases hf : findOperator expression 0 with
  | none => exact Or.inl (findOperator_none expression 0 hf)
  | some r =>
    obtain ⟨index, sign⟩ := r
    obtain ⟨P, post, he, hi, hP, hs⟩ := findOperator_some expression 0 index sign hf
    rcases List.eq_nil_or_concat P with hnil | ⟨Q, y, hcat⟩
    · subst hnil
      exact Or.inr (Or.inl ⟨sign, post, by simpa using he, hs⟩)
    · have hcat' : P = Q ++ [y] := by simpa using hcat
      subst hcat'
      by_cases ht : sign = "~"
      · subst ht
        exact Or.inr (Or.inr (Or.inr (Or.inl ⟨Q, y, post, by rw [he]; simp, hP⟩)))
      · rcases List.eq_nil_or_concat Q with hnil | ⟨pre, x, hcat2⟩
        · subst hnil
          exact Or.inr (Or.inr (Or.inl ⟨y, sign, post, by rw [he]; simp,
            hP y (by simp), hs, ht⟩))
        · have hcat2' : Q = pre ++ [x] := by simpa using hcat2
          subst hcat2'
          exact Or.inr (Or.inr (Or.inr (Or.inr ⟨pre, x, y, sign, post, by rw [he]; simp,
            fun z hz => hP z (by simpa using hz), hs, ht⟩)))

/-! ## Two runs in lockstep -/

theorem forall₂_append_split {R : String → String → Prop} :
    ∀ (a b l : List String), List.Forall₂ R (a ++ b) l →
      ∃ l1 l2, l = l1 ++ l2 ∧ List.Forall₂ R a l1 ∧ List.Forall₂ R b l2 := by
  intro a
  induction a with
  | nil => intro b l h; exact ⟨[], l, rfl, List.Forall₂.nil, h⟩
  | cons x a ih =>
    intro b l h
    rw [List.cons_append, List.forall₂_cons_left_iff] at h
    obtain ⟨y, u, hxy, hu, rfl⟩ := h
    obtain ⟨l1, l2, rfl, h1, h2⟩ := ih b u hu
    exact ⟨y :: l1, l2, rfl, List.Forall₂.cons hxy h1, h2⟩

theorem canonical_getElem? {results : List Task} (hc : Canonical results) {j : Nat} {a : String}
    (h : (results.map Task.Variable)[j]? = some a) : a.length = 36 := by
  obtain ⟨t, ht, hv⟩ := List.mem_map.1 (List.getElem?_mem h)
  rw [← hv]; exact hc t ht

theorem sameToken_priority {tokens : List String} {r1 r2 : List Task} {a b : String}
    (h : SameToken tokens r1 r2 a b) (h1 : Canonical r1) (h2 : Canonical r2) :
    OperatorPriority a = OperatorPriority b := by
  rcases h with ⟨e, _⟩ | ⟨j, ha, hb⟩
  · rw [e]
  · rw [operatorPriority_canonical (canonical_getElem? h1 ha),
      operatorPriority_canonical (canonical_getElem? h2 hb)]

theorem sameToken_operator {tokens : List String} {r1 r2 : List Task} {a b : String}
    (h : SameToken tokens r1 r2 a b) (h1 : Canonical r1)
    (ha : (OperatorPriority a).isSome = true) : a = b ∧ a ∈ tokens := by
  rcases h with e | ⟨j, hj, _⟩
  · exact e
  · rw [operatorPriority_canonical (canonical_getElem? h1 hj)] at ha
    cases ha

theorem sameToken_nonop {tokens : List String} {r1 r2 : List Task} (h1 : Canonical r1)
    (h2 : Canonical r2) :
    ∀ (e1 e2 : List String), List.Forall₂ (SameToken tokens r1 r2) e1 e2 →
      (∀ x ∈ e1, OperatorPriority x = none) → ∀ y ∈ e2, OperatorPriority y = none := by
  intro e1 e2 h
  induction h with
  | nil => intro _ y hy; simp at hy
  | cons hab _ ih =>
    intro hx y hy
    rcases List.mem_cons.1 hy with e | e
    · rw [e, ← sameToken_priority hab h1 h2]; exact hx _ (by simp)
    · exact ih (fun x hx' => hx x (by simp [hx'])) y e

theorem sameToken_mono {tokens : List String} {r1 r2 : List Task} (t1 t2 : Task)
    (hlen : r1.length = r2.length) :
    ∀ (e1 e2 : List String), List.Forall₂ (SameToken tokens r1 r2) e1 e2 →
      List.Forall₂ (SameToken tokens (r1 ++ [t1]) (r2 ++ [t2])) e1 e2 := by
  intro e1 e2 h
  refine List.Forall₂.imp ?_ h
  intro a b hab
  rcases hab with e | ⟨j, ha, hb⟩
  · exact Or.inl e
  · right
    have hj1 : j < (r1.map Task.Variable).length := by
      by_contra hc; rw [List.getElem?_eq_none (by omega)] at ha; cases ha
    have hj2 : j < (r2.map Task.Variable).length := by simpa [← hlen] using hj1
    exact ⟨j, by rw [List.map_append, List.getElem?_append_left hj1]; exact ha,
      by rw [List.map_append, List.getElem?_append_left hj2]; exact hb⟩

theorem sameToken_fresh {tokens : List String} {r1 r2 : List Task} (t1 t2 : Task)
    (hlen : r1.length = r2.length) :
    SameToken tokens (r1 ++ [t1]) (r2 ++ [t2]) t1.Variable t2.Variable := by
  right
  refine ⟨r1.length, ?_, ?_⟩
  · rw [List.map_append]
    have : r1.length = (r1.map Task.Variable).length := by simp
    rw [this, List.getElem?_append_right (le_refl _)]
    simp
  · rw [List.map_append, hlen]
    have : r2.length = (r2.map Task.Variable).length := by simp
    rw [this, List.getElem?_append_right (le_refl _)]
    simp

theorem sameOperand_of_token {tokens : List String} {r1 r2 : List Task} (t1 t2 : Task)
    (hlen : r1.length = r2.length) {a b : String} (h : SameToken tokens r1 r2 a b) :
    SameOperand tokens (r1 ++ [t1]) (r2 ++ [t2]) r1.length a b := by
  rcases h with ⟨e, hm⟩ | ⟨j, ha, hb⟩
  · exact Or.inl ⟨e, Or.inr hm⟩
  · right
    have hj1 : j < (r1.map Task.Variable).length := by
      by_contra hc; rw [List.getElem?_eq_none (by omega)] at ha; cases ha
    have hj2 : j < (r2.map Task.Variable).length := by simpa [← hlen] using hj1
    exact ⟨j, by simpa using hj1,
      by rw [List.map_append, List.getElem?_append_left hj1]; exact ha,
      by rw [List.map_append, List.getElem?_append_left hj2]; exact hb⟩

theorem sameShape_append {tokens : List String} {r1 r2 : List Task} (t1 t2 : Task)
    (h : SameShape tokens r1 r2) (hsign : t1.Sign = t2.Sign)
    (h1 : SameOperand tokens (r1 ++ [t1]) (r2 ++ [t2]) r1.length t1.Num1 t2.Num1)
    (h2 : SameOperand tokens (r1 ++ [t1]) (r2 ++ [t2]) r1.length t1.Num2 t2.Num2) :
    SameShape tokens (r1 ++ [t1]) (r2 ++ [t2]) := by
  obtain ⟨hlen, hall⟩ := h
  refine ⟨by simp [hlen], ?_⟩
  intro i u1 u2 hu1 hu2
  by_cases hi : i < r1.length
  · rw [List.getElem?_append_left hi] at hu1
    rw [List.getElem?_append_left (by omega)] at hu2
    obtain ⟨hs, ho1, ho2⟩ := hall i u1 u2 hu1 hu2
    have hmono : ∀ a b, SameOperand tokens r1 r2 i a b →
        SameOperand tokens (r1 ++ [t1]) (r2 ++ [t2]) i a b := by
      intro a b hab
      rcases hab with e | ⟨j, hj, ha, hb⟩
      · exact Or.inl e
      · right
        exact ⟨j, hj,
          by rw [List.map_append, List.getElem?_append_left (by simp; omega)]; exact ha,
          by rw [List.map_append, List.getElem?_append_left (by simp; omega)]; exact hb⟩
    exact ⟨hs, hmono _ _ ho1, hmono _ _ ho2⟩
  · have hi' : i = r1.length := by
      by_contra hne
      have : (r1 ++ [t1])[i]? = none := List.getElem?_eq_none (by simp; omega)
      rw [this] at hu1; cases hu1
    subst hi'
    rw [List.getElem?_concat_length] at hu1
    rw [hlen, List.getElem?_concat_length] at hu2
    cases hu1; cases hu2
    exact ⟨hsign, h1, h2⟩

theorem canonical_append {results : List Task} (hc : Canonical results) (ids : IdSupply)
    (k : Nat) (t : Task) (ht : t.Variable = ids.next k) : Canonical (results ++ [t]) := by
  intro u hu
  rcases List.mem_append.1 hu with e | e
  · exact hc u e
  · simp at e; rw [e, ht]; exact ids.canonical _

theorem loop_lockstep (ids1 ids2 : IdSupply) (tokens : List String) :
    ∀ (fuel : Nat) (e1 e2 : List String) (r1 r2 T1 : List Task) (f1 : String),
      calculateLoop ids1 fuel e1 r1 = some (T1, f1) →
      List.Forall₂ (SameToken tokens r1 r2) e1 e2 → SameShape tokens r1 r2 →
      Canonical r1 → Canonical r2 →
      ∃ T2 f2, calculateLoop ids2 fuel e2 r2 = some (T2, f2) ∧ SameShape tokens T1 T2 := by
  intro fuel
  induction fuel with
  | zero =>
    intro e1 e2 r1 r2 T1 f1 h hal hsh _ _
    have hlen := hal.length_eq
    by_cases hl : e1.length = 1
    · rw [calculateLoop_done ids1 0 e1 r1 hl] at h
      cases h
      exact ⟨r2, _, calculateLoop_done ids2 0 e2 r2 (by omega), hsh⟩
    · rw [calculateLoop_zero ids1 e1 r1 hl] at h; cases h
  | succ fuel ih =>
    intro e1 e2 r1 r2 T1 f1 h hal hsh hc1 hc2
    have hlen := hal.length_eq
    by_cases hl : e1.length = 1
    · rw [calculateLoop_done ids1 _ e1 r1 hl] at h
      cases h
      exact ⟨r2, _, calculateLoop_done ids2 _ e2 r2 (by omega), hsh⟩
    · rw [calculateLoop_succ ids1 fuel e1 r1 hl] at h
      rw [calculateLoop_succ ids2 fuel e2 r2 (by omega)]
      have hrl : r1.length = r2.length := hsh.1
      rcases expression_shape e1 with hI | ⟨sign, post, he, hs⟩ | ⟨x, sign, post, he, hx, hs, hne⟩
          | ⟨pre, x, post, he, hnon⟩ | ⟨pre, x, y, sign, post, he, hnon, hs, hne⟩
      · rw [passOf_idle e1 _ hI] at h
        rw [passOf_idle e2 _ (sameToken_nonop hc1 hc2 e1 e2 hal hI)]
        exact ih e1 e2 r1 r2 T1 f1 h hal hsh hc1 hc2
      · subst he
        rw [passOf_failed_head sign post _ hs] at h
        cases h
        rw [List.forall₂_cons_left_iff] at hal
        obtain ⟨s2, post2, hss, _, rfl⟩ := hal
        obtain ⟨es, _⟩ := sameToken_operator hss hc1 hs
        subst es
        rw [passOf_failed_head sign post2 _ hs]
        exact ⟨[], "", rfl, rfl, fun i t1 t2 ht => by simp at ht⟩
      · subst he
        rw [passOf_failed_second x sign post _ hx hs hne] at h
        cases h
        rw [List.forall₂_cons_left_iff] at hal
        obtain ⟨x2, rest2, hxx, hrest, rfl⟩ := hal
        rw [List.forall₂_cons_left_iff] at hrest
        obtain ⟨s2, post2, hss, _, rfl⟩ := hrest
        obtain ⟨es, _⟩ := sameToken_operator hss hc1 hs
        subst es
        have hx2 : OperatorPriority x2 = none := by
          rw [← sameToken_priority hxx hc1 hc2]; exact hx
        rw [passOf_failed_second x2 sign post2 _ hx2 hs hne]
        exact ⟨[], "", rfl, rfl, fun i t1 t2 ht => by simp at ht⟩
      · subst he
        rw [passOf_unary pre x post _ hnon] at h
        obtain ⟨pre2, rest2, rfl, hpre, hrest⟩ := forall₂_append_split pre _ e2 hal
        rw [List.forall₂_cons_left_iff] at hrest
        obtain ⟨x2, rest3, hxx, hrest3, rfl⟩ := hrest
        rw [List.forall₂_cons_left_iff] at hrest3
        obtain ⟨s2, post2, hss, hpost, rfl⟩ := hrest3
        obtain ⟨es, _⟩ := sameToken_operator hss hc1 (by decide)
        subst es
        have hnon2 : ∀ y ∈ pre2 ++ [x2], OperatorPriority y = none :=
          sameToken_nonop hc1 hc2 (pre ++ [x]) (pre2 ++ [x2])
            (List.rel_append hpre (List.Forall₂.cons hxx List.Forall₂.nil)) hnon
        rw [passOf_unary pre2 x2 post2 _ hnon2]
        simp only at h ⊢
        refine ih _ _ _ _ T1 f1 h ?_ ?_ (canonical_append hc1 ids1 _ _ rfl)
          (canonical_append hc2 ids2 _ _ rfl)
        · exact List.rel_append (sameToken_mono _ _ hrl pre pre2 hpre)
            (List.Forall₂.cons (sameToken_fresh _ _ hrl) (sameToken_mono _ _ hrl post post2 hpost))
        · exact sameShape_append _ _ hsh rfl (Or.inl ⟨rfl, Or.inl rfl⟩)
            (sameOperand_of_token _ _ hrl hxx)
      · subst he
        rw [passOf_binary pre x y sign post _ hnon hs hne] at h
        obtain ⟨pre2, rest2, rfl, hpre, hrest⟩ := forall₂_append_split pre _ e2 hal
        rw [List.forall₂_cons_left_iff] at hrest
        obtain ⟨x2, rest3, hxx, hrest3, rfl⟩ := hrest
        rw [List.forall₂_cons_left_iff] at hrest3
        obtain ⟨y2, rest4, hyy, hrest4, rfl⟩ := hrest3
        rw [List.forall₂_cons_left_iff] at hrest4
        obtain ⟨s2, post2, hss, hpost, rfl⟩ := hrest4
        obtain ⟨es, _⟩ := sameToken_operator hss hc1 hs
        subst es
        have hnon2 : ∀ z ∈ pre2 ++ [x2, y2], OperatorPriority z = none :=
          sameToken_nonop hc1 hc2 (pre ++ [x, y]) (pre2 ++ [x2, y2])
            (List.rel_append hpre
              (List.Forall₂.cons hxx (List.Forall₂.cons hyy List.Forall₂.nil))) hnon
        rw [passOf_binary pre2 x2 y2 sign post2 _ hnon2 hs hne]
        simp only at h ⊢
        refine ih _ _ _ _ T1 f1 h ?_ ?_ (canonical_append hc1 ids1 _ _ rfl)
          (canonical_append hc2 ids2 _ _ rfl)
        · exact List.rel_append (sameToken_mono _ _ hrl pre pre2 hpre)
            (List.Forall₂.cons (sameToken_fresh _ _ hrl) (sameToken_mono _ _ hrl post post2 hpost))
        · exact sameShape_append _ _ hsh rfl (sameOperand_of_token _ _ hrl hxx)
            (sameOperand_of_token _ _ hrl hyy)

theorem calculate_same_structure (ids1 ids2 : IdSupply) (fuel : Nat) (e : Expression)
    (T1 : List Task) (f1 : String) (h : e.Calculate ids1 fuel = some (T1, f1)) :
    ∃ T2 f2, e.Calculate ids2 fuel = some (T2, f2)
      ∧ SameShape (stringsSplitSpace e.Postfix) T1 T2 ∧ SameFinal T1 T2 f1 f2 := by
  unfold Expression.Calculate at h ⊢
  by_cases hl : (stringsSplitSpace e.Postfix).length = 1
  · simp only [hl, if_true, NewExample, Option.some.injEq, Prod.mk.injEq] at h ⊢
    obtain ⟨h1, h2⟩ := h
    subst h1 h2
    refine ⟨_, _, ⟨rfl, rfl⟩, ⟨rfl, ?_⟩, Or.inr ⟨0, rfl, rfl⟩⟩
    intro i t1 t2 ht1 ht2
    cases i with
    | zero =>
      simp at ht1 ht2
      subst ht1 ht2
      refine ⟨rfl, Or.inl ⟨rfl, Or.inl rfl⟩, Or.inl ⟨rfl, Or.inr ?_⟩⟩
      match hs : stringsSplitSpace e.Postfix, hl with
      | [a], _ => simp
    | succ i => simp at ht1
  · simp only [hl, if_false] at h ⊢
    have hal : List.Forall₂ (SameToken (stringsSplitSpace e.Postfix) [] [])
        (stringsSplitSpace e.Postfix) (stringsSplitSpace e.Postfix) :=
      List.forall₂_same.2 (fun x hx => Or.inl ⟨rfl, hx⟩)
    obtain ⟨T2, f2, h2, hsh⟩ := loop_lockstep ids1 ids2 _ fuel _ _ [] [] T1 f1 h hal
      ⟨rfl, fun i t1 t2 ht => by simp at ht⟩ (fun t ht => by simp at ht)
      (fun t ht => by simp at ht)
    refine ⟨T2, f2, h2, hsh, ?_⟩
    have hf1 := loop_final ids1 fuel _ [] T1 f1 h (fun t ht => by simp at ht) (fun _ => hl)
    have hf2 := loop_final ids2 fuel _ [] T2 f2 h2 (fun t ht => by simp at ht) (fun _ => hl)
    have hlen : T1.length = T2.length := hsh.1
    rcases hf1 with ⟨e1, g1⟩ | ⟨t1, ht1, g1⟩
    · rcases hf2 with ⟨e2, g2⟩ | ⟨t2, ht2, _⟩
      · exact Or.inl ⟨e1, e2, g1, g2⟩
      · subst e1
        have : T2 = [] := List.length_eq_zero.1 (by simpa using hlen.symm)
        subst this
        simp at ht2
    · rcases hf2 with ⟨e2, _⟩ | ⟨t2, ht2, g2⟩
      · subst e2
        have : T1 = [] := List.length_eq_zero.1 (by simpa using hlen)
        subst this
        simp at ht1
      · right
        refine ⟨T1.length - 1, ?_, ?_⟩
        · rw [List.getElem?_map, ← List.getLast?_eq_getElem?, ht1]; simp [g1]
        · rw [hlen, List.getElem?_map, ← List.getLast?_eq_getElem?, ht2]; simp [g2]

/-- The two outcomes of `Convert`. -/
theorem convert_outcome (digitTable : Nat → Bool) (s : Expression) :
    (s.IsValidMathExpression digitTable = false
      ∧ s.Convert digitTable = some (s, false, some malformedError))
    ∨ (s.IsValidMathExpression digitTable = true
      ∧ ∃ tokens, convertTokens digitTable (stringsReplaceAllSpace s.Infix) = some tokens
        ∧ s.Convert digitTable
            = some ({ Infix := s.Infix, Postfix := stringsJoinSpace tokens }, true, none)) := by
  cases h : s.IsValidMathExpression digitTable with
  | false =>
    left
    exact ⟨rfl, by simp [Expression.Convert, Expression.Check, h]⟩
  | true =>
    right
    obtain ⟨tokens, ht⟩ := convertTokens_of_valid digitTable s h
    exact ⟨rfl, tokens, ht, by simp [Expression.Convert, Expression.Check, h, ht]⟩

/-- C8.  Whenever the pipeline (`Convert`, then `Calculate`) yields a task
list on a text with one identifier supply, it yields one with any other supply
and the same fuel, and the two lists have the same structure: equal length and,
at every position, equal `Sign`, operands that are the same literal in the same
role or the `Variable` of the task at the same earlier position of their own
list; the two final identifiers are the `Variable` of the task at the same
position (or both runs returned the empty result). -/
theorem C8_two_runs_same_structure (digitTable : Nat → Bool) (ids1 ids2 : IdSupply) (fuel : Nat)
    (text : String) (tasks1 : List Task) (final1 : String)
    (hrun : pipeline digitTable ids1 fuel text = some (tasks1, final1)) :
    ∃ expr tasks2 final2, (NewExpression text).Convert digitTable = some (expr, true, none)
      ∧ pipeline digitTable ids2 fuel text = some (tasks2, final2)
      ∧ SameShape (stringsSplitSpace expr.Postfix) tasks1 tasks2
      ∧ SameFinal tasks1 tasks2 final1 final2 := by
  unfold pipeline at hrun ⊢
  rcases convert_outcome digitTable (NewExpression text) with ⟨_, hc⟩ | ⟨_, tokens, _, hc⟩
  · rw [hc] at hrun; cases hrun
  · rw [hc] at hrun ⊢
    obtain ⟨T2, f2, h2, hsh, hfin⟩ := calculate_same_structure ids1 ids2 fuel _ tasks1 final1 hrun
    exact ⟨_, T2, f2, rfl, h2, hsh, hfin⟩

/-- The pipeline on `2+3*4` with the supply `sampleIds`. -/
theorem pipeline_sample :
    pipeline (fun _ => false) sampleIds 5 "2+3*4"
      = some ([⟨"3", "4", "*", sampleIds.next 0, "", 0, false⟩,
               ⟨"2", sampleIds.next 0, "+", sampleIds.next 1, "", 0, false⟩],
              sampleIds.next 1) := by
  have h : (NewExpression "2+3*4").Convert (fun _ => false)
      = some (⟨"2+3*4", "2 3 4 * +"⟩, true, none) := rfl
  unfold pipeline
  rw [h]
  rfl

/-- C8 at work on `2+3*4` with two disjoint supplies. -/
theorem C8_two_runs_same_structure_witness :
    ∃ expr tasks2 final2,
      (NewExpression "2+3*4").Convert (fun _ => false) = some (expr, true, none)
      ∧ pipeline (fun _ => false) otherIds 5 "2+3*4" = some (tasks2, final2)
      ∧ SameShape (stringsSplitSpace expr.Postfix)
          [⟨"3", "4", "*", sampleIds.next 0, "", 0, false⟩,
           ⟨"2", sampleIds.next 0, "+", sampleIds.next 1, "", 0, false⟩] tasks2
      ∧ SameFinal
          [⟨"3", "4", "*", sampleIds.next 0, "", 0, false⟩,
           ⟨"2", sampleIds.next 0, "+", sampleIds.next 1, "", 0, false⟩] tasks2
          (sampleIds.next 1) final2 :=
  C8_two_runs_same_structure (fun _ => false) sampleIds otherIds 5 "2+3*4"
    [⟨"3", "4", "*", sampleIds.next 0, "", 0, false⟩,
     ⟨"2", sampleIds.next 0, "+", sampleIds.next 1, "", 0, false⟩]
    (sampleIds.next 1) pipeline_sample

/-! ## Numeric literals are plain -/

theorem isAsciiDigit_ne_point {c : Char} (h : isAsciiDigit c = true) : c ≠ '.' := by
  intro e; subst e; exact absurd h (by decide)

theorem rulePoints_digits (l : List Char) (hl : ∀ c ∈ l, isAsciiDigit c = true)
    (rest : List Char) :
    rulePoints isAsciiDigit (l ++ rest) = rulePoints isAsciiDigit rest := by
  induction l with
  | nil => rfl
  | cons c l ih =>
    have hc : c ≠ '.' := isAsciiDigit_ne_point (hl c (by simp))
    simp only [List.cons_append, rulePoints, hc, if_false, Bool.true_and]
    exact ih (fun x hx => hl x (by simp [hx]))

theorem plainLiteral_digits (l : List Char) (hne : l ≠ [])
    (hl : ∀ c ∈ l, isAsciiDigit c = true) : PlainLiteral l := by
  refine ⟨?_, ?_, fun c hc => Or.inl (hl c hc), rulePoints_digits l hl⟩
  · match l, hne, hl with
    | d :: tail, _, hl => exact ⟨d, tail, rfl, hl d (by simp)⟩
  · exact ⟨l.dropLast, l.getLast hne, (List.dropLast_append_getLast hne).symm,
      hl _ (List.getLast_mem hne)⟩

theorem plainLiteral_of_numeric (s : String) (h : isNumericLiteral s = true) :
    PlainLiteral s.data := by
  unfold isNumericLiteral at h
  simp only [Bool.and_eq_true, Bool.not_eq_true', Bool.or_eq_true, decide_eq_true_eq,
    List.isEmpty_eq_true, List.all_eq_true] at h
  obtain ⟨hw, hr⟩ := h
  have hsplit : s.data = s.data.takeWhile isAsciiDigit ++ s.data.dropWhile isAsciiDigit :=
    (List.takeWhile_append_dropWhile _ _).symm
  have hwd : ∀ c ∈ s.data.takeWhile isAsciiDigit, isAsciiDigit c = true :=
    fun c hc => List.mem_takeWhile_imp hc
  have hwne : s.data.takeWhile isAsciiDigit ≠ [] := by
    intro e; rw [e] at hw; simp at hw
  rcases hr with hr | ⟨⟨hh, ht⟩, hall⟩
  · rw [hsplit, hr, List.append_nil]
    exact plainLiteral_digits _ hwne hwd
  · generalize hW : s.data.takeWhile isAsciiDigit = W at *
    generalize hR : s.data.dropWhile isAsciiDigit = R at *
    match R, hh, ht, hall with
    | p :: F, hh, ht, hall =>
      simp at hh
      subst hh
      simp only [List.tail_cons] at ht hall
      have hFne : F ≠ [] := by intro e; rw [e] at ht; simp at ht
      have hF := plainLiteral_digits F hFne hall
      have hWp := plainLiteral_digits W hwne hwd
      rw [hsplit]
      obtain ⟨d, tail, hd, hdd⟩ := hWp.first
      obtain ⟨front, e, he, hed⟩ := hF.last
      obtain ⟨f, ftail, hf, hfd⟩ := hF.first
      refine ⟨⟨d, tail ++ '.' :: F, by rw [hd]; simp, hdd⟩,
        ⟨W ++ '.' :: front, e, by rw [he]; simp, hed⟩, ?_, ?_⟩
      · intro c hc
        rcases List.mem_append.1 hc with h1 | h1
        · exact Or.inl (hwd c h1)
        · rcases List.mem_cons.1 h1 with h2 | h2
          · exact Or.inr h2
          · exact Or.inl (hall c h2)
      · intro rest
        rw [List.append_assoc, hWp.points]
        have hstep : rulePoints isAsciiDigit (('.' :: F) ++ rest)
            = rulePoints isAsciiDigit (F ++ rest) := by
          rw [hf]
          simp [rulePoints, hfd]
        rw [hstep, hF.points]

/-! ## The rules of the validator on literals and operators -/

theorem isUnicodeDigit_of_ascii (digitTable : Nat → Bool) {c : Char} (h : isAsciiDigit c = true) :
    isUnicodeDigit digitTable c = true := by
  rw [isAsciiDigit_iff] at h
  have : c.toNat ≤ 255 := by omega
  simp [isUnicodeDigit, unicodeIsDigit, this, h]

theorem plain_facts {c : Char} (h : isAsciiDigit c = true ∨ c = '.') :
    isBinaryOperatorChar c = false ∧ c ≠ '~' ∧ c ≠ '(' ∧ c ≠ ')' ∧ c ≠ ' ' := by
  rcases h with h | h
  · rw [isAsciiDigit_iff] at h
    refine ⟨?_, ?_, ?_, ?_, ?_⟩
    · rw [← Bool.not_eq_true, isBinaryOperatorChar_iff]; omega
    all_goals (intro e; subst e; revert h; decide)
  · subst h; decide

theorem ruleAlphabet_plain (digitTable : Nat → Bool) (l rest : List Char)
    (hl : ∀ c ∈ l, isAsciiDigit c = true ∨ c = '.') :
    ruleAlphabet (isUnicodeDigit digitTable) (l ++ rest)
      = ruleAlphabet (isUnicodeDigit digitTable) rest := by
  induction l with
  | nil => rfl
  | cons c l ih =>
    have hc : (isUnicodeDigit digitTable c || decide (c = '.')) = true := by
      rcases hl c (by simp) with h | h
      · simp [isUnicodeDigit_of_ascii digitTable h]
      · simp [h]
    have := ih (fun x hx => hl x (by simp [hx]))
    simp only [ruleAlphabet] at this ⊢
    simp only [List.cons_append, List.all_cons, hc, Bool.true_or, Bool.true_and]
    exact this

theorem ruleNoAdjacentBinary_skip {c : Char} (h : isBinaryOperatorChar c = false)
    (rest : List Char) : ruleNoAdjacentBinary (c :: rest) = ruleNoAdjacentBinary rest := by
  cases rest with
  | nil => simp [ruleNoAdjacentBinary]
  | cons d rest => simp [ruleNoAdjacentBinary, h]

theorem ruleNoAdjacentBinary_plain (l rest : List Char)
    (hl : ∀ c ∈ l, isAsciiDigit c = true ∨ c = '.') :
    ruleNoAdjacentBinary (l ++ rest) = ruleNoAdjacentBinary rest := by
  induction l with
  | nil => rfl
  | cons c l ih =>
    rw [List.cons_append, ruleNoAdjacentBinary_skip (plain_facts (hl c (by simp))).1]
    exact ih (fun x hx => hl x (by simp [hx]))

theorem ruleNoAdjacentBinary_before {c : Char} (h : isBinaryOperatorChar c = false) (op : Char)
    (rest : List Char) :
    ruleNoAdjacentBinary (op :: c :: rest) = ruleNoAdjacentBinary rest := by
  rw [ruleNoAdjacentBinary]
  simp only [h, Bool.and_false, Bool.not_false, Bool.true_and]
  exact ruleNoAdjacentBinary_skip h rest

theorem ruleUnaryMinus_skip (plainDigit : Char → Bool) {c : Char} (h : c ≠ '~')
    (rest : List Char) :
    ruleUnaryMinus plainDigit (c :: rest) = ruleUnaryMinus plainDigit rest := by
  simp [ruleUnaryMinus, h]

theorem ruleUnaryMinus_plain (l rest : List Char)
    (hl : ∀ c ∈ l, isAsciiDigit c = true ∨ c = '.') :
    ruleUnaryMinus isAsciiDigit (l ++ rest) = ruleUnaryMinus isAsciiDigit rest := by
  induction l with
  | nil => rfl
  | cons c l ih =>
    rw [List.cons_append, ruleUnaryMinus_skip _ (plain_facts (hl c (by simp))).2.1]
    exact ih (fun x hx => hl x (by simp [hx]))

theorem ruleUnaryMinus_digit {d : Char} (h : isAsciiDigit d = true) (rest : List Char) :
    ruleUnaryMinus isAsciiDigit ('~' :: d :: rest) = ruleUnaryMinus isAsciiDigit (d :: rest) := by
  simp [ruleUnaryMinus, h]

theorem rulePoints_skip {c : Char} (h : c ≠ '.') (rest : List Char) :
    rulePoints isAsciiDigit (c :: rest) = rulePoints isAsciiDigit rest := by
  simp [rulePoints, h]

theorem ruleBalanced_no_paren (t : List Char) (h : ∀ c ∈ t, c ≠ '(' ∧ c ≠ ')') :
    ruleBalanced t = true := by
  have hz : ∀ n, runningDepth t n = 0 := by
    intro n
    have h1 : (t.take n).count '(' = 0 :=
      List.count_eq_zero.2 (fun hm => (h _ (List.mem_of_mem_take hm)).1 rfl)
    have h2 : (t.take n).count ')' = 0 :=
      List.count_eq_zero.2 (fun hm => (h _ (List.mem_of_mem_take hm)).2 rfl)
    simp [runningDepth, h1, h2]
  rw [ruleBalanced_iff]
  exact ⟨fun n _ => by rw [hz n], hz _⟩

theorem ruleLast_append_digit (front : List Char) {d : Char} (h : isAsciiDigit d = true) :
    ruleLast (front ++ [d]) = true := by
  have hf := plain_facts (Or.inl h)
  simp [ruleLast, List.getLast?_concat, hf.1, hf.2.1]

theorem removeSpaces_no_space (t : List Char) (h : ∀ c ∈ t, c ≠ ' ') : removeSpaces t = t := by
  unfold removeSpaces
  rw [List.filter_eq_self]
  intro c hc
  simpa using h c hc
theorem ruleUnaryMinus_none (plainDigit : Char → Bool) (t : List Char) (h : ∀ c ∈ t, c ≠ '~') :
    ruleUnaryMinus plainDigit t = true := by
  induction t with
  | nil => rfl
  | cons c t ih =>
    rw [ruleUnaryMinus_skip _ (h c (by simp))]
    exact ih (fun x hx => h x (by simp [hx]))

theorem binary_facts {op : Char} (h : isBinaryOperatorChar op = true) :
    op ≠ '.' ∧ op ≠ '~' ∧ op ≠ '(' ∧ op ≠ ')' ∧ op ≠ ' ' := by
  refine ⟨?_, ?_, ?_, ?_, ?_⟩ <;> (intro e; subst e; revert h; decide)

/-- The validator's rules, in the form used to check a text. -/
theorem validator_iff_rules (digitTable : Nat → Bool) (s : Expression) :
    s.IsValidMathExpression digitTable = true
      ↔ validatorRules (isUnicodeDigit digitTable) isAsciiDigit (removeSpaces s.Infix.data) = true := by
  rw [validator_loops]
  generalize removeSpaces s.Infix.data = t
  cases t with
  | nil => simp [validatorRules]
  | cons c t =>
    have h := charPairs_rules t c
    simp only [validatorRules, List.isEmpty_cons, Bool.not_false, Bool.true_and, Bool.and_eq_true]
    constructor
    · rintro ⟨_, h1, h2, h3, h4, h5, h6⟩
      obtain ⟨a, b, _⟩ := h.1 ⟨h4, h6⟩
      exact ⟨⟨⟨⟨⟨⟨h1, h2⟩, h3⟩, a⟩, b⟩, h5⟩, h6⟩
    · rintro ⟨⟨⟨⟨⟨⟨h1, h2⟩, h3⟩, a⟩, b⟩, h5⟩, h6⟩
      exact ⟨by simp, h1, h2, h3, (h.2 ⟨a, b, h6⟩).1, h5, h6⟩

/-- A chain `a op1 b op2 c` of three literals and two binary operators
satisfies the rules of the validator. -/
theorem rules_binary_chain (digitTable : Nat → Bool) (A B C : List Char) (op1 op2 : Char)
    (hA : PlainLiteral A) (hB : PlainLiteral B) (hC : PlainLiteral C)
    (h1 : isBinaryOperatorChar op1 = true) (h2 : isBinaryOperatorChar op2 = true) :
    validatorRules (isUnicodeDigit digitTable) isAsciiDigit (A ++ op1 :: (B ++ op2 :: C)) = true
    ∧ removeSpaces (A ++ op1 :: (B ++ op2 :: C)) = A ++ op1 :: (B ++ op2 :: C) := by
  obtain ⟨a, atail, hae, had⟩ := hA.first
  obtain ⟨b, btail, hbe, hbd⟩ := hB.first
  obtain ⟨c, ctail, hce, hcd⟩ := hC.first
  obtain ⟨cfront, cl, hcl, hcld⟩ := hC.last
  have f1 := binary_facts h1
  have f2 := binary_facts h2
  have hchars : ∀ x ∈ A ++ op1 :: (B ++ op2 :: C),
      x ≠ '~' ∧ x ≠ '(' ∧ x ≠ ')' ∧ x ≠ ' ' := by
    intro x hx
    simp only [List.mem_append, List.mem_cons] at hx
    rcases hx with h | h | h | h | h
    · have := plain_facts (hA.plain x h); exact ⟨this.2.1, this.2.2.1, this.2.2.2.1, this.2.2.2.2⟩
    · rw [h]; exact ⟨f1.2.1, f1.2.2.1, f1.2.2.2.1, f1.2.2.2.2⟩
    · have := plain_facts (hB.plain x h); exact ⟨this.2.1, this.2.2.1, this.2.2.2.1, this.2.2.2.2⟩
    · rw [h]; exact ⟨f2.2.1, f2.2.2.1, f2.2.2.2.1, f2.2.2.2.2⟩
    · have := plain_facts (hC.plain x h); exact ⟨this.2.1, this.2.2.1, this.2.2.2.1, this.2.2.2.2⟩
  refine ⟨?_, removeSpaces_no_space _ (fun x hx => (hchars x hx).2.2.2)⟩
  have hCnil : C = C ++ [] := by simp
  have r1 : (A ++ op1 :: (B ++ op2 :: C)).isEmpty = false := by rw [hae]; rfl
  have r2 : ruleAlphabet (isUnicodeDigit digitTable) (A ++ op1 :: (B ++ op2 :: C)) = true := by
    rw [ruleAlphabet_plain digitTable A _ hA.plain]
    have s1 : ∀ rest, ruleAlphabet (isUnicodeDigit digitTable) (op1 :: rest)
        = ruleAlphabet (isUnicodeDigit digitTable) rest := by
      intro rest; simp [ruleAlphabet, h1]
    have s2 : ∀ rest, ruleAlphabet (isUnicodeDigit digitTable) (op2 :: rest)
        = ruleAlphabet (isUnicodeDigit digitTable) rest := by
      intro rest; simp [ruleAlphabet, h2]
    rw [s1, ruleAlphabet_plain digitTable B _ hB.plain, s2, hCnil,
      ruleAlphabet_plain digitTable C _ hC.plain]
    rfl
  have r3 : rulePoints isAsciiDigit (A ++ op1 :: (B ++ op2 :: C)) = true := by
    rw [hA.points, rulePoints_skip f1.1, hB.points, rulePoints_skip f2.1, hCnil, hC.points]
    rfl
  have r4 : ruleBalanced (A ++ op1 :: (B ++ op2 :: C)) = true :=
    ruleBalanced_no_paren _ (fun x hx => ⟨(hchars x hx).2.1, (hchars x hx).2.2.1⟩)
  have r5 : ruleNoAdjacentBinary (A ++ op1 :: (B ++ op2 :: C)) = true := by
    rw [ruleNoAdjacentBinary_plain A _ hA.plain, hbe, List.cons_append,
      ruleNoAdjacentBinary_before (plain_facts (Or.inl hbd)).1,
      ruleNoAdjacentBinary_plain btail _ (fun x hx => hB.plain x (by rw [hbe]; simp [hx])),
      hce, ruleNoAdjacentBinary_before (plain_facts (Or.inl hcd)).1]
    have : ctail = ctail ++ [] := by simp
    rw [this, ruleNoAdjacentBinary_plain ctail _ (fun x hx => hC.plain x (by rw [hce]; simp [hx]))]
    rfl
  have r6 : ruleUnaryMinus isAsciiDigit (A ++ op1 :: (B ++ op2 :: C)) = true :=
    ruleUnaryMinus_none _ _ (fun x hx => (hchars x hx).1)
  have r7 : ruleFirst isAsciiDigit (A ++ op1 :: (B ++ op2 :: C)) = true := by
    rw [hae]; simp [ruleFirst, had]
  have r8 : ruleLast (A ++ op1 :: (B ++ op2 :: C)) = true := by
    have : A ++ op1 :: (B ++ op2 :: C) = (A ++ op1 :: (B ++ op2 :: cfront)) ++ [cl] := by
      rw [hcl]; simp
    rw [this]; exact ruleLast_append_digit _ hcld
  simp [validatorRules, r1, r2, r3, r4, r5, r6, r7, r8]
/-- A text `~a op b` of a unary minus, two literals and one binary operator
satisfies the rules of the validator. -/
theorem rules_unary_chain (digitTable : Nat → Bool) (A B : List Char) (op : Char)
    (hA : PlainLiteral A) (hB : PlainLiteral B) (h1 : isBinaryOperatorChar op = true) :
    validatorRules (isUnicodeDigit digitTable) isAsciiDigit ('~' :: (A ++ op :: B)) = true
    ∧ removeSpaces ('~' :: (A ++ op :: B)) = '~' :: (A ++ op :: B) := by
  obtain ⟨a, atail, hae, had⟩ := hA.first
  obtain ⟨b, btail, hbe, hbd⟩ := hB.first
  obtain ⟨bfront, bl, hbl, hbld⟩ := hB.last
  have f1 := binary_facts h1
  have hchars : ∀ x ∈ A ++ op :: B, x ≠ '~' ∧ x ≠ '(' ∧ x ≠ ')' ∧ x ≠ ' ' := by
    intro x hx
    simp only [List.mem_append, List.mem_cons] at hx
    rcases hx with h | h | h
    · have := plain_facts (hA.plain x h); exact ⟨this.2.1, this.2.2.1, this.2.2.2.1, this.2.2.2.2⟩
    · rw [h]; exact ⟨f1.2.1, f1.2.2.1, f1.2.2.2.1, f1.2.2.2.2⟩
    · have := plain_facts (hB.plain x h); exact ⟨this.2.1, this.2.2.1, this.2.2.2.1, this.2.2.2.2⟩
  have hall : ∀ x ∈ '~' :: (A ++ op :: B), x ≠ '(' ∧ x ≠ ')' ∧ x ≠ ' ' := by
    intro x hx
    rcases List.mem_cons.1 hx with h | h
    · subst h; decide
    · exact (hchars x h).2
  refine ⟨?_, removeSpaces_no_space _ (fun x hx => (hall x hx).2.2)⟩
  have hBnil : B = B ++ [] := by simp
  have r2 : ruleAlphabet (isUnicodeDigit digitTable) ('~' :: (A ++ op :: B)) = true := by
    have s0 : ∀ rest, ruleAlphabet (isUnicodeDigit digitTable) ('~' :: rest)
        = ruleAlphabet (isUnicodeDigit digitTable) rest := by
      intro rest; simp [ruleAlphabet]
    have s1 : ∀ rest, ruleAlphabet (isUnicodeDigit digitTable) (op :: rest)
        = ruleAlphabet (isUnicodeDigit digitTable) rest := by
      intro rest; simp [ruleAlphabet, h1]
    rw [s0, ruleAlphabet_plain digitTable A _ hA.plain, s1, hBnil,
      ruleAlphabet_plain digitTable B _ hB.plain]
    rfl
  have r3 : rulePoints isAsciiDigit ('~' :: (A ++ op :: B)) = true := by
    rw [rulePoints_skip (by decide), hA.points, rulePoints_skip f1.1, hBnil, hB.points]
    rfl
  have r4 : ruleBalanced ('~' :: (A ++ op :: B)) = true :=
    ruleBalanced_no_paren _ (fun x hx => ⟨(hall x hx).1, (hall x hx).2.1⟩)
  have r5 : ruleNoAdjacentBinary ('~' :: (A ++ op :: B)) = true := by
    rw [ruleNoAdjacentBinary_skip (by decide), ruleNoAdjacentBinary_plain A _ hA.plain, hbe,
      ruleNoAdjacentBinary_before (plain_facts (Or.inl hbd)).1]
    have : btail = btail ++ [] := by simp
    rw [this, ruleNoAdjacentBinary_plain btail _ (fun x hx => hB.plain x (by rw [hbe]; simp [hx]))]
    rfl
  have r6 : ruleUnaryMinus isAsciiDigit ('~' :: (A ++ op :: B)) = true := by
    rw [hae, List.cons_append, ruleUnaryMinus_digit had, ← List.cons_append, ← hae]
    exact ruleUnaryMinus_none _ _ (fun x hx => (hchars x hx).1)
  have r7 : ruleFirst isAsciiDigit ('~' :: (A ++ op :: B)) = true := by
    simp [ruleFirst]
  have r8 : ruleLast ('~' :: (A ++ op :: B)) = true := by
    have : '~' :: (A ++ op :: B) = ('~' :: (A ++ op :: bfront)) ++ [bl] := by
      rw [hbl]; simp
    rw [this]; exact ruleLast_append_digit _ hbld
  simp [validatorRules, r2, r3, r4, r5, r6, r7, r8]

/-! ## The converter on literals and operators -/

theorem unicodeIsDigit_ascii (digitTable : Nat → Bool) {c : Char} (h : isAsciiDigit c = true) :
    unicodeIsDigit digitTable c.toNat = true :=
  isUnicodeDigit_of_ascii digitTable h

theorem convertStep_plain (digitTable : Nat → Bool) (st : ConvertState) {c : Char}
    (h : isAsciiDigit c = true ∨ c = '.') :
    convertStep digitTable st c = some { st with number := st.number ++ [c] } := by
  by_cases hd : unicodeIsDigit digitTable c.toNat = true
  · simp [convertStep, hd]
  · have hc : c = '.' := by
      rcases h with h | h
      · exact absurd (unicodeIsDigit_ascii digitTable h) hd
      · exact h
    subst hc
    have hs : String.singleton '.' = "." := rfl
    have hp : OperatorPriority "." = none := rfl
    simp [convertStep, hd, hs, hp]

theorem convertLoop_plain (digitTable : Nat → Bool) :
    ∀ (l : List Char) (st : ConvertState) (rest : List Char),
      (∀ c ∈ l, isAsciiDigit c = true ∨ c = '.') →
      convertLoop digitTable st (l ++ rest)
        = convertLoop digitTable { st with number := st.number ++ l } rest := by
  intro l
  induction l with
  | nil => intro st rest _; simp
  | cons c l ih =>
    intro st rest hl
    rw [List.cons_append, convertLoop, convertStep_plain digitTable st (hl c (by simp))]
    simp only
    rw [ih _ rest (fun x hx => hl x (by simp [hx]))]
    simp
/-- The converter on an operator character that is no parenthesis: the pending
number is flushed, operators are popped by priority and the operator is
pushed. -/
theorem convertStep_operator (digitTable : Nat → Bool) (st : ConvertState) (op : Char)
    (value : Nat) (hop : OperatorPriority (String.singleton op) = some value)
    (hd : unicodeIsDigit digitTable op.toNat = false) (hdot : String.singleton op ≠ ".")
    (hcl : op ≠ ')') :
    convertStep digitTable st op
      = some ⟨(popOperators value (String.singleton op) st.stack.list
                (if st.number.length ≠ 0 then st.list ++ [String.mk st.number] else st.list)).2,
              ⟨String.singleton op ::
                (popOperators value (String.singleton op) st.stack.list
                  (if st.number.length ≠ 0 then st.list ++ [String.mk st.number]
                    else st.list)).1⟩,
              []⟩ := by
  unfold convertStep
  simp only [hd, Bool.false_eq_true, if_false, hdot, hop, hcl, Stack.Push]
  by_cases hn : st.number.length ≠ 0
  · simp [hn]
  · have : st.number = [] := by
      have : st.number.length = 0 := by simpa using hn
      exact List.length_eq_zero.1 this
    simp [this]

theorem convertLoop_cons (digitTable : Nat → Bool) (st st' : ConvertState) (i : Char)
    (rest : List Char) (h : convertStep digitTable st i = some st') :
    convertLoop digitTable st (i :: rest) = convertLoop digitTable st' rest := by
  rw [convertLoop, h]

theorem operator_char_facts (digitTable : Nat → Bool) {op : Char}
    (h : isBinaryOperatorChar op = true ∨ op = '~') :
    unicodeIsDigit digitTable op.toNat = false ∧ String.singleton op ≠ "." ∧ op ≠ ')' := by
  have hcases : op = '+' ∨ op = '-' ∨ op = '*' ∨ op = '/' ∨ op = '^' ∨ op = '~' := by
    rcases h with h | h
    · simp only [isBinaryOperatorChar, Bool.or_eq_true, decide_eq_true_eq] at h
      tauto
    · exact Or.inr (Or.inr (Or.inr (Or.inr (Or.inr h))))
  rcases hcases with h | h | h | h | h | h <;> subst h <;>
    exact ⟨rfl, by decide, by decide⟩

theorem plainLiteral_ne_nil {l : List Char} (h : PlainLiteral l) : l.length ≠ 0 := by
  obtain ⟨d, tail, e, _⟩ := h.first
  rw [e]; simp

/-- The converter on an operator character, in the middle of the loop, with
a number pending. -/
theorem convertLoop_operator (digitTable : Nat → Bool) (list stack : List String)
    (number : List Char) (hnum : number.length ≠ 0) (op : Char) (sign : String) (value : Nat)
    (hs : String.singleton op = sign) (hop : OperatorPriority sign = some value)
    (hf : isBinaryOperatorChar op = true ∨ op = '~') (rest : List Char) :
    convertLoop digitTable ⟨list, ⟨stack⟩, number⟩ (op :: rest)
      = convertLoop digitTable
          ⟨(popOperators value sign stack (list ++ [String.mk number])).2,
            ⟨sign :: (popOperators value sign stack (list ++ [String.mk number])).1⟩, []⟩
          rest := by
  have f := operator_char_facts digitTable hf
  rw [convertLoop_cons digitTable _ _ _ _
    (convertStep_operator digitTable _ op value (by rw [hs]; exact hop) f.1 f.2.1 f.2.2)]
  simp only [hnum, ne_eq, not_false_eq_true, if_true, hs]

/-- The converter on an operator character with no number pending. -/
theorem convertLoop_operator_bare (digitTable : Nat → Bool) (list stack : List String)
    (op : Char) (sign : String) (value : Nat)
    (hs : String.singleton op = sign) (hop : OperatorPriority sign = some value)
    (hf : isBinaryOperatorChar op = true ∨ op = '~') (rest : List Char) :
    convertLoop digitTable ⟨list, ⟨stack⟩, []⟩ (op :: rest)
      = convertLoop digitTable
          ⟨(popOperators value sign stack list).2,
            ⟨sign :: (popOperators value sign stack list).1⟩, []⟩
          rest := by
  have f := operator_char_facts digitTable hf
  rw [convertLoop_cons digitTable _ _ _ _
    (convertStep_operator digitTable _ op value (by rw [hs]; exact hop) f.1 f.2.1 f.2.2)]
  simp [hs]

/-- The end of the conversion: the pending number, then the stack. -/
theorem convertTokens_end (digitTable : Nat → Bool) (text : String) (list stack : List String)
    (number : List Char) (hnum : number.length ≠ 0)
    (h : convertLoop digitTable ⟨[], NewStack, []⟩ text.data = some ⟨list, ⟨stack⟩, number⟩) :
    convertTokens digitTable text = some (list ++ [String.mk number] ++ stack) := by
  unfold convertTokens
  rw [h]
  have : number.length > 0 := by omega
  simp [this]

theorem convertLoop_plain_end (digitTable : Nat → Bool) (l : List Char) (st : ConvertState)
    (hl : ∀ c ∈ l, isAsciiDigit c = true ∨ c = '.') :
    convertLoop digitTable st l = some { st with number := st.number ++ l } := by
  have := convertLoop_plain digitTable l st [] hl
  rw [List.append_nil] at this
  rw [this]
  rfl

/-- The converter on `a ^ b ^ c`: the second `^` does not pop the first. -/
theorem convertTokens_power_chain (digitTable : Nat → Bool) (a b c : String)
    (ha : PlainLiteral a.data) (hb : PlainLiteral b.data) (hc : PlainLiteral c.data) :
    convertTokens digitTable ⟨a.data ++ '^' :: (b.data ++ '^' :: c.data)⟩
      = some [a, b, c, "^", "^"] := by
  have key : convertLoop digitTable ⟨[], NewStack, []⟩ (a.data ++ '^' :: (b.data ++ '^' :: c.data))
      = some ⟨[a, b], ⟨["^", "^"]⟩, c.data⟩ := by
    rw [convertLoop_plain digitTable _ _ _ ha.plain]
    simp only [NewStack, List.nil_append]
    rw [convertLoop_operator digitTable _ _ _ (plainLiteral_ne_nil ha) '^' "^" 3 rfl rfl
      (Or.inl rfl)]
    have p1 : ∀ L, popOperators 3 "^" [] L = ([], L) := fun L => rfl
    rw [p1, convertLoop_plain digitTable _ _ _ hb.plain]
    simp only [List.nil_append]
    rw [convertLoop_operator digitTable _ _ _ (plainLiteral_ne_nil hb) '^' "^" 3 rfl rfl
      (Or.inl rfl)]
    have p2 : ∀ L, popOperators 3 "^" ["^"] L = (["^"], L) := fun L => rfl
    rw [p2, convertLoop_plain_end digitTable _ _ hc.plain]
    rfl
  have := convertTokens_end digitTable ⟨a.data ++ '^' :: (b.data ++ '^' :: c.data)⟩ _ _ _
    (plainLiteral_ne_nil hc) key
  rw [this]
  rfl
/-- The converter on `a op b op c` for a left-associative operator: the
second operator pops the first. -/
theorem convertTokens_left_chain (digitTable : Nat → Bool) (a b c : String) (op : Char)
    (hop : op = '+' ∨ op = '-' ∨ op = '*' ∨ op = '/')
    (ha : PlainLiteral a.data) (hb : PlainLiteral b.data) (hc : PlainLiteral c.data) :
    convertTokens digitTable ⟨a.data ++ op :: (b.data ++ op :: c.data)⟩
      = some [a, b, String.singleton op, c, String.singleton op] := by
  have hval : ∃ value, OperatorPriority (String.singleton op) = some value
      ∧ (∀ L, popOperators value (String.singleton op) [] L = ([], L))
      ∧ (∀ L, popOperators value (String.singleton op) [String.singleton op] L
            = ([], L ++ [String.singleton op])) := by
    rcases hop with h | h | h | h <;> subst h
    · exact ⟨1, rfl, fun L => rfl, fun L => rfl⟩
    · exact ⟨1, rfl, fun L => rfl, fun L => rfl⟩
    · exact ⟨2, rfl, fun L => rfl, fun L => rfl⟩
    · exact ⟨2, rfl, fun L => rfl, fun L => rfl⟩
  obtain ⟨value, hv, p1, p2⟩ := hval
  have hbin : isBinaryOperatorChar op = true ∨ op = '~' := by
    rcases hop with h | h | h | h <;> subst h <;> exact Or.inl rfl
  have key : convertLoop digitTable ⟨[], NewStack, []⟩ (a.data ++ op :: (b.data ++ op :: c.data))
      = some ⟨[a, b, String.singleton op], ⟨[String.singleton op]⟩, c.data⟩ := by
    rw [convertLoop_plain digitTable _ _ _ ha.plain]
    simp only [NewStack, List.nil_append]
    rw [convertLoop_operator digitTable _ _ _ (plainLiteral_ne_nil ha) op _ value rfl hv hbin,
      p1, convertLoop_plain digitTable _ _ _ hb.plain]
    simp only [List.nil_append]
    rw [convertLoop_operator digitTable _ _ _ (plainLiteral_ne_nil hb) op _ value rfl hv hbin,
      p2, convertLoop_plain_end digitTable _ _ hc.plain]
    rfl
  have := convertTokens_end digitTable ⟨a.data ++ op :: (b.data ++ op :: c.data)⟩ _ _ _
    (plainLiteral_ne_nil hc) key
  rw [this]
  rfl

/-- The converter on `~a+b`: the `+` pops the `~`. -/
theorem convertTokens_unary_chain (digitTable : Nat → Bool) (a b : String)
    (ha : PlainLiteral a.data) (hb : PlainLiteral b.data) :
    convertTokens digitTable ⟨'~' :: (a.data ++ '+' :: b.data)⟩ = some [a, "~", b, "+"] := by
  have key : convertLoop digitTable ⟨[], NewStack, []⟩ ('~' :: (a.data ++ '+' :: b.data))
      = some ⟨[a, "~"], ⟨["+"]⟩, b.data⟩ := by
    simp only [NewStack]
    rw [convertLoop_operator_bare digitTable _ _ '~' "~" 4 rfl rfl (Or.inr rfl)]
    have p1 : ∀ L, popOperators 4 "~" [] L = ([], L) := fun L => rfl
    rw [p1, convertLoop_plain digitTable _ _ _ ha.plain]
    simp only [List.nil_append]
    rw [convertLoop_operator digitTable _ _ _ (plainLiteral_ne_nil ha) '+' "+" 1 rfl rfl
      (Or.inl rfl)]
    have p2 : ∀ L, popOperators 1 "+" ["~"] L = ([], L ++ ["~"]) := fun L => rfl
    rw [p2, convertLoop_plain_end digitTable _ _ hb.plain]
    rfl
  have := convertTokens_end digitTable ⟨'~' :: (a.data ++ '+' :: b.data)⟩ _ _ _
    (plainLiteral_ne_nil hb) key
  rw [this]
  rfl

/-! ## Joining and splitting the postfix -/

theorem splitSpaceAux_plain :
    ∀ (l cur rest : List Char), (∀ c ∈ l, c ≠ ' ') →
      splitSpaceAux cur (l ++ rest) = splitSpaceAux (cur ++ l) rest := by
  intro l
  induction l with
  | nil => intro cur rest _; simp
  | cons c l ih =>
    intro cur rest h
    have hc : c ≠ ' ' := h c (by simp)
    rw [List.cons_append, splitSpaceAux]
    simp only [hc, if_false]
    rw [ih _ _ (fun x hx => h x (by simp [hx]))]
    simp

/-- `strings.Split` undoes `strings.Join` on tokens without a space. -/
theorem split_join : ∀ (tokens : List String), tokens ≠ [] →
    (∀ t ∈ tokens, ∀ c ∈ t.data, c ≠ ' ') →
    stringsSplitSpace (stringsJoinSpace tokens) = tokens := by
  intro tokens
  induction tokens with
  | nil => intro h; exact absurd rfl h
  | cons a rest ih =>
    intro _ hall
    cases rest with
    | nil =>
      have := splitSpaceAux_plain a.data [] [] (hall a (by simp))
      simp only [List.append_nil, List.nil_append] at this
      simp [stringsSplitSpace, stringsJoinSpace, this, splitSpaceAux]
    | cons b rest =>
      have ih' := ih (by simp) (fun t ht => hall t (by simp [ht]))
      have hsplit := splitSpaceAux_plain a.data []
        (' ' :: (stringsJoinSpace (b :: rest)).data) (hall a (by simp))
      simp only [stringsSplitSpace] at ih' ⊢
      simp only [stringsJoinSpace, String.data_append, List.append_assoc]
      rw [List.singleton_append, hsplit, splitSpaceAux]
      simp only [if_true, List.nil_append]
      rw [ih']

/-! ## The pipeline on chains of literals -/

theorem operatorPriority_plain {s : String} (h : PlainLiteral s.data) :
    OperatorPriority s = none := by
  obtain ⟨d, tail, e, hd⟩ := h.first
  have hne : ∀ op : Char, isAsciiDigit op = false → s ≠ String.singleton op := by
    intro op hop hs
    rw [hs] at e
    simp [String.singleton] at e
    rw [e.1] at hop
    rw [hop] at hd; cases hd
  have h1 := hne '+' rfl
  have h2 := hne '-' rfl
  have h3 := hne '*' rfl
  have h4 := hne '/' rfl
  have h5 := hne '^' rfl
  have h6 := hne '~' rfl
  have h7 := hne '(' rfl
  have e1 : String.singleton '+' = "+" := rfl
  have e2 : String.singleton '-' = "-" := rfl
  have e3 : String.singleton '*' = "*" := rfl
  have e4 : String.singleton '/' = "/" := rfl
  have e5 : String.singleton '^' = "^" := rfl
  have e6 : String.singleton '~' = "~" := rfl
  have e7 : String.singleton '(' = "(" := rfl
  rw [e1] at h1; rw [e2] at h2; rw [e3] at h3; rw [e4] at h4
  rw [e5] at h5; rw [e6] at h6; rw [e7] at h7
  simp [OperatorPriority, h1, h2, h3, h4, h5, h6, h7]

theorem plain_no_space {s : String} (h : PlainLiteral s.data) : ∀ c ∈ s.data, c ≠ ' ' :=
  fun c hc => (plain_facts (h.plain c hc)).2.2.2.2

/-- `Convert` on a space-free text that satisfies the rules of the validator
and on which the conversion loop yields `tokens`. -/
theorem convert_of_tokens (digitTable : Nat → Bool) (text : String) (tokens : List String)
    (hrules : validatorRules (isUnicodeDigit digitTable) isAsciiDigit text.data = true)
    (hspace : removeSpaces text.data = text.data)
    (htokens : convertTokens digitTable ⟨text.data⟩ = some tokens) :
    (NewExpression text).Convert digitTable
      = some (⟨text, stringsJoinSpace tokens⟩, true, none) := by
  have hvalid : (NewExpression text).IsValidMathExpression digitTable = true := by
    rw [validator_iff_rules]
    show validatorRules _ _ (removeSpaces text.data) = true
    rw [hspace]; exact hrules
  have hrep : stringsReplaceAllSpace (NewExpression text).Infix = ⟨text.data⟩ := by
    show (⟨removeSpaces text.data⟩ : String) = ⟨text.data⟩
    rw [hspace]
  simp only [NewExpression] at hvalid hrep
  simp [Expression.Convert, Expression.Check, hvalid, hrep, htokens, NewExpression]

/-- `Calculate` on a postfix `x y z s t`: the reductions `(y, z, s)` then
`(x, v, t)`. -/
theorem calculate_right_nested (ids : IdSupply) (source x y z s t : String) (fuel : Nat)
    (hx : OperatorPriority x = none) (hy : OperatorPriority y = none)
    (hz : OperatorPriority z = none)
    (hs : (OperatorPriority s).isSome = true) (hs' : s ≠ "~")
    (ht : (OperatorPriority t).isSome = true) (ht' : t ≠ "~")
    (hsplit : stringsSplitSpace (stringsJoinSpace [x, y, z, s, t]) = [x, y, z, s, t]) :
    Expression.Calculate ids (fuel + 2) ⟨source, stringsJoinSpace [x, y, z, s, t]⟩
      = some ([⟨y, z, s, ids.next 0, "", 0, false⟩, ⟨x, ids.next 0, t, ids.next 1, "", 0, false⟩],
          ids.next 1) := by
  unfold Expression.Calculate
  simp only [hsplit, List.length_cons, List.length_nil]
  have hl : ¬ (0 + 1 + 1 + 1 + 1 + 1 = 1) := by omega
  simp only [hl, if_false]
  rw [calculateLoop_succ ids (fuel + 1) _ _ (by simp)]
  have p1 := passOf_binary [x] y z s [t] (ids.next 0)
    (by intro w hw; simp at hw; rcases hw with h | h | h <;> rw [h] <;> assumption) hs hs'
  simp only [List.length_nil, List.cons_append, List.nil_append] at p1 ⊢
  rw [p1]
  simp only
  rw [calculateLoop_succ ids fuel _ _ (by simp)]
  have p2 := passOf_binary [] x (ids.next 0) t [] (ids.next 1)
    (by
      intro w hw; simp at hw
      rcases hw with h | h
      · rw [h]; exact hx
      · rw [h]; exact operatorPriority_canonical (ids.canonical 0)) ht ht'
  simp only [List.length_cons, List.length_nil, List.nil_append, zero_add] at p2 ⊢
  rw [p2]
  simp only
  rw [calculateLoop_done ids fuel _ _ (by simp)]
  rfl

/-- `Calculate` on a postfix `x y s z t`: the reductions `(x, y, s)` then
`(v, z, t)`. -/
theorem calculate_left_nested (ids : IdSupply) (source x y z s t : String) (fuel : Nat)
    (hx : OperatorPriority x = none) (hy : OperatorPriority y = none)
    (hz : OperatorPriority z = none)
    (hs : (OperatorPriority s).isSome = true) (hs' : s ≠ "~")
    (ht : (OperatorPriority t).isSome = true) (ht' : t ≠ "~")
    (hsplit : stringsSplitSpace (stringsJoinSpace [x, y, s, z, t]) = [x, y, s, z, t]) :
    Expression.Calculate ids (fuel + 2) ⟨source, stringsJoinSpace [x, y, s, z, t]⟩
      = some ([⟨x, y, s, ids.next 0, "", 0, false⟩, ⟨ids.next 0, z, t, ids.next 1, "", 0, false⟩],
          ids.next 1) := by
  unfold Expression.Calculate
  simp only [hsplit, List.length_cons, List.length_nil]
  have hl : ¬ (0 + 1 + 1 + 1 + 1 + 1 = 1) := by omega
  simp only [hl, if_false]
  rw [calculateLoop_succ ids (fuel + 1) _ _ (by simp)]
  have p1 := passOf_binary [] x y s [z, t] (ids.next 0)
    (by intro w hw; simp at hw; rcases hw with h | h <;> rw [h] <;> assumption) hs hs'
  simp only [List.length_nil, List.nil_append] at p1 ⊢
  rw [p1]
  simp only
  rw [calculateLoop_succ ids fuel _ _ (by simp)]
  have p2 := passOf_binary [] (ids.next 0) z t [] (ids.next 1)
    (by
      intro w hw; simp at hw
      rcases hw with h | h
      · rw [h]; exact operatorPriority_canonical (ids.canonical 0)
      · rw [h]; exact hz) ht ht'
  simp only [List.length_cons, List.length_nil, List.nil_append, zero_add] at p2 ⊢
  rw [p2]
  simp only
  rw [calculateLoop_done ids fuel _ _ (by simp)]
  rfl
/-- C9 for one binary operator character: the conversion and the two tasks of
`a op b op c`, right-nested for `^` and left-nested for `+ - * /`. -/
theorem chain_pipeline (digitTable : Nat → Bool) (ids : IdSupply) (a b c : String) (op : Char)
    (ha : PlainLiteral a.data) (hb : PlainLiteral b.data) (hc : PlainLiteral c.data)
    (fuel : Nat) :
    (op = '^' →
      (NewExpression (a ++ "^" ++ b ++ "^" ++ c)).Convert digitTable
          = some (⟨a ++ "^" ++ b ++ "^" ++ c, a ++ " " ++ b ++ " " ++ c ++ " ^ ^"⟩, true, none)
        ∧ Expression.Calculate ids (fuel + 2)
              ⟨a ++ "^" ++ b ++ "^" ++ c, a ++ " " ++ b ++ " " ++ c ++ " ^ ^"⟩
            = some ([⟨b, c, "^", ids.next 0, "", 0, false⟩,
                     ⟨a, ids.next 0, "^", ids.next 1, "", 0, false⟩], ids.next 1))
    ∧ (op = '+' ∨ op = '-' ∨ op = '*' ∨ op = '/' →
      (NewExpression (a ++ String.singleton op ++ b ++ String.singleton op ++ c)).Convert digitTable
          = some (⟨a ++ String.singleton op ++ b ++ String.singleton op ++ c,
                   a ++ " " ++ b ++ " " ++ String.singleton op ++ " " ++ c ++ " "
                     ++ String.singleton op⟩, true, none)
        ∧ Expression.Calculate ids (fuel + 2)
              ⟨a ++ String.singleton op ++ b ++ String.singleton op ++ c,
               a ++ " " ++ b ++ " " ++ String.singleton op ++ " " ++ c ++ " "
                 ++ String.singleton op⟩
            = some ([⟨a, b, String.singleton op, ids.next 0, "", 0, false⟩,
                     ⟨ids.next 0, c, String.singleton op, ids.next 1, "", 0, false⟩],
                    ids.next 1)) := by
  have hnoa := plain_no_space ha
  have hnob := plain_no_space hb
  have hnoc := plain_no_space hc
  have hpa := operatorPriority_plain ha
  have hpb := operatorPriority_plain hb
  have hpc := operatorPriority_plain hc
  constructor
  · intro _
    have hdata : (a ++ "^" ++ b ++ "^" ++ c).data = a.data ++ '^' :: (b.data ++ '^' :: c.data) := by
      simp [String.data_append]
    obtain ⟨hr, hsp⟩ := rules_binary_chain digitTable a.data b.data c.data '^' '^' ha hb hc rfl rfl
    have hjoin : stringsJoinSpace [a, b, c, "^", "^"] = a ++ " " ++ b ++ " " ++ c ++ " ^ ^" := by
      apply String.ext
      simp [stringsJoinSpace, String.data_append]
    have hsplit : stringsSplitSpace (stringsJoinSpace [a, b, c, "^", "^"]) = [a, b, c, "^", "^"] := by
      apply split_join _ (by simp)
      intro t ht
      simp only [List.mem_cons, List.mem_singleton, List.not_mem_nil, or_false] at ht
      rcases ht with h | h | h | h | h <;> subst h
      · exact hnoa
      · exact hnob
      · exact hnoc
      · decide
      · decide
    refine ⟨?_, ?_⟩
    · rw [← hjoin]
      exact convert_of_tokens digitTable _ _ (by rw [hdata]; exact hr) (by rw [hdata]; exact hsp)
        (by rw [hdata]; exact convertTokens_power_chain digitTable a b c ha hb hc)
    · rw [← hjoin]
      exact calculate_right_nested ids _ a b c "^" "^" fuel hpa hpb hpc rfl (by decide) rfl
        (by decide) hsplit
  · intro hop
    have hbin : isBinaryOperatorChar op = true := by
      rcases hop with h | h | h | h <;> subst h <;> rfl
    have hsome : (OperatorPriority (String.singleton op)).isSome = true
        ∧ String.singleton op ≠ "~" ∧ (∀ ch ∈ (String.singleton op).data, ch ≠ ' ') := by
      rcases hop with h | h | h | h <;> subst h <;> exact ⟨rfl, by decide, by decide⟩
    have hdata : (a ++ String.singleton op ++ b ++ String.singleton op ++ c).data
        = a.data ++ op :: (b.data ++ op :: c.data) := by
      simp [String.data_append, String.singleton]
    obtain ⟨hr, hsp⟩ := rules_binary_chain digitTable a.data b.data c.data op op ha hb hc hbin hbin
    have hjoin : stringsJoinSpace [a, b, String.singleton op, c, String.singleton op]
        = a ++ " " ++ b ++ " " ++ String.singleton op ++ " " ++ c ++ " " ++ String.singleton op := by
      apply String.ext
      simp [stringsJoinSpace, String.data_append]
    have hsplit : stringsSplitSpace
        (stringsJoinSpace [a, b, String.singleton op, c, String.singleton op])
          = [a, b, String.singleton op, c, String.singleton op] := by
      apply split_join _ (by simp)
      intro t ht
      simp only [List.mem_cons, List.mem_singleton, List.not_mem_nil, or_false] at ht
      rcases ht with h | h | h | h | h <;> subst h
      · exact hnoa
      · exact hnob
      · exact hsome.2.2
      · exact hnoc
      · exact hsome.2.2
    refine ⟨?_, ?_⟩
    · rw [← hjoin]
      exact convert_of_tokens digitTable _ _ (by rw [hdata]; exact hr) (by rw [hdata]; exact hsp)
        (by rw [hdata]; exact convertTokens_left_chain digitTable a b c op hop ha hb hc)
    · rw [← hjoin]
      exact calculate_left_nested ids _ a b c _ _ fuel hpa hpb hpc hsome.1 hsome.2.1 hsome.1
        hsome.2.1 hsplit
/-- C9.  Associativity, for all numeric literals `a`, `b`, `c`: `Convert` turns
`a^b^c` into the postfix `a b c ^ ^` and `Calculate` (with fuel for two passes
or more) returns the tasks `(b, c, ^) → v1` then `(a, v1, ^) → v2`; and for
every `op` of `+ - * /`, `Convert` turns `a op b op c` into `a b op c op` and
`Calculate` returns `(a, b, op) → v1` then `(v1, c, op) → v2`. -/
theorem C9_associativity (digitTable : Nat → Bool) (ids : IdSupply) (a b c : String)
    (ha : isNumericLiteral a = true) (hb : isNumericLiteral b = true)
    (hc : isNumericLiteral c = true) (fuel : Nat) :
    ((NewExpression (a ++ "^" ++ b ++ "^" ++ c)).Convert digitTable
        = some (⟨a ++ "^" ++ b ++ "^" ++ c, a ++ " " ++ b ++ " " ++ c ++ " ^ ^"⟩, true, none)
      ∧ Expression.Calculate ids (fuel + 2)
            ⟨a ++ "^" ++ b ++ "^" ++ c, a ++ " " ++ b ++ " " ++ c ++ " ^ ^"⟩
          = some ([⟨b, c, "^", ids.next 0, "", 0, false⟩,
                   ⟨a, ids.next 0, "^", ids.next 1, "", 0, false⟩], ids.next 1))
    ∧ ∀ op ∈ ["+", "-", "*", "/"],
      (NewExpression (a ++ op ++ b ++ op ++ c)).Convert digitTable
          = some (⟨a ++ op ++ b ++ op ++ c, a ++ " " ++ b ++ " " ++ op ++ " " ++ c ++ " " ++ op⟩,
              true, none)
        ∧ Expression.Calculate ids (fuel + 2)
              ⟨a ++ op ++ b ++ op ++ c, a ++ " " ++ b ++ " " ++ op ++ " " ++ c ++ " " ++ op⟩
            = some ([⟨a, b, op, ids.next 0, "", 0, false⟩,
                     ⟨ids.next 0, c, op, ids.next 1, "", 0, false⟩], ids.next 1) := by
  have pa := plainLiteral_of_numeric a ha
  have pb := plainLiteral_of_numeric b hb
  have pc := plainLiteral_of_numeric c hc
  refine ⟨(chain_pipeline digitTable ids a b c '^' pa pb pc fuel).1 rfl, ?_⟩
  intro op hop
  simp only [List.mem_cons, List.mem_singleton, List.not_mem_nil, or_false] at hop
  rcases hop with h | h | h | h <;> subst h
  · exact (chain_pipeline digitTable ids a b c '+' pa pb pc fuel).2 (Or.inl rfl)
  · exact (chain_pipeline digitTable ids a b c '-' pa pb pc fuel).2 (Or.inr (Or.inl rfl))
  · exact (chain_pipeline digitTable ids a b c '*' pa pb pc fuel).2 (Or.inr (Or.inr (Or.inl rfl)))
  · exact (chain_pipeline digitTable ids a b c '/' pa pb pc fuel).2 (Or.inr (Or.inr (Or.inr rfl)))

/-- C9 at work on the literals `2`, `3`, `4`. -/
theorem C9_associativity_witness :
    ((NewExpression ("2" ++ "^" ++ "3" ++ "^" ++ "4")).Convert (fun _ => false)
        = some (⟨"2" ++ "^" ++ "3" ++ "^" ++ "4", "2" ++ " " ++ "3" ++ " " ++ "4" ++ " ^ ^"⟩,
            true, none)
      ∧ Expression.Calculate sampleIds (0 + 2)
            ⟨"2" ++ "^" ++ "3" ++ "^" ++ "4", "2" ++ " " ++ "3" ++ " " ++ "4" ++ " ^ ^"⟩
          = some ([⟨"3", "4", "^", sampleIds.next 0, "", 0, false⟩,
                   ⟨"2", sampleIds.next 0, "^", sampleIds.next 1, "", 0, false⟩],
                  sampleIds.next 1))
    ∧ ∀ op ∈ ["+", "-", "*", "/"],
      (NewExpression ("2" ++ op ++ "3" ++ op ++ "4")).Convert (fun _ => false)
          = some (⟨"2" ++ op ++ "3" ++ op ++ "4",
                   "2" ++ " " ++ "3" ++ " " ++ op ++ " " ++ "4" ++ " " ++ op⟩, true, none)
        ∧ Expression.Calculate sampleIds (0 + 2)
              ⟨"2" ++ op ++ "3" ++ op ++ "4",
               "2" ++ " " ++ "3" ++ " " ++ op ++ " " ++ "4" ++ " " ++ op⟩
            = some ([⟨"2", "3", op, sampleIds.next 0, "", 0, false⟩,
                     ⟨sampleIds.next 0, "4", op, sampleIds.next 1, "", 0, false⟩],
                    sampleIds.next 1) :=
  C9_associativity (fun _ => false) sampleIds "2" "3" "4" (by decide) (by decide) (by decide) 0

/-! ## Unary minus -/

theorem loop_no_tilde_sign (ids : IdSupply) :
    ∀ (fuel : Nat) (expression : List String) (results T : List Task) (f : String),
      calculateLoop ids fuel expression results = some (T, f) →
      (∀ t ∈ results, t.Sign ≠ "~") → ∀ t ∈ T, t.Sign ≠ "~" := by
  intro fuel
  induction fuel with
  | zero =>
    intro expression results T f h hr
    by_cases hl : expression.length = 1
    · rw [calculateLoop_done ids 0 expression results hl] at h
      cases h; exact hr
    · rw [calculateLoop_zero ids expression results hl] at h; cases h
  | succ fuel ih =>
    intro expression results T f h hr
    by_cases hl : expression.length = 1
    · rw [calculateLoop_done ids _ expression results hl] at h
      cases h; exact hr
    · rw [calculateLoop_succ ids fuel expression results hl] at h
      rcases passOf_cases expression (ids.next results.length) with
        ⟨hp, _⟩ | hp | ⟨pre, x, post, _, _, hp⟩ | ⟨pre, x, y, sign, post, _, _, _, hne, hp⟩
      · rw [hp] at h; exact ih _ _ T f h hr
      · rw [hp] at h; cases h; intro t ht; simp at ht
      · rw [hp] at h
        refine ih _ _ T f h ?_
        intro t ht
        rcases List.mem_append.1 ht with e | e
        · exact hr t e
        · simp at e; rw [e]; show ("-" : String) ≠ "~"; decide
      · rw [hp] at h
        refine ih _ _ T f h ?_
        intro t ht
        rcases List.mem_append.1 ht with e | e
        · exact hr t e
        · simp at e; rw [e]; exact hne

theorem calculate_unary_then_binary (ids : IdSupply) (source x y s : String) (fuel : Nat)
    (hx : OperatorPriority x = none) (hy : OperatorPriority y = none)
    (hs : (OperatorPriority s).isSome = true) (hs' : s ≠ "~")
    (hsplit : stringsSplitSpace (stringsJoinSpace [x, "~", y, s]) = [x, "~", y, s]) :
    Expression.Calculate ids (fuel + 2) ⟨source, stringsJoinSpace [x, "~", y, s]⟩
      = some ([⟨"0", x, "-", ids.next 0, "", 0, false⟩,
               ⟨ids.next 0, y, s, ids.next 1, "", 0, false⟩], ids.next 1) := by
  unfold Expression.Calculate
  simp only [hsplit, List.length_cons, List.length_nil]
  have hl : ¬ (0 + 1 + 1 + 1 + 1 = 1) := by omega
  simp only [hl, if_false]
  rw [calculateLoop_succ ids (fuel + 1) _ _ (by simp)]
  have p1 := passOf_unary [] x [y, s] (ids.next 0)
    (by intro w hw; simp at hw; rw [hw]; exact hx)
  simp only [List.length_nil, List.nil_append] at p1 ⊢
  rw [p1]
  simp only
  rw [calculateLoop_succ ids fuel _ _ (by simp)]
  have p2 := passOf_binary [] (ids.next 0) y s [] (ids.next 1)
    (by
      intro w hw; simp at hw
      rcases hw with h | h
      · rw [h]; exact operatorPriority_canonical (ids.canonical 0)
      · rw [h]; exact hy) hs hs'
  simp only [List.length_cons, List.length_nil, List.nil_append, zero_add] at p2 ⊢
  rw [p2]
  simp only
  rw [calculateLoop_done ids fuel _ _ (by simp)]
  rfl

/-- C10.  Unary minus is lowered to a subtraction from zero.  In every pass of
the loop of `Calculate` whose leftmost operator is a `~` at an index of at least
one, the task appended has `Num1 = "0"`, `Sign = "-"` and `Num2` the token
immediately before the `~`; no task of a returned list has the sign `~`; and
for all numeric literals `a`, `b` the pipeline on `~a+b` converts to `a ~ b +`
and yields exactly `(0, a, -) → v1` then `(v1, b, +) → v2`, with `v2` the final
identifier. -/
theorem C10_unary_minus_lowering (digitTable : Nat → Bool) (ids : IdSupply) (a b : String)
    (ha : isNumericLiteral a = true) (hb : isNumericLiteral b = true) (fuel : Nat) :
    (∀ (expression : List String) (results : List Task) (index : Nat),
        expression.length ≠ 1 → findOperator expression 0 = some (index, "~") → 1 ≤ index →
        calculateLoop ids (fuel + 1) expression results
          = calculateLoop ids fuel (replaceUnary expression index (ids.next results.length))
              (results ++ [⟨"0", expression.getD (index - 1) "", "-", ids.next results.length,
                "", 0, false⟩]))
    ∧ (∀ (e : Expression) (tasks : List Task) (final : String),
        e.Calculate ids fuel = some (tasks, final) → ∀ t ∈ tasks, t.Sign ≠ "~")
    ∧ (NewExpression ("~" ++ a ++ "+" ++ b)).Convert digitTable
        = some (⟨"~" ++ a ++ "+" ++ b, a ++ " ~ " ++ b ++ " +"⟩, true, none)
    ∧ Expression.Calculate ids (fuel + 2) ⟨"~" ++ a ++ "+" ++ b, a ++ " ~ " ++ b ++ " +"⟩
        = some ([⟨"0", a, "-", ids.next 0, "", 0, false⟩,
                 ⟨ids.next 0, b, "+", ids.next 1, "", 0, false⟩], ids.next 1) := by
  have pa := plainLiteral_of_numeric a ha
  have pb := plainLiteral_of_numeric b hb
  refine ⟨?_, ?_, ?_, ?_⟩
  · intro expression results index hl hf hi
    rw [calculateLoop_succ ids fuel expression results hl]
    have hi' : ¬ index < 1 := by omega
    simp [passOf, hf, hi', NewExample]
  · intro e tasks final h t ht
    unfold Expression.Calculate at h
    by_cases hl : (stringsSplitSpace e.Postfix).length = 1
    · simp only [hl, if_true, NewExample, Option.some.injEq, Prod.mk.injEq] at h
      obtain ⟨h1, _⟩ := h
      subst h1
      simp at ht
      rw [ht]; show ("+" : String) ≠ "~"; decide
    · simp only [hl, if_false] at h
      exact loop_no_tilde_sign ids fuel _ [] tasks final h (fun t ht => by simp at ht) t ht
  · have hdata : ("~" ++ a ++ "+" ++ b).data = '~' :: (a.data ++ '+' :: b.data) := by
      simp [String.data_append]
    obtain ⟨hr, hsp⟩ := rules_unary_chain digitTable a.data b.data '+' pa pb rfl
    have hjoin : stringsJoinSpace [a, "~", b, "+"] = a ++ " ~ " ++ b ++ " +" := by
      apply String.ext
      simp [stringsJoinSpace, String.data_append]
    rw [← hjoin]
    exact convert_of_tokens digitTable _ _ (by rw [hdata]; exact hr) (by rw [hdata]; exact hsp)
      (by rw [hdata]; exact convertTokens_unary_chain digitTable a b pa pb)
  · have hjoin : stringsJoinSpace [a, "~", b, "+"] = a ++ " ~ " ++ b ++ " +" := by
      apply String.ext
      simp [stringsJoinSpace, String.data_append]
    have hsplit : stringsSplitSpace (stringsJoinSpace [a, "~", b, "+"]) = [a, "~", b, "+"] := by
      apply split_join _ (by simp)
      intro t ht
      simp only [List.mem_cons, List.mem_singleton, List.not_mem_nil, or_false] at ht
      rcases ht with h | h | h | h <;> subst h
      · exact plain_no_space pa
      · decide
      · exact plain_no_space pb
      · decide
    rw [← hjoin]
    exact calculate_unary_then_binary ids _ a b "+" fuel (operatorPriority_plain pa)
      (operatorPriority_plain pb) rfl (by decide) hsplit

/-- C10 at work on the literals `5` and `3`. -/
theorem C10_unary_minus_lowering_witness :
    (∀ (expression : List String) (results : List Task) (index : Nat),
        expression.length ≠ 1 → findOperator expression 0 = some (index, "~") → 1 ≤ index →
        calculateLoop sampleIds (0 + 1) expression results
          = calculateLoop sampleIds 0
              (replaceUnary expression index (sampleIds.next results.length))
              (results ++ [⟨"0", expression.getD (index - 1) "", "-",
                sampleIds.next results.length, "", 0, false⟩]))
    ∧ (∀ (e : Expression) (tasks : List Task) (final : String),
        e.Calculate sampleIds 0 = some (tasks, final) → ∀ t ∈ tasks, t.Sign ≠ "~")
    ∧ (NewExpression ("~" ++ "5" ++ "+" ++ "3")).Convert (fun _ => false)
        = some (⟨"~" ++ "5" ++ "+" ++ "3", "5" ++ " ~ " ++ "3" ++ " +"⟩, true, none)
    ∧ Expression.Calculate sampleIds (0 + 2)
          ⟨"~" ++ "5" ++ "+" ++ "3", "5" ++ " ~ " ++ "3" ++ " +"⟩
        = some ([⟨"0", "5", "-", sampleIds.next 0, "", 0, false⟩,
                 ⟨sampleIds.next 0, "3", "+", sampleIds.next 1, "", 0, false⟩],
                sampleIds.next 1) :=
  C10_unary_minus_lowering (fun _ => false) sampleIds "5" "3" (by decide) (by decide) 0

/-- C19.  Each of the texts `""`, `2++3`, `(2+3`, `2+`, `2.+3` and `)2+3(`
is rejected by the validator; `Convert` returns `false` with the
malformed-expression error and leaves `Postfix` empty, and the pipeline
produces no task list. -/
theorem C19_rejected_examples (digitTable : Nat → Bool) (ids : IdSupply) (fuel : Nat) :
    ∀ text ∈ ["", "2++3", "(2+3", "2+", "2.+3", ")2+3("],
      (NewExpression text).IsValidMathExpression digitTable = false
      ∧ (NewExpression text).Convert digitTable = some (⟨text, ""⟩, false, some malformedError)
      ∧ pipeline digitTable ids fuel text = none := by
  intro text ht
  simp only [List.mem_cons, List.mem_singleton, List.not_mem_nil, or_false] at ht
  rcases ht with h | h | h | h | h | h <;> subst h <;> exact ⟨rfl, rfl, rfl⟩

/-- C19 at work on `2++3`. -/
theorem C19_rejected_examples_witness :
    (NewExpression "2++3").IsValidMathExpression (fun _ => false) = false
    ∧ (NewExpression "2++3").Convert (fun _ => false)
        = some (⟨"2++3", ""⟩, false, some malformedError)
    ∧ pipeline (fun _ => false) sampleIds 5 "2++3" = none :=
  C19_rejected_examples (fun _ => false) sampleIds 5 "2++3" (by simp)

/-! ## Precedence and bare literals -/

/-- The converter on `a+b*c`: the `*` stays above the `+`. -/
theorem convertTokens_precedence (digitTable : Nat → Bool) (a b c : String)
    (ha : PlainLiteral a.data) (hb : PlainLiteral b.data) (hc : PlainLiteral c.data) :
    convertTokens digitTable ⟨a.data ++ '+' :: (b.data ++ '*' :: c.data)⟩
      = some [a, b, c, "*", "+"] := by
  have key : convertLoop digitTable ⟨[], NewStack, []⟩ (a.data ++ '+' :: (b.data ++ '*' :: c.data))
      = some ⟨[a, b], ⟨["*", "+"]⟩, c.data⟩ := by
    rw [convertLoop_plain digitTable _ _ _ ha.plain]
    simp only [NewStack, List.nil_append]
    rw [convertLoop_operator digitTable _ _ _ (plainLiteral_ne_nil ha) '+' "+" 1 rfl rfl
      (Or.inl rfl)]
    have p1 : ∀ L, popOperators 1 "+" [] L = ([], L) := fun L => rfl
    rw [p1, convertLoop_plain digitTable _ _ _ hb.plain]
    simp only [List.nil_append]
    rw [convertLoop_operator digitTable _ _ _ (plainLiteral_ne_nil hb) '*' "*" 2 rfl rfl
      (Or.inl rfl)]
    have p2 : ∀ L, popOperators 2 "*" ["+"] L = (["+"], L) := fun L => rfl
    rw [p2, convertLoop_plain_end digitTable _ _ hc.plain]
    rfl
  have := convertTokens_end digitTable ⟨a.data ++ '+' :: (b.data ++ '*' :: c.data)⟩ _ _ _
    (plainLiteral_ne_nil hc) key
  rw [this]
  rfl

/-- C13.  Precedence, for all numeric literals `a`, `b`, `c`: `Convert` turns
`a+b*c` into the postfix `a b c * +`, and `Calculate` (with fuel for two passes
or more) returns exactly the two tasks `(b, c, *) → v1` then `(a, v1, +) → v2`,
with `v2`, the `Variable` of the second task, as the final identifier. -/
theorem C13_precedence (digitTable : Nat → Bool) (ids : IdSupply) (a b c : String)
    (ha : isNumericLiteral a = true) (hb : isNumericLiteral b = true)
    (hc : isNumericLiteral c = true) (fuel : Nat) :
    (NewExpression (a ++ "+" ++ b ++ "*" ++ c)).Convert digitTable
        = some (⟨a ++ "+" ++ b ++ "*" ++ c, a ++ " " ++ b ++ " " ++ c ++ " * +"⟩, true, none)
    ∧ Expression.Calculate ids (fuel + 2)
          ⟨a ++ "+" ++ b ++ "*" ++ c, a ++ " " ++ b ++ " " ++ c ++ " * +"⟩
        = some ([⟨b, c, "*", ids.next 0, "", 0, false⟩,
                 ⟨a, ids.next 0, "+", ids.next 1, "", 0, false⟩], ids.next 1) := by
  have pa := plainLiteral_of_numeric a ha
  have pb := plainLiteral_of_numeric b hb
  have pc := plainLiteral_of_numeric c hc
  have hdata : (a ++ "+" ++ b ++ "*" ++ c).data = a.data ++ '+' :: (b.data ++ '*' :: c.data) := by
    simp [String.data_append]
  obtain ⟨hr, hsp⟩ := rules_binary_chain digitTable a.data b.data c.data '+' '*' pa pb pc rfl rfl
  have hjoin : stringsJoinSpace [a, b, c, "*", "+"] = a ++ " " ++ b ++ " " ++ c ++ " * +" := by
    apply String.ext
    simp [stringsJoinSpace, String.data_append]
  have hsplit : stringsSplitSpace (stringsJoinSpace [a, b, c, "*", "+"]) = [a, b, c, "*", "+"] := by
    apply split_join _ (by simp)
    intro t ht
    simp only [List.mem_cons, List.mem_singleton, List.not_mem_nil, or_false] at ht
    rcases ht with h | h | h | h | h <;> subst h
    · exact plain_no_space pa
    · exact plain_no_space pb
    · exact plain_no_space pc
    · decide
    · decide
  refine ⟨?_, ?_⟩
  · rw [← hjoin]
    exact convert_of_tokens digitTable _ _ (by rw [hdata]; exact hr) (by rw [hdata]; exact hsp)
      (by rw [hdata]; exact convertTokens_precedence digitTable a b c pa pb pc)
  · rw [← hjoin]
    exact calculate_right_nested ids _ a b c "*" "+" fuel (operatorPriority_plain pa)
      (operatorPriority_plain pb) (operatorPriority_plain pc) rfl (by decide) rfl (by decide)
      hsplit

/-- C13 at work on the literals `2`, `3`, `4`. -/
theorem C13_precedence_witness :
    (NewExpression ("2" ++ "+" ++ "3" ++ "*" ++ "4")).Convert (fun _ => false)
        = some (⟨"2" ++ "+" ++ "3" ++ "*" ++ "4", "2" ++ " " ++ "3" ++ " " ++ "4" ++ " * +"⟩,
            true, none)
    ∧ Expression.Calculate sampleIds (0 + 2)
          ⟨"2" ++ "+" ++ "3" ++ "*" ++ "4", "2" ++ " " ++ "3" ++ " " ++ "4" ++ " * +"⟩
        = some ([⟨"3", "4", "*", sampleIds.next 0, "", 0, false⟩,
                 ⟨"2", sampleIds.next 0, "+", sampleIds.next 1, "", 0, false⟩],
                sampleIds.next 1) :=
  C13_precedence (fun _ => false) sampleIds "2" "3" "4" (by decide) (by decide) (by decide) 0
/-- A single literal satisfies the rules of the validator. -/
theorem rules_literal (digitTable : Nat → Bool) (A : List Char) (hA : PlainLiteral A) :
    validatorRules (isUnicodeDigit digitTable) isAsciiDigit A = true ∧ removeSpaces A = A := by
  obtain ⟨a, atail, hae, had⟩ := hA.first
  obtain ⟨front, l, hl, hld⟩ := hA.last
  have hchars : ∀ x ∈ A, x ≠ '~' ∧ x ≠ '(' ∧ x ≠ ')' ∧ x ≠ ' ' := by
    intro x hx
    have := plain_facts (hA.plain x hx)
    exact ⟨this.2.1, this.2.2.1, this.2.2.2.1, this.2.2.2.2⟩
  refine ⟨?_, removeSpaces_no_space _ (fun x hx => (hchars x hx).2.2.2)⟩
  have hnil : A = A ++ [] := by simp
  have r1 : A.isEmpty = false := by rw [hae]; rfl
  have r2 : ruleAlphabet (isUnicodeDigit digitTable) A = true := by
    rw [hnil, ruleAlphabet_plain digitTable A _ hA.plain]; rfl
  have r3 : rulePoints isAsciiDigit A = true := by
    rw [hnil, hA.points]; rfl
  have r4 : ruleBalanced A = true :=
    ruleBalanced_no_paren _ (fun x hx => ⟨(hchars x hx).2.1, (hchars x hx).2.2.1⟩)
  have r5 : ruleNoAdjacentBinary A = true := by
    rw [hnil, ruleNoAdjacentBinary_plain A _ hA.plain]; rfl
  have r6 : ruleUnaryMinus isAsciiDigit A = true :=
    ruleUnaryMinus_none _ _ (fun x hx => (hchars x hx).1)
  have r7 : ruleFirst isAsciiDigit A = true := by
    rw [hae]; simp [ruleFirst, had]
  have r8 : ruleLast A = true := by
    rw [hl]; exact ruleLast_append_digit _ hld
  simp [validatorRules, r1, r2, r3, r4, r5, r6, r7, r8]

/-- C14.  For every numeric literal `n`, the pipeline on the text `n` converts
it to the postfix `n` and yields exactly one task, `(0, n, +)`, whose
`Variable` is the final identifier returned; no fuel is needed. -/
theorem C14_bare_literal (digitTable : Nat → Bool) (ids : IdSupply) (n : String)
    (hn : isNumericLiteral n = true) (fuel : Nat) :
    (NewExpression n).Convert digitTable = some (⟨n, n⟩, true, none)
    ∧ Expression.Calculate ids fuel ⟨n, n⟩
        = some ([⟨"0", n, "+", ids.next 0, "", 0, false⟩], ids.next 0) := by
  have pn := plainLiteral_of_numeric n hn
  obtain ⟨hr, hsp⟩ := rules_literal digitTable n.data pn
  have htok : convertTokens digitTable ⟨n.data⟩ = some [n] := by
    have key : convertLoop digitTable ⟨[], NewStack, []⟩ n.data = some ⟨[], ⟨[]⟩, n.data⟩ := by
      rw [convertLoop_plain_end digitTable _ _ pn.plain]
      rfl
    have := convertTokens_end digitTable ⟨n.data⟩ _ _ _ (plainLiteral_ne_nil pn) key
    rw [this]
    rfl
  have hsplit : stringsSplitSpace n = [n] := by
    have := split_join [n] (by simp) (fun t ht => by
      simp only [List.mem_singleton] at ht
      subst ht
      exact plain_no_space pn)
    simpa [stringsJoinSpace] using this
  refine ⟨?_, ?_⟩
  · have := convert_of_tokens digitTable n [n] hr hsp htok
    simpa [stringsJoinSpace] using this
  · simp [Expression.Calculate, hsplit, NewExample]

/-- C14 at work on the literal `42`. -/
theorem C14_bare_literal_witness :
    (NewExpression "42").Convert (fun _ => false) = some (⟨"42", "42"⟩, true, none)
    ∧ Expression.Calculate sampleIds 0 ⟨"42", "42"⟩
        = some ([⟨"0", "42", "+", sampleIds.next 0, "", 0, false⟩], sampleIds.next 0) :=
  C14_bare_literal (fun _ => false) sampleIds "42" (by decide) 0

/-! ## Index, dispatch and the empty result -/

theorem loop_index_zero (ids : IdSupply) :
    ∀ (fuel : Nat) (expression : List String) (results T : List Task) (f : String),
      calculateLoop ids fuel expression results = some (T, f) →
      (∀ t ∈ results, t.Index = 0) → ∀ t ∈ T, t.Index = 0 := by
  intro fuel
  induction fuel with
  | zero =>
    intro expression results T f h hr
    by_cases hl : expression.length = 1
    · rw [calculateLoop_done ids 0 expression results hl] at h
      cases h; exact hr
    · rw [calculateLoop_zero ids expression results hl] at h; cases h
  | succ fuel ih =>
    intro expression results T f h hr
    by_cases hl : expression.length = 1
    · rw [calculateLoop_done ids _ expression results hl] at h
      cases h; exact hr
    · rw [calculateLoop_succ ids fuel expression results hl] at h
      rcases passOf_cases expression (ids.next results.length) with
        ⟨hp, _⟩ | hp | ⟨pre, x, post, _, _, hp⟩ | ⟨pre, x, y, sign, post, _, _, _, _, hp⟩
      · rw [hp] at h; exact ih _ _ T f h hr
      · rw [hp] at h; cases h; intro t ht; simp at ht
      · rw [hp] at h
        refine ih _ _ T f h ?_
        intro t ht
        rcases List.mem_append.1 ht with e | e
        · exact hr t e
        · simp at e; rw [e]
      · rw [hp] at h
        refine ih _ _ T f h ?_
        intro t ht
        rcases List.mem_append.1 ht with e | e
        · exact hr t e
        · simp at e; rw [e]

theorem calculate_index_zero (ids : IdSupply) (fuel : Nat) (e : Expression) (tasks : List Task)
    (final : String) (h : e.Calculate ids fuel = some (tasks, final)) :
    ∀ t ∈ tasks, t.Index = 0 := by
  unfold Expression.Calculate at h
  by_cases hl : (stringsSplitSpace e.Postfix).length = 1
  · simp only [hl, if_true, NewExample, Option.some.injEq, Prod.mk.injEq] at h
    obtain ⟨h1, _⟩ := h
    subst h1
    intro t ht
    simp at ht
    rw [ht]
  · simp only [hl, if_false] at h
    exact loop_index_zero ids fuel _ [] tasks final h (fun t ht => by simp at ht)

theorem sendLoop_index (svc : CalculatorService) (exampleID final : String) :
    ∀ (results : List Task) (k i : Nat) (t : Task),
      (sendLoop svc exampleID final k results).1[i]? = some t →
      t.Index = k + i ∧ ∃ r, results[i]? = some r ∧ t.core = r.core := by
  intro results
  induction results with
  | nil => intro k i t h; simp [sendLoop] at h
  | cons r rest ih =>
    intro k i t h
    unfold sendLoop at h
    cases hs : svc.SendTask (kafkaTask exampleID final k r) with
    | some e =>
      simp only [hs] at h
      cases i with
      | zero =>
        simp at h
        subst h
        exact ⟨rfl, r, by simp, rfl⟩
      | succ i => simp at h
    | none =>
      simp only [hs] at h
      cases i with
      | zero =>
        simp at h
        subst h
        exact ⟨rfl, r, by simp, rfl⟩
      | succ i =>
        simp only [List.getElem?_cons_succ] at h ⊢
        obtain ⟨h1, h2⟩ := ih (k + 1) i t h
        exact ⟨by omega, h2⟩

/-- `Calculate` on a postfix `x y s`: the one reduction `(x, y, s)`. -/
theorem calculate_single_binary (ids : IdSupply) (source x y s : String) (fuel : Nat)
    (hx : OperatorPriority x = none) (hy : OperatorPriority y = none)
    (hs : (OperatorPriority s).isSome = true) (hs' : s ≠ "~")
    (hsplit : stringsSplitSpace (stringsJoinSpace [x, y, s]) = [x, y, s]) :
    Expression.Calculate ids (fuel + 1) ⟨source, stringsJoinSpace [x, y, s]⟩
      = some ([⟨x, y, s, ids.next 0, "", 0, false⟩], ids.next 0) := by
  unfold Expression.Calculate
  simp only [hsplit, List.length_cons, List.length_nil]
  have hl : ¬ (0 + 1 + 1 + 1 = 1) := by omega
  simp only [hl, if_false]
  rw [calculateLoop_succ ids fuel _ _ (by simp)]
  have p1 := passOf_binary [] x y s [] (ids.next 0)
    (by intro w hw; simp at hw; rcases hw with h | h <;> rw [h] <;> assumption) hs hs'
  simp only [List.length_nil, List.nil_append] at p1 ⊢
  rw [p1]
  simp only
  rw [calculateLoop_done ids fuel _ _ (by simp)]
  rfl

/-- C12 (as stated, refuted).  In the list that `Calculate` returns for the
postfix `2 3 4 * +`, the task at position 1 has `Index = 0`: the builder never
sets the field. -/
theorem C12_counterexample :
    ∃ tasks final t, Expression.Calculate sampleIds 2 ⟨"2+3*4", "2 3 4 * +"⟩ = some (tasks, final)
      ∧ tasks[1]? = some t ∧ t.Index = 0 ∧ t.Index ≠ 1 :=
  ⟨_, _, _, rfl, rfl, rfl, by decide⟩

/-- C12 (amended).  The index is given at dispatch: when the service sends the
list returned by `Calculate`, the task it hands to the queue at position `i` has
`Index = i` and the `Num1`, `Num2`, `Sign` and `Variable` of the task at
position `i` of that list, whose own `Index` is 0. -/
theorem C12_index_on_dispatch (svc : CalculatorService) (ids : IdSupply) (fuel : Nat)
    (e : Expression) (exampleID final : String) (results : List Task)
    (hrun : e.Calculate ids fuel = some (results, final)) (i : Nat) (sent : Task)
    (hsent : (sendLoop svc exampleID final 0 results).1[i]? = some sent) :
    sent.Index = i ∧ ∃ r, results[i]? = some r ∧ sent.core = r.core ∧ r.Index = 0 := by
  obtain ⟨h1, r, hr, hc⟩ := sendLoop_index svc exampleID final results 0 i sent hsent
  exact ⟨by omega, r, hr, hc,
    calculate_index_zero ids fuel e results final hrun r (List.getElem?_mem hr)⟩

/-- C12 (amended) at work on the postfix `2 3 4 * +`, second task. -/
theorem C12_index_on_dispatch_witness :
    (kafkaTask "example" (sampleIds.next 1) 1
        ⟨"2", sampleIds.next 0, "+", sampleIds.next 1, "", 0, false⟩).Index = 1
    ∧ ∃ r, ([⟨"3", "4", "*", sampleIds.next 0, "", 0, false⟩,
             ⟨"2", sampleIds.next 0, "+", sampleIds.next 1, "", 0, false⟩] : List Task)[1]? = some r
        ∧ (kafkaTask "example" (sampleIds.next 1) 1
            ⟨"2", sampleIds.next 0, "+", sampleIds.next 1, "", 0, false⟩).core = r.core
        ∧ r.Index = 0 :=
  C12_index_on_dispatch ⟨fun _ => none, fun _ => none⟩ sampleIds 2 ⟨"2+3*4", "2 3 4 * +"⟩
    "example" (sampleIds.next 1)
    [⟨"3", "4", "*", sampleIds.next 0, "", 0, false⟩,
     ⟨"2", sampleIds.next 0, "+", sampleIds.next 1, "", 0, false⟩] rfl 1
    (kafkaTask "example" (sampleIds.next 1) 1
      ⟨"2", sampleIds.next 0, "+", sampleIds.next 1, "", 0, false⟩) rfl

/-- C16 (the code at the failing input).  On `(+2)` the conversion succeeds
and the builder meets `+` with one operand; the service, with a store and a
queue that accept everything, returns no error and a record whose `Error` is not
set, with no tasks and an empty final identifier. -/
theorem C16_underflow_not_surfaced (digitTable : Nat → Bool) (ids : IdSupply) (fuel : Nat)
    (exampleID userID : String) :
    (NewExpression "(+2)").Convert digitTable = some (⟨"(+2)", "2 +"⟩, true, none)
    ∧ Expression.Calculate ids (fuel + 1) ⟨"(+2)", "2 +"⟩ = some ([], "")
    ∧ CalculatorService.Calculate ⟨fun _ => none, fun _ => none⟩ digitTable ids (fuel + 1)
          exampleID ⟨"", "(+2)", userID, none, [], ""⟩
        = some ⟨[⟨exampleID, "(+2)", userID, none, [], ""⟩], [],
            some ⟨exampleID, "(+2)", userID, none, [], ""⟩, none⟩ := by
  have hc : (NewExpression "(+2)").Convert digitTable = some (⟨"(+2)", "2 +"⟩, true, none) := rfl
  have hk : Expression.Calculate ids (fuel + 1) ⟨"(+2)", "2 +"⟩ = some ([], "") := rfl
  refine ⟨hc, hk, ?_⟩
  unfold CalculatorService.Calculate
  simp only [hc, hk]
  rfl

/-- C11 (the code at the failing input).  The text `1.5.2+3` passes the
validator (each point is followed by a digit), `Convert` gives the postfix
`1.5.2 3 +`, and the one task that `Calculate` returns has `Num1 = "1.5.2"`,
which is no decimal numeric literal and no task's `Variable`.  On `()` the
postfix is empty and the one task has the empty string as `Num2`. -/
theorem C11_operand_not_a_literal (digitTable : Nat → Bool) (ids : IdSupply) (fuel : Nat) :
    ((NewExpression "1.5.2+3").IsValidMathExpression digitTable = true
      ∧ (NewExpression "1.5.2+3").Convert digitTable
          = some (⟨"1.5.2+3", "1.5.2 3 +"⟩, true, none)
      ∧ Expression.Calculate ids (fuel + 1) ⟨"1.5.2+3", "1.5.2 3 +"⟩
          = some ([⟨"1.5.2", "3", "+", ids.next 0, "", 0, false⟩], ids.next 0)
      ∧ isNumericLiteral "1.5.2" = false ∧ "1.5.2" ≠ ids.next 0)
    ∧ ((NewExpression "()").IsValidMathExpression digitTable = true
      ∧ (NewExpression "()").Convert digitTable = some (⟨"()", ""⟩, true, none)
      ∧ Expression.Calculate ids fuel ⟨"()", ""⟩
          = some ([⟨"0", "", "+", ids.next 0, "", 0, false⟩], ids.next 0)
      ∧ isNumericLiteral "" = false ∧ "" ≠ ids.next 0) := by
  have h1 : ("1.5.2" : String) ≠ ids.next 0 := by
    intro e
    have := ids.canonical 0
    rw [← e] at this
    exact absurd this (by decide)
  have h2 : ("" : String) ≠ ids.next 0 := by
    intro e
    have := ids.canonical 0
    rw [← e] at this
    exact absurd this (by decide)
  have h3 := calculate_single_binary ids "1.5.2+3" "1.5.2" "3" "+" fuel (by decide) (by decide)
    (by decide) (by decide) (by decide)
  exact ⟨⟨rfl, rfl, h3, by decide, h1⟩, ⟨rfl, rfl, rfl, by decide, h2⟩⟩

/-! ## Spaces and other whitespace -/

theorem replaceAllSpace_congr {t1 t2 : String}
    (h : removeSpaces t1.data = removeSpaces t2.data) :
    stringsReplaceAllSpace t1 = stringsReplaceAllSpace t2 := by
  unfold stringsReplaceAllSpace
  unfold removeSpaces at h
  rw [h]

theorem validator_congr (digitTable : Nat → Bool) (s1 s2 : Expression)
    (h : stringsReplaceAllSpace s1.Infix = stringsReplaceAllSpace s2.Infix) :
    s1.IsValidMathExpression digitTable = s2.IsValidMathExpression digitTable := by
  unfold Expression.IsValidMathExpression
  rw [h]

/-- C15 (as stated, refuted).  `1\t+2` is `1+2` with a tab inserted: the two
texts are equal once whitespace is removed, the validator accepts `1+2` and
rejects `1\t+2`, and `Convert` gives a postfix for the first and the error for
the second. -/
theorem C15_counterexample :
    removeWhitespace "1\t+2".data = removeWhitespace "1+2".data
    ∧ (NewExpression "1+2").IsValidMathExpression (fun _ => false) = true
    ∧ (NewExpression "1\t+2").IsValidMathExpression (fun _ => false) = false
    ∧ (NewExpression "1+2").Convert (fun _ => false) = some (⟨"1+2", "1 2 +"⟩, true, none)
    ∧ (NewExpression "1\t+2").Convert (fun _ => false)
        = some (⟨"1\t+2", ""⟩, false, some malformedError) :=
  ⟨by decide, rfl, rfl, rfl, rfl⟩

/-- C15 (amended).  Space characters (U+0020) are ignored: two texts that are
equal once their spaces are removed get the same verdict from the validator,
and `Convert` gives them the same postfix, boolean and error. -/
theorem C15_spaces_ignored (digitTable : Nat → Bool) (t1 t2 : String)
    (h : removeSpaces t1.data = removeSpaces t2.data) :
    (NewExpression t1).IsValidMathExpression digitTable
        = (NewExpression t2).IsValidMathExpression digitTable
    ∧ ((NewExpression t1).Convert digitTable).map (fun r => (r.1.Postfix, r.2.1, r.2.2))
        = ((NewExpression t2).Convert digitTable).map (fun r => (r.1.Postfix, r.2.1, r.2.2)) := by
  have hs : stringsReplaceAllSpace (NewExpression t1).Infix
      = stringsReplaceAllSpace (NewExpression t2).Infix := replaceAllSpace_congr h
  have hv := validator_congr digitTable _ _ hs
  refine ⟨hv, ?_⟩
  unfold Expression.Convert Expression.Check
  rw [hv, hs]
  cases (NewExpression t2).IsValidMathExpression digitTable with
  | false => rfl
  | true =>
    simp only [Bool.not_true, Bool.false_eq_true, if_false]
    cases convertTokens digitTable (stringsReplaceAllSpace (NewExpression t2).Infix) with
    | none => rfl
    | some tokens => rfl

/-- C15 (amended) at work on ` 1 + 2 ` and `1+2`. -/
theorem C15_spaces_ignored_witness :
    (NewExpression " 1 + 2 ").IsValidMathExpression (fun _ => false)
        = (NewExpression "1+2").IsValidMathExpression (fun _ => false)
    ∧ ((NewExpression " 1 + 2 ").Convert (fun _ => false)).map
          (fun r => (r.1.Postfix, r.2.1, r.2.2))
        = ((NewExpression "1+2").Convert (fun _ => false)).map
          (fun r => (r.1.Postfix, r.2.1, r.2.2)) :=
  C15_spaces_ignored (fun _ => false) " 1 + 2 " "1+2" (by decide)

/-! ## The shape of one step of the converter -/

/-- The depth of the operator stack follows the balance of the bracket loop. -/
theorem convertLoop_depth (digitTable : Nat → Bool) :
    ∀ (t : List Char) (st : ConvertState) (b b' : Int), bracketLoop b t = some b' →
      (st.stack.list.count "(" : Int) = b →
      ∃ st', convertLoop digitTable st t = some st' ∧ (st'.stack.list.count "(" : Int) = b' := by
  intro t
  induction t with
  | nil =>
    intro st b b' hb hst
    unfold bracketLoop at hb
    cases hb
    exact ⟨st, rfl, hst⟩
  | cons i t ih =>
    intro st b b' hb hst
    obtain ⟨hopen, hclose, hother⟩ := convertStep_depth digitTable st i
    unfold bracketLoop at hb
    unfold convertLoop
    by_cases h1 : i = '('
    · obtain ⟨st1, e1, c1⟩ := hopen h1
      simp only [h1, if_true] at hb
      rw [e1]
      exact ih st1 (b + 1) b' hb (by rw [c1]; push_cast; omega)
    · by_cases h2 : i = ')'
      · simp only [h1, h2, if_false, if_true] at hb
        by_cases hneg : b - 1 < 0
        · simp [hneg] at hb
        · simp only [hneg, if_false] at hb
          obtain ⟨st1, e1, c1⟩ := hclose h2 (by omega)
          rw [e1]
          exact ih st1 (b - 1) b' hb (by omega)
      · simp only [h1, h2, if_false] at hb
        obtain ⟨st1, e1, c1⟩ := hother h1 h2
        rw [e1]
        exact ih st1 b b' hb (by rw [c1]; exact hst)

/-- The operators that `popOperators` moves to the output are the top of the
stack, in order, and none of them is `(`. -/
theorem popOperators_shape (value : Nat) (sign : String) :
    ∀ (stack list : List String), ∃ popped,
      stack = popped ++ (popOperators value sign stack list).1
      ∧ (popOperators value sign stack list).2 = list ++ popped
      ∧ (∀ t ∈ popped, t ≠ "(") := by
  intro stack
  induction stack with
  | nil => intro list; exact ⟨[], by simp [popOperators]⟩
  | cons top rest ih =>
    intro list
    unfold popOperators
    by_cases h1 : top = "("
    · simp only [h1, if_true]
      exact ⟨[], by simp⟩
    · simp only [h1, if_false]
      by_cases h2 : priorityOf top > value
      · simp only [h2, if_true]
        obtain ⟨popped, e1, e2, e3⟩ := ih (list ++ [top])
        refine ⟨top :: popped, ?_, ?_, ?_⟩
        · rw [List.cons_append, ← e1]
        · rw [e2]; simp
        · intro t ht
          rcases List.mem_cons.1 ht with h | h
          · rw [h]; exact h1
          · exact e3 t h
      · simp only [h2, if_false]
        by_cases h3 : priorityOf top = value
        · simp only [h3, if_true]
          by_cases h4 : (!RightAssociative sign) = true
          · simp only [h4, if_true]
            obtain ⟨popped, e1, e2, e3⟩ := ih (list ++ [top])
            refine ⟨top :: popped, ?_, ?_, ?_⟩
            · rw [List.cons_append, ← e1]
            · rw [e2]; simp
            · intro t ht
              rcases List.mem_cons.1 ht with h | h
              · rw [h]; exact h1
              · exact e3 t h
          · simp only [h4, if_false]
            exact ⟨[], by simp⟩
        · simp only [h3, if_false]
          exact ⟨[], by simp⟩

/-- The operators that `popUntilOpen` moves to the output are the top of the
stack down to the first `(`. -/
theorem popUntilOpen_shape :
    ∀ (stack list stack' list' : List String), popUntilOpen stack list = some (stack', list') →
      ∃ popped rest, stack = popped ++ "(" :: rest ∧ stack' = "(" :: rest
        ∧ list' = list ++ popped ∧ (∀ t ∈ popped, t ≠ "(") := by
  intro stack
  induction stack with
  | nil => intro list stack' list' h; simp [popUntilOpen] at h
  | cons top rest ih =>
    intro list stack' list' h
    unfold popUntilOpen at h
    by_cases h1 : top = "("
    · simp only [h1, ne_eq, not_true_eq_false, if_false, Option.some.injEq, Prod.mk.injEq] at h
      obtain ⟨e1, e2⟩ := h
      exact ⟨[], rest, by simp [h1], e1.symm, by simp [e2], by simp⟩
    · simp only [ne_eq, h1, not_false_eq_true, if_true] at h
      obtain ⟨popped, r, e1, e2, e3, e4⟩ := ih _ _ _ h
      refine ⟨top :: popped, r, by rw [e1]; simp, e2, by rw [e3]; simp, ?_⟩
      intro t ht
      rcases List.mem_cons.1 ht with h | h
      · rw [h]; exact h1
      · exact e4 t h

/-- What one step of the converter does to its state.  On a digit or a point
the character joins the pending number.  On any other character the pending
number, if any, is flushed to the output, followed by operators popped from the
stack, none of them `(`; the new stack holds old entries and, for an operator
character, that operator. -/
theorem convertStep_shape (digitTable : Nat → Bool) (st st' : ConvertState) (i : Char)
    (h : convertStep digitTable st i = some st') :
    ((unicodeIsDigit digitTable i.toNat = true ∨ i = '.')
      ∧ st' = { st with number := st.number ++ [i] })
    ∨ (unicodeIsDigit digitTable i.toNat = false ∧ i ≠ '.' ∧ st'.number = []
      ∧ ∃ popped, st'.list
            = st.list ++ (if st.number.length ≠ 0 then [String.mk st.number] else []) ++ popped
          ∧ (∀ t ∈ popped, t ∈ st.stack.list ∧ t ≠ "(")
          ∧ (∀ t ∈ st'.stack.list, t ∈ st.stack.list
              ∨ (t = String.singleton i ∧ (OperatorPriority (String.singleton i)).isSome = true))) := by
  by_cases hd : unicodeIsDigit digitTable i.toNat = true
  · simp only [convertStep, hd, if_true, Option.some.injEq] at h
    exact Or.inl ⟨Or.inl hd, h.symm⟩
  · have hd' : unicodeIsDigit digitTable i.toNat = false := by simpa using hd
    by_cases hdot : i = '.'
    · subst hdot
      have e1 : String.singleton '.' = "." := rfl
      have e2 : OperatorPriority "." = none := by decide
      simp only [convertStep, hd', e1, if_true, e2, Bool.false_eq_true, if_false] at h
      simp at h
      exact Or.inl ⟨Or.inr rfl, h.symm⟩
    · right
      have hs : String.singleton i ≠ "." := by
        intro e
        exact hdot ((singleton_eq_iff i '.').1 e)
      refine ⟨hd', hdot, ?_⟩
      simp only [convertStep, hd', Bool.false_eq_true, hs, if_false] at h
      generalize hst1 : (if st.number.length ≠ 0 then
          ({ st with list := st.list ++ [String.mk st.number], number := [] } : ConvertState)
        else st) = st1 at h
      have hstack : st1.stack = st.stack := by
        rw [← hst1]; split <;> rfl
      have hlist : st1.list
          = st.list ++ (if st.number.length ≠ 0 then [String.mk st.number] else []) := by
        rw [← hst1]; split <;> simp
      have hnum : st1.number = [] := by
        rw [← hst1]
        split
        · rfl
        · rename_i hn
          simpa using hn
      by_cases hcl : i = ')'
      · subst hcl
        have e1 : String.singleton ')' = ")" := rfl
        have e2 : OperatorPriority ")" = none := by decide
        simp only [e1, e2, if_true] at h
        cases hp : popUntilOpen st1.stack.list st1.list with
        | none => rw [hp] at h; cases h
        | some r =>
          obtain ⟨stack, list⟩ := r
          rw [hp] at h
          obtain ⟨popped, rest, p1, p2, p3, p4⟩ := popUntilOpen_shape _ _ _ _ hp
          subst p2
          simp only [Stack.Pop, Option.some.injEq] at h
          subst h
          refine ⟨hnum, popped, ?_, ?_, ?_⟩
          · show list = _
            rw [p3, hlist]
          · intro t ht
            rw [← hstack, p1]
            exact ⟨by simp [ht], p4 t ht⟩
          · intro t ht
            left
            rw [← hstack, p1]
            simp only [List.mem_append, List.mem_cons]
            exact Or.inr (Or.inr ht)
      · simp only [hcl, if_false, Option.some.injEq] at h
        cases hop : OperatorPriority (String.singleton i) with
        | none =>
          rw [hop] at h
          subst h
          refine ⟨hnum, [], by rw [hlist]; simp, by simp, ?_⟩
          intro t ht
          left
          rw [← hstack]; exact ht
        | some value =>
          rw [hop] at h
          subst h
          obtain ⟨popped, p1, p2, p3⟩ :=
            popOperators_shape value (String.singleton i) st1.stack.list st1.list
          refine ⟨hnum, popped, ?_, ?_, ?_⟩
          · show (popOperators value (String.singleton i) st1.stack.list st1.list).2 = _
            rw [p2, hlist]
          · intro t ht
            rw [← hstack, p1]
            exact ⟨by simp [ht], p3 t ht⟩
          · intro t ht
            simp only [Stack.Push, List.mem_cons] at ht
            rcases ht with e | e
            · right; exact ⟨e, by simp⟩
            · left
              rw [← hstack, p1]
              simp [e]

/-- An invariant of the converter loop, for a property `P` of output tokens,
a property `P'` of stack entries and a property `R` of the characters of the
pending number. -/
theorem convertLoop_invariant (digitTable : Nat → Bool) (P P' : String → Prop) (R : Char → Prop)
    (h1 : ∀ t, P' t → t ≠ "(" → P t)
    (h2 : ∀ n : List Char, n ≠ [] → (∀ c ∈ n, R c) → P (String.mk n)) :
    ∀ (text : List Char) (st st' : ConvertState),
      (∀ i ∈ text, unicodeIsDigit digitTable i.toNat = true ∨ i = '.' → R i) →
      (∀ i ∈ text, (OperatorPriority (String.singleton i)).isSome = true →
        P' (String.singleton i)) →
      convertLoop digitTable st text = some st' →
      (∀ t ∈ st.list, P t) → (∀ t ∈ st.stack.list, P' t) → (∀ c ∈ st.number, R c) →
      (∀ t ∈ st'.list, P t) ∧ (∀ t ∈ st'.stack.list, P' t) ∧ (∀ c ∈ st'.number, R c) := by
  intro text
  induction text with
  | nil =>
    intro st st' _ _ h hl hs hn
    simp only [convertLoop, Option.some.injEq] at h
    subst h
    exact ⟨hl, hs, hn⟩
  | cons i text ih =>
    intro st st' h3 h4 h hl hs hn
    unfold convertLoop at h
    cases hstep : convertStep digitTable st i with
    | none => rw [hstep] at h; cases h
    | some st1 =>
      rw [hstep] at h
      refine ih st1 st' (fun j hj => h3 j (by simp [hj])) (fun j hj => h4 j (by simp [hj])) h
        ?_ ?_ ?_
      all_goals
        rcases convertStep_shape digitTable st st1 i hstep with
          ⟨hd, e⟩ | ⟨_, _, hnum, popped, e1, e2, e3⟩
      · rw [e]; exact hl
      · intro t ht
        rw [e1] at ht
        simp only [List.mem_append] at ht
        rcases ht with (ht | ht) | ht
        · exact hl t ht
        · by_cases hn0 : st.number.length ≠ 0
          · rw [if_pos hn0, List.mem_singleton] at ht
            rw [ht]
            exact h2 _ (by intro e; rw [e] at hn0; simp at hn0) hn
          · rw [if_neg hn0] at ht
            simp at ht
        · exact h1 t (hs t (e2 t ht).1) (e2 t ht).2
      · rw [e]; exact hs
      · intro t ht
        rcases e3 t ht with h | ⟨h, hp⟩
        · exact hs t h
        · rw [h]; exact h4 i (by simp) hp
      · rw [e]
        intro c hc
        simp only [List.mem_append, List.mem_singleton] at hc
        rcases hc with hc | hc
        · exact hn c hc
        · rw [hc]; exact h3 i (by simp) hd
      · rw [hnum]; intro c hc; simp at hc

/-- The output tokens of the converter on a text whose bracket loop ends at
zero: each has the property `P`. -/
theorem convertTokens_invariant (digitTable : Nat → Bool) (P P' : String → Prop) (R : Char → Prop)
    (h1 : ∀ t, P' t → t ≠ "(" → P t)
    (h2 : ∀ n : List Char, n ≠ [] → (∀ c ∈ n, R c) → P (String.mk n))
    (text : String) (tokens : List String)
    (h3 : ∀ i ∈ text.data, unicodeIsDigit digitTable i.toNat = true ∨ i = '.' → R i)
    (h4 : ∀ i ∈ text.data, (OperatorPriority (String.singleton i)).isSome = true →
      P' (String.singleton i))
    (hbal : bracketLoop 0 text.data = some 0)
    (h : convertTokens digitTable text = some tokens) :
    ∀ t ∈ tokens, P t := by
  obtain ⟨st', hst', hcount⟩ :=
    convertLoop_depth digitTable text.data ⟨[], NewStack, []⟩ 0 0 hbal (by simp [NewStack])
  obtain ⟨il, is, inum⟩ := convertLoop_invariant digitTable P P' R h1 h2 text.data _ st' h3 h4 hst'
    (by intro t ht; simp at ht) (by intro t ht; simp [NewStack] at ht)
    (by intro c hc; simp at hc)
  unfold convertTokens at h
  rw [hst'] at h
  simp only [Option.some.injEq] at h
  subst h
  have hno : ∀ t ∈ st'.stack.list, t ≠ "(" := by
    intro t ht e
    rw [e] at ht
    have : 0 < st'.stack.list.count "(" := List.count_pos_iff.2 ht
    omega
  intro t ht
  simp only [List.mem_append] at ht
  rcases ht with ht | ht
  · by_cases hn0 : st'.number.length > 0
    · simp only [hn0, if_true, List.mem_append, List.mem_singleton] at ht
      rcases ht with ht | ht
      · exact il t ht
      · rw [ht]
        exact h2 _ (by intro e; rw [e] at hn0; simp at hn0) inum
    · simp only [hn0, if_false] at ht
      exact il t ht
  · exact h1 t (is t ht) (hno t ht)

/-! ## Characters of the pieces of a split -/

theorem splitSpaceAux_chars : ∀ (rest cur : List Char), ∀ p ∈ splitSpaceAux cur rest,
    ∀ c ∈ p.data, (c ∈ cur ∨ c ∈ rest) ∧ c ≠ ' ' ∨ c ∈ cur := by
  intro rest
  induction rest with
  | nil =>
    intro cur p hp c hc
    simp only [splitSpaceAux, List.mem_singleton] at hp
    rw [hp] at hc
    exact Or.inr hc
  | cons d rest ih =>
    intro cur p hp c hc
    unfold splitSpaceAux at hp
    by_cases hd : d = ' '
    · simp only [hd, if_true, List.mem_cons] at hp
      rcases hp with hp | hp
      · rw [hp] at hc; exact Or.inr hc
      · rcases ih [] p hp c hc with ⟨h, hne⟩ | h
        · rcases h with h | h
          · simp at h
          · exact Or.inl ⟨Or.inr (by simp [h]), hne⟩
        · simp at h
    · simp only [hd, if_false] at hp
      rcases ih (cur ++ [d]) p hp c hc with ⟨h, hne⟩ | h
      · rcases h with h | h
        · simp only [List.mem_append, List.mem_singleton] at h
          rcases h with h | h
          · exact Or.inr h
          · exact Or.inl ⟨Or.inr (by simp [h]), hne⟩
        · exact Or.inl ⟨Or.inr (by simp [h]), hne⟩
      · simp only [List.mem_append, List.mem_singleton] at h
        rcases h with h | h
        · exact Or.inr h
        · exact Or.inl ⟨Or.inr (by simp [h]), by rw [h]; exact hd⟩

/-- Every character of a piece of `strings.Split(s, " ")` is a character of
`s` other than the space. -/
theorem split_chars (s : String) : ∀ p ∈ stringsSplitSpace s, ∀ c ∈ p.data,
    c ∈ s.data ∧ c ≠ ' ' := by
  intro p hp c hc
  rcases splitSpaceAux_chars s.data [] p hp c hc with ⟨h, hne⟩ | h
  · rcases h with h | h
    · simp at h
    · exact ⟨h, hne⟩
  · simp at h

/-- Every character of `strings.Join(tokens, " ")` is a space or a character
of a token. -/
theorem join_chars : ∀ (tokens : List String), ∀ c ∈ (stringsJoinSpace tokens).data,
    c = ' ' ∨ ∃ t ∈ tokens, c ∈ t.data := by
  intro tokens
  induction tokens with
  | nil => intro c hc; simp [stringsJoinSpace] at hc
  | cons a rest ih =>
    intro c hc
    cases rest with
    | nil =>
      simp only [stringsJoinSpace] at hc
      exact Or.inr ⟨a, by simp, hc⟩
    | cons b rest =>
      simp only [stringsJoinSpace, String.data_append, List.mem_append] at hc
      rcases hc with (hc | hc) | hc
      · exact Or.inr ⟨a, by simp, hc⟩
      · left
        simpa using hc
      · rcases ih c hc with h | ⟨t, ht, h⟩
        · exact Or.inl h
        · exact Or.inr ⟨t, by simp only [List.mem_cons] at ht ⊢; exact Or.inr ht, h⟩

/-! ## The signs of the tasks -/

theorem binary_of_priority {s : String} (h : (OperatorPriority s).isSome = true)
    (h1 : s ≠ "~") (h2 : s ≠ "(") :
    s = "+" ∨ s = "-" ∨ s = "*" ∨ s = "/" ∨ s = "^" := by
  unfold OperatorPriority at h
  by_cases a1 : s = "+"
  · exact Or.inl a1
  by_cases a2 : s = "-"
  · exact Or.inr (Or.inl a2)
  by_cases a3 : s = "*"
  · exact Or.inr (Or.inr (Or.inl a3))
  by_cases a4 : s = "/"
  · exact Or.inr (Or.inr (Or.inr (Or.inl a4)))
  by_cases a5 : s = "^"
  · exact Or.inr (Or.inr (Or.inr (Or.inr a5)))
  simp [a1, a2, a3, a4, a5, h1, h2] at h

/-- When `(` is not among the tokens, every task of the loop has a sign among
`+ - * / ^`. -/
theorem loop_signs (ids : IdSupply) :
    ∀ (fuel : Nat) (expression : List String) (results T : List Task) (f : String),
      calculateLoop ids fuel expression results = some (T, f) →
      "(" ∉ expression →
      (∀ t ∈ results, t.Sign = "+" ∨ t.Sign = "-" ∨ t.Sign = "*" ∨ t.Sign = "/" ∨ t.Sign = "^") →
      ∀ t ∈ T, t.Sign = "+" ∨ t.Sign = "-" ∨ t.Sign = "*" ∨ t.Sign = "/" ∨ t.Sign = "^" := by
  intro fuel
  induction fuel with
  | zero =>
    intro expression results T f h _ hr
    by_cases hl : expression.length = 1
    · rw [calculateLoop_done ids 0 expression results hl] at h
      cases h; exact hr
    · rw [calculateLoop_zero ids expression results hl] at h; cases h
  | succ fuel ih =>
    intro expression results T f h hno hr
    by_cases hl : expression.length = 1
    · rw [calculateLoop_done ids _ expression results hl] at h
      cases h; exact hr
    · rw [calculateLoop_succ ids fuel expression results hl] at h
      have hv : ids.next results.length ≠ "(" := by
        intro e
        have := ids.canonical results.length
        rw [e] at this
        exact absurd this (by decide)
      rcases passOf_cases expression (ids.next results.length) with
        ⟨hp, _⟩ | hp | ⟨pre, x, post, he, _, hp⟩ | ⟨pre, x, y, sign, post, he, _, hs1, hs2, hp⟩
      · rw [hp] at h; exact ih _ _ T f h hno hr
      · rw [hp] at h; cases h; intro t ht; simp at ht
      · rw [hp] at h
        refine ih _ _ T f h ?_ ?_
        · intro hm
          apply hno
          rw [he]
          simp only [List.mem_append, List.mem_cons] at hm ⊢
          rcases hm with hm | hm | hm
          · exact Or.inl hm
          · exact absurd hm.symm hv
          · exact Or.inr (Or.inr (Or.inr hm))
        · intro t ht
          rcases List.mem_append.1 ht with e | e
          · exact hr t e
          · simp at e; rw [e]; exact Or.inr (Or.inl rfl)
      · rw [hp] at h
        refine ih _ _ T f h ?_ ?_
        · intro hm
          apply hno
          rw [he]
          simp only [List.mem_append, List.mem_cons] at hm ⊢
          rcases hm with hm | hm | hm
          · exact Or.inl hm
          · exact absurd hm.symm hv
          · exact Or.inr (Or.inr (Or.inr (Or.inr hm)))
        · intro t ht
          rcases List.mem_append.1 ht with e | e
          · exact hr t e
          · simp at e
            rw [e]
            refine binary_of_priority hs1 hs2 ?_
            intro e2
            apply hno
            rw [he, ← e2]
            simp

/-- The tokens that the converter gives for a validated text hold no `(`. -/
theorem tokens_no_open (digitTable : Nat → Bool) (s : Expression) (tokens : List String)
    (hvalid : s.IsValidMathExpression digitTable = true)
    (h : convertTokens digitTable (stringsReplaceAllSpace s.Infix) = some tokens) :
    ∀ t ∈ tokens, '(' ∉ t.data := by
  have hb := (validator_loops digitTable s).1 hvalid
  have hbal := (bracketLoop_balanced _).2 hb.2.2.2.1
  refine convertTokens_invariant digitTable (fun t => '(' ∉ t.data)
    (fun t => t = "(" ∨ '(' ∉ t.data) (fun c => c ≠ '(') ?_ ?_ _ tokens ?_ ?_ hbal h
  · intro t ht hne
    rcases ht with ht | ht
    · exact absurd ht hne
    · exact ht
  · intro n _ hn hm
    exact hn _ hm rfl
  · intro i _ hd e
    rw [e] at hd
    rcases hd with hd | hd
    · rw [not_digit_of_paren digitTable (Or.inl rfl)] at hd; cases hd
    · exact absurd hd (by decide)
  · intro i _ _
    by_cases e : i = '('
    · left; rw [e]; rfl
    · right
      have hdata : (String.singleton i).data = [i] := rfl
      rw [hdata]
      intro e2
      exact e (List.mem_singleton.1 e2).symm

/-- C17.  For a text that the validator accepts, every task that `Calculate`
returns on the outcome of `Convert` has its `Sign` among `+ - * / ^`: neither
`~` nor `(` is ever a task's sign. -/
theorem C17_task_signs (digitTable : Nat → Bool) (ids : IdSupply) (fuel : Nat) (text : String)
    (expr : Expression) (ok : Bool) (err : Option String) (tasks : List Task) (final : String)
    (hvalid : (NewExpression text).IsValidMathExpression digitTable = true)
    (hconv : (NewExpression text).Convert digitTable = some (expr, ok, err))
    (hcalc : expr.Calculate ids fuel = some (tasks, final)) :
    ∀ t ∈ tasks, (t.Sign = "+" ∨ t.Sign = "-" ∨ t.Sign = "*" ∨ t.Sign = "/" ∨ t.Sign = "^")
      ∧ t.Sign ≠ "~" ∧ t.Sign ≠ "(" := by
  have key : ∀ t ∈ tasks,
      t.Sign = "+" ∨ t.Sign = "-" ∨ t.Sign = "*" ∨ t.Sign = "/" ∨ t.Sign = "^" := by
    rcases convert_outcome digitTable (NewExpression text) with ⟨h, _⟩ | ⟨_, tokens, ht, hc⟩
    · rw [h] at hvalid; cases hvalid
    · rw [hc] at hconv
      simp only [Option.some.injEq, Prod.mk.injEq] at hconv
      obtain ⟨he, _, _⟩ := hconv
      subst he
      have hno := tokens_no_open digitTable _ tokens hvalid ht
      unfold Expression.Calculate at hcalc
      by_cases hl : (stringsSplitSpace (stringsJoinSpace tokens)).length = 1
      · simp only [hl, if_true, NewExample, Option.some.injEq, Prod.mk.injEq] at hcalc
        obtain ⟨e1, _⟩ := hcalc
        subst e1
        intro t ht
        simp at ht
        rw [ht]
        exact Or.inl rfl
      · simp only [hl, if_false] at hcalc
        refine loop_signs ids fuel _ [] tasks final hcalc ?_ (by intro t ht; simp at ht)
        intro hm
        have h1 := (split_chars _ "(" hm '(' (by decide)).1
        rcases join_chars tokens '(' h1 with h2 | ⟨t, ht, h2⟩
        · exact absurd h2 (by decide)
        · exact hno t ht h2
  intro t ht
  have := key t ht
  refine ⟨this, ?_, ?_⟩
  · intro e
    rw [e] at this
    revert this
    decide
  · intro e
    rw [e] at this
    revert this
    decide

/-- C17 at work on `~2^(3-4)`, at the task of the `^`. -/
theorem C17_task_signs_witness :
    ((⟨sampleIds.next 0, sampleIds.next 1, "^", sampleIds.next 2, "", 0, false⟩ : Task).Sign = "+"
      ∨ (⟨sampleIds.next 0, sampleIds.next 1, "^", sampleIds.next 2, "", 0, false⟩ : Task).Sign = "-"
      ∨ (⟨sampleIds.next 0, sampleIds.next 1, "^", sampleIds.next 2, "", 0, false⟩ : Task).Sign = "*"
      ∨ (⟨sampleIds.next 0, sampleIds.next 1, "^", sampleIds.next 2, "", 0, false⟩ : Task).Sign = "/"
      ∨ (⟨sampleIds.next 0, sampleIds.next 1, "^", sampleIds.next 2, "", 0, false⟩ : Task).Sign = "^")
    ∧ (⟨sampleIds.next 0, sampleIds.next 1, "^", sampleIds.next 2, "", 0, false⟩ : Task).Sign ≠ "~"
    ∧ (⟨sampleIds.next 0, sampleIds.next 1, "^", sampleIds.next 2, "", 0, false⟩ : Task).Sign ≠ "(" :=
  C17_task_signs (fun _ => false) sampleIds 3 "~2^(3-4)" ⟨"~2^(3-4)", "2 ~ 3 4 - ^"⟩ true none
    [⟨"0", "2", "-", sampleIds.next 0, "", 0, false⟩,
     ⟨"3", "4", "-", sampleIds.next 1, "", 0, false⟩,
     ⟨sampleIds.next 0, sampleIds.next 1, "^", sampleIds.next 2, "", 0, false⟩]
    (sampleIds.next 2) rfl rfl rfl
    ⟨sampleIds.next 0, sampleIds.next 1, "^", sampleIds.next 2, "", 0, false⟩ (by simp)

/-! ## Number tokens keep their text and order -/

theorem isNumberToken_mk (digitTable : Nat → Bool) (n : List Char) (h0 : n ≠ [])
    (h : ∀ c ∈ n, isNumberChar digitTable c = true) :
    isNumberToken digitTable (String.mk n) = true := by
  unfold isNumberToken
  simp only [Bool.and_eq_true, Bool.not_eq_true', List.isEmpty_eq_false, List.all_eq_true]
  exact ⟨h0, h⟩

theorem isNumberToken_singleton (digitTable : Nat → Bool) (i : Char)
    (h : isNumberChar digitTable i = false) :
    isNumberToken digitTable (String.singleton i) = false := by
  have hdata : (String.singleton i).data = [i] := rfl
  unfold isNumberToken
  rw [hdata]
  simp [h]

/-- The runs that remain to be read when `acc` holds the pending run reversed. -/
theorem runs_go_cons_number (digitTable : Nat → Bool) (i : Char) (t acc : List Char)
    (h : isNumberChar digitTable i = true) :
    List.splitOnP.go (fun c => !isNumberChar digitTable c) (i :: t) acc
      = List.splitOnP.go (fun c => !isNumberChar digitTable c) t (i :: acc) := by
  simp [List.splitOnP.go, h]

theorem runs_go_cons_other (digitTable : Nat → Bool) (i : Char) (t acc : List Char)
    (h : isNumberChar digitTable i = false) :
    List.splitOnP.go (fun c => !isNumberChar digitTable c) (i :: t) acc
      = acc.reverse :: List.splitOnP.go (fun c => !isNumberChar digitTable c) t [] := by
  simp [List.splitOnP.go, h]

/-- The converter loop and the cutting of the text into runs, side by side. -/
theorem convertLoop_runs (digitTable : Nat → Bool) :
    ∀ (text : List Char) (st st' : ConvertState) (acc : List Char),
      convertLoop digitTable st text = some st' →
      st.number = acc.reverse →
      (∀ c ∈ st.number, isNumberChar digitTable c = true) →
      (∀ t ∈ st.stack.list, isNumberToken digitTable t = false) →
      (st'.list.filter (isNumberToken digitTable)
          ++ (if st'.number.length > 0 then [String.mk st'.number] else [])
        = st.list.filter (isNumberToken digitTable)
          ++ ((List.splitOnP.go (fun c => !isNumberChar digitTable c) text acc).filter
                (fun r => !r.isEmpty)).map String.mk)
      ∧ (∀ c ∈ st'.number, isNumberChar digitTable c = true)
      ∧ (∀ t ∈ st'.stack.list, isNumberToken digitTable t = false) := by
  intro text
  induction text with
  | nil =>
    intro st st' acc h hacc hnum hstack
    simp only [convertLoop, Option.some.injEq] at h
    subst h
    refine ⟨?_, hnum, hstack⟩
    simp only [List.splitOnP.go, ← hacc]
    by_cases hn : st.number = []
    · simp [hn]
    · have : st.number.length > 0 := List.length_pos.2 hn
      simp [hn, this]
  | cons i text ih =>
    intro st st' acc h hacc hnum hstack
    unfold convertLoop at h
    cases hstep : convertStep digitTable st i with
    | none => rw [hstep] at h; cases h
    | some st1 =>
      rw [hstep] at h
      rcases convertStep_shape digitTable st st1 i hstep with
        ⟨hd, e⟩ | ⟨hd, hdot, hn1, popped, e1, e2, e3⟩
      · have hi : isNumberChar digitTable i = true := by
          unfold isNumberChar
          rcases hd with hd | hd
          · simp [hd]
          · simp [hd]
        have := ih st1 st' (i :: acc) h (by rw [e]; simp [hacc])
          (by
            rw [e]
            intro c hc
            simp only [List.mem_append, List.mem_singleton] at hc
            rcases hc with hc | hc
            · exact hnum c hc
            · rw [hc]; exact hi)
          (by rw [e]; exact hstack)
        rw [runs_go_cons_number digitTable i text acc hi]
        rw [e] at this
        exact this
      · have hi : isNumberChar digitTable i = false := by
          unfold isNumberChar
          simp [hd, hdot]
        have hst1 : ∀ t ∈ st1.stack.list, isNumberToken digitTable t = false := by
          intro t ht
          rcases e3 t ht with h | ⟨h, _⟩
          · exact hstack t h
          · rw [h]; exact isNumberToken_singleton digitTable i hi
        obtain ⟨k1, k2, k3⟩ := ih st1 st' [] h (by rw [hn1]; rfl)
          (by rw [hn1]; intro c hc; simp at hc) hst1
        refine ⟨?_, k2, k3⟩
        rw [k1, runs_go_cons_other digitTable i text acc hi, e1]
        have hpop : popped.filter (isNumberToken digitTable) = [] := by
          rw [List.filter_eq_nil_iff]
          intro t ht
          rw [hstack t (e2 t ht).1]
          simp
        simp only [List.filter_append, hpop, List.append_nil, List.filter_cons, ← hacc]
        by_cases hn : st.number = []
        · simp [hn]
        · have hlen : st.number.length ≠ 0 := by
            intro e; exact hn (List.length_eq_zero.1 e)
          have htok := isNumberToken_mk digitTable st.number hn hnum
          simp [hn, hlen, htok]

/-- The number tokens among the output tokens of the converter are the runs of
the text. -/
theorem convertTokens_runs (digitTable : Nat → Bool) (text : String) (tokens : List String)
    (h : convertTokens digitTable text = some tokens) :
    tokens.filter (isNumberToken digitTable) = numberRuns digitTable text.data := by
  unfold convertTokens at h
  cases hl : convertLoop digitTable ⟨[], NewStack, []⟩ text.data with
  | none => rw [hl] at h; cases h
  | some st' =>
    rw [hl] at h
    simp only [Option.some.injEq] at h
    subst h
    obtain ⟨k1, k2, k3⟩ := convertLoop_runs digitTable text.data _ st' [] hl rfl
      (by intro c hc; simp at hc) (by intro t ht; simp [NewStack] at ht)
    have hstack : st'.stack.list.filter (isNumberToken digitTable) = [] := by
      rw [List.filter_eq_nil_iff]
      intro t ht
      rw [k3 t ht]
      simp
    simp only [List.filter_nil, List.nil_append] at k1
    unfold numberRuns List.splitOnP
    rw [← k1, List.filter_append, hstack, List.append_nil]
    by_cases hn : st'.number.length > 0
    · have hne : st'.number ≠ [] := List.length_pos.1 hn
      have htok := isNumberToken_mk digitTable st'.number hne k2
      simp [hn, htok]
    · simp [hn]

/-- The tokens that the converter gives for a validated text hold no space. -/
theorem tokens_no_space (digitTable : Nat → Bool) (s : Expression) (tokens : List String)
    (hvalid : s.IsValidMathExpression digitTable = true)
    (h : convertTokens digitTable (stringsReplaceAllSpace s.Infix) = some tokens) :
    ∀ t ∈ tokens, ∀ c ∈ t.data, c ≠ ' ' := by
  have hb := (validator_loops digitTable s).1 hvalid
  have hbal := (bracketLoop_balanced _).2 hb.2.2.2.1
  have hmem : ∀ i ∈ (stringsReplaceAllSpace s.Infix).data, i ≠ ' ' := by
    intro i hi
    simp only [stringsReplaceAllSpace, List.mem_filter] at hi
    simpa using hi.2
  refine convertTokens_invariant digitTable (fun t => ∀ c ∈ t.data, c ≠ ' ')
    (fun t => ∀ c ∈ t.data, c ≠ ' ') (fun c => c ≠ ' ') ?_ ?_ _ tokens ?_ ?_ hbal h
  · intro t ht _; exact ht
  · intro n _ hn; exact hn
  · intro i hi _; exact hmem i hi
  · intro i hi _ c hc
    have hdata : (String.singleton i).data = [i] := rfl
    rw [hdata, List.mem_singleton] at hc
    rw [hc]; exact hmem i hi

/-- C18.  Numeric literals keep their text and order: for a text that the
validator accepts, the number tokens of the postfix that `Convert` sets (the
pieces of the postfix that are made of digits and decimal points) are exactly
the maximal runs of digits and decimal points of the space-stripped text, in
the same order.  A digit is what `unicode.IsDigit` takes for one. -/
theorem C18_number_tokens (digitTable : Nat → Bool) (text : String) (expr : Expression)
    (ok : Bool) (err : Option String)
    (hvalid : (NewExpression text).IsValidMathExpression digitTable = true)
    (hconv : (NewExpression text).Convert digitTable = some (expr, ok, err)) :
    numberTokens digitTable expr.Postfix
      = numberRuns digitTable (stringsReplaceAllSpace text).data := by
  rcases convert_outcome digitTable (NewExpression text) with ⟨h, _⟩ | ⟨_, tokens, ht, hc⟩
  · rw [h] at hvalid; cases hvalid
  · rw [hc] at hconv
    simp only [Option.some.injEq, Prod.mk.injEq] at hconv
    obtain ⟨he, _, _⟩ := hconv
    subst he
    have hruns : tokens.filter (isNumberToken digitTable)
        = numberRuns digitTable (stringsReplaceAllSpace text).data :=
      convertTokens_runs digitTable _ tokens ht
    have hsp := tokens_no_space digitTable _ tokens hvalid ht
    show numberTokens digitTable (stringsJoinSpace tokens) = _
    rw [← hruns]
    unfold numberTokens
    by_cases hnil : tokens = []
    · subst hnil
      rfl
    · rw [split_join tokens hnil hsp]

/-- C18 at work on `12.5+(3*~40)`. -/
theorem C18_number_tokens_witness :
    numberTokens (fun _ => false) (⟨"12.5+(3*~40)", "12.5 3 40 ~ * +"⟩ : Expression).Postfix
        = numberRuns (fun _ => false) (stringsReplaceAllSpace "12.5+(3*~40)").data
    ∧ numberRuns (fun _ => false) (stringsReplaceAllSpace "12.5+(3*~40)").data
        = ["12.5", "3", "40"] :=
  ⟨C18_number_tokens (fun _ => false) "12.5+(3*~40)" ⟨"12.5+(3*~40)", "12.5 3 40 ~ * +"⟩ true none
    rfl rfl, rfl⟩

/-! ## The converter on parentheses -/

theorem priorityOf_le (top : String) (h : top ≠ "(") : priorityOf top ≤ 4 := by
  simp only [priorityOf, OperatorPriority]
  split_ifs <;> simp_all

theorem popOperators_open_bracket : ∀ (S L : List String), popOperators 6 "(" S L = (S, L) := by
  intro S L
  cases S with
  | nil => rfl
  | cons top rest =>
    unfold popOperators
    by_cases h : top = "("
    · simp only [h, if_true]
    · have := priorityOf_le top h
      have h1 : ¬ priorityOf top > 6 := by omega
      have h2 : ¬ priorityOf top = 6 := by omega
      simp only [h, h1, h2, if_false]

theorem popOperators_at_open (value : Nat) (sign : String) (S L : List String) :
    popOperators value sign ("(" :: S) L = ("(" :: S, L) := by
  simp [popOperators]

theorem convertLoop_open (digitTable : Nat → Bool) (L S : List String) (rest : List Char) :
    convertLoop digitTable ⟨L, ⟨S⟩, []⟩ ('(' :: rest)
      = convertLoop digitTable ⟨L, ⟨"(" :: S⟩, []⟩ rest := by
  apply convertLoop_cons
  rw [convertStep_operator digitTable _ '(' 6 rfl (not_digit_of_paren digitTable (Or.inl rfl))
    (by decide) (by decide)]
  have hs : String.singleton '(' = "(" := rfl
  simp only [hs, popOperators_open_bracket]
  simp

/-- A binary operator or `~` read when `(` is on top of the stack. -/
theorem convertLoop_operator_open (digitTable : Nat → Bool) (L S : List String)
    (number : List Char) (op : Char) (value : Nat)
    (hop : OperatorPriority (String.singleton op) = some value)
    (hf : isBinaryOperatorChar op = true ∨ op = '~') (rest : List Char) :
    convertLoop digitTable ⟨L, ⟨"(" :: S⟩, number⟩ (op :: rest)
      = convertLoop digitTable
          ⟨if number.length ≠ 0 then L ++ [String.mk number] else L,
            ⟨String.singleton op :: "(" :: S⟩, []⟩ rest := by
  apply convertLoop_cons
  obtain ⟨f1, f2, f3⟩ := @operator_char_facts digitTable op hf
  rw [convertStep_operator digitTable _ op value hop f1 f2 f3]
  simp only [popOperators_at_open]

theorem convertLoop_close (digitTable : Nat → Bool) (L S : List String) (number : List Char)
    (sign : String) (hsign : sign ≠ "(") (rest : List Char) :
    convertLoop digitTable ⟨L, ⟨sign :: "(" :: S⟩, number⟩ (')' :: rest)
      = convertLoop digitTable
          ⟨(if number.length ≠ 0 then L ++ [String.mk number] else L) ++ [sign], ⟨S⟩, []⟩
          rest := by
  apply convertLoop_cons
  have hs : String.singleton ')' = ")" := rfl
  have hp : OperatorPriority ")" = none := rfl
  have hd : (")" : String) ≠ "." := by decide
  simp only [convertStep, not_digit_of_paren digitTable (Or.inr rfl), hs, hp, hd, if_false,
    if_true, Bool.false_eq_true]
  by_cases hn : number.length ≠ 0
  · simp [hn, popUntilOpen, hsign, Stack.Pop]
  · simp only [hn, if_false]
    have : number = [] := by
      simpa using hn
    subst this
    simp [popUntilOpen, hsign, Stack.Pop]

theorem binOp_facts (op : BinOp) :
    isBinaryOperatorChar op.char = true
    ∧ (∃ value, OperatorPriority (String.singleton op.char) = some value)
    ∧ String.singleton op.char ≠ "(" := by
  cases op <;> exact ⟨rfl, ⟨_, rfl⟩, by decide⟩

theorem render_bin (op : BinOp) (l r : ExprTree) :
    (ExprTree.bin op l r).render.data
      = '(' :: (l.render.data ++ op.char :: (r.render.data ++ [')'])) := by
  have h1 : ("(" : String).data = ['('] := rfl
  have h2 : (")" : String).data = [')'] := rfl
  have h3 : (String.singleton op.char).data = [op.char] := rfl
  simp only [ExprTree.render, String.data_append, h1, h2, h3]
  simp

theorem render_neg (e : ExprTree) :
    (ExprTree.neg e).render.data = '(' :: '~' :: (e.render.data ++ [')']) := by
  have h1 : ("(~" : String).data = ['(', '~'] := rfl
  have h2 : (")" : String).data = [')'] := rfl
  simp only [ExprTree.render, String.data_append, h1, h2]
  simp

/-- The converter on the rendering of a tree: it leaves the stack as it found
it and adds the post-order tokens of the tree to the output, a literal
standing alone being still pending. -/
theorem convertLoop_tree (digitTable : Nat → Bool) :
    ∀ (t : ExprTree), t.literals = true → ∀ (L S : List String) (rest : List Char),
      ∃ L' number,
        convertLoop digitTable ⟨L, ⟨S⟩, []⟩ (t.render.data ++ rest)
          = convertLoop digitTable ⟨L', ⟨S⟩, number⟩ rest
        ∧ (if number.length ≠ 0 then L' ++ [String.mk number] else L') = L ++ t.postorder := by
  intro t
  induction t with
  | lit n =>
    intro ht L S rest
    have hp := plainLiteral_of_numeric n ht
    refine ⟨L, n.data, ?_, ?_⟩
    · rw [ExprTree.render, convertLoop_plain digitTable _ _ _ hp.plain]
      rfl
    · rw [if_pos (plainLiteral_ne_nil hp)]
      rfl
  | bin op l r ihl ihr =>
    intro ht L S rest
    simp only [ExprTree.literals, Bool.and_eq_true] at ht
    obtain ⟨b1, ⟨value, b2⟩, b3⟩ := binOp_facts op
    rw [render_bin]
    simp only [List.cons_append, List.append_assoc, List.nil_append]
    rw [convertLoop_open]
    obtain ⟨L1, n1, e1, f1⟩ := ihl ht.1 L ("(" :: S) (op.char :: (r.render.data ++ ')' :: rest))
    rw [e1, convertLoop_operator_open digitTable L1 S n1 op.char value b2 (Or.inl b1), f1]
    obtain ⟨L2, n2, e2, f2⟩ := ihr ht.2 (L ++ l.postorder) (String.singleton op.char :: "(" :: S)
      (')' :: rest)
    rw [e2]
    rw [convertLoop_close digitTable L2 S n2 _ b3, f2]
    refine ⟨_, [], rfl, ?_⟩
    simp [ExprTree.postorder]
  | neg e ih =>
    intro ht L S rest
    simp only [ExprTree.literals] at ht
    rw [render_neg]
    simp only [List.cons_append, List.append_assoc, List.nil_append]
    rw [convertLoop_open, convertLoop_operator_open digitTable L S [] '~' 4 rfl (Or.inr rfl)]
    simp only [List.length_nil, ne_eq, not_true_eq_false, if_false]
    have hs : String.singleton '~' = "~" := rfl
    rw [hs]
    obtain ⟨L1, n1, e1, f1⟩ := ih ht L ("~" :: "(" :: S) (')' :: rest)
    rw [e1]
    rw [convertLoop_close digitTable L1 S n1 _ (by decide), f1]
    refine ⟨_, [], rfl, ?_⟩
    simp [ExprTree.postorder]

theorem convertTokens_tree (digitTable : Nat → Bool) (t : ExprTree) (ht : t.literals = true) :
    convertTokens digitTable ⟨t.render.data⟩ = some t.postorder := by
  obtain ⟨L', number, e, f⟩ := convertLoop_tree digitTable t ht [] [] []
  simp only [List.append_nil, List.nil_append] at e f
  unfold convertTokens
  simp only [NewStack]
  rw [e]
  simp only [convertLoop, List.append_nil]
  by_cases hn : number.length ≠ 0
  · have : number.length > 0 := by omega
    rw [if_pos hn] at f
    simp only [this, if_true, f]
  · have : ¬ number.length > 0 := by omega
    rw [if_neg hn] at f
    simp only [this, if_false, f]

/-! ## The validator on the rendering of a tree -/

theorem bracketLoop_skip {c : Char} (h1 : c ≠ '(') (h2 : c ≠ ')') (b : Int) (rest : List Char) :
    bracketLoop b (c :: rest) = bracketLoop b rest := by
  simp [bracketLoop, h1, h2]

theorem bracketLoop_no_paren : ∀ (l : List Char), (∀ c ∈ l, c ≠ '(' ∧ c ≠ ')') →
    ∀ (b : Int) (rest : List Char), bracketLoop b (l ++ rest) = bracketLoop b rest := by
  intro l
  induction l with
  | nil => intro _ b rest; rfl
  | cons c l ih =>
    intro h b rest
    rw [List.cons_append, bracketLoop_skip (h c (by simp)).1 (h c (by simp)).2]
    exact ih (fun x hx => h x (by simp [hx])) b rest

theorem bracketLoop_open (b : Int) (rest : List Char) :
    bracketLoop b ('(' :: rest) = bracketLoop (b + 1) rest := by
  simp [bracketLoop]

theorem bracketLoop_close (b : Int) (hb : 0 ≤ b) (rest : List Char) :
    bracketLoop (b + 1) (')' :: rest) = bracketLoop b rest := by
  have h : ¬ (b + 1 - 1 < 0) := by omega
  have e : b + 1 - 1 = b := by omega
  have h1 : ¬ (')' = '(') := by decide
  have h2 : ¬ (b < 0) := by omega
  rw [bracketLoop]
  simp only [h1, if_false, if_true, e, h2]

theorem ruleAlphabet_skip (digit : Char → Bool) {c : Char}
    (h : c = '.' ∨ isBinaryOperatorChar c = true ∨ c = '~' ∨ c = '(' ∨ c = ')')
    (rest : List Char) : ruleAlphabet digit (c :: rest) = ruleAlphabet digit rest := by
  rcases h with h | h | h | h | h <;> simp [ruleAlphabet, h]

theorem ruleUnaryMinus_open (plainDigit : Char → Bool) (rest : List Char) :
    ruleUnaryMinus plainDigit ('~' :: '(' :: rest) = ruleUnaryMinus plainDigit ('(' :: rest) := by
  simp [ruleUnaryMinus]

theorem ruleLast_append_close (front : List Char) : ruleLast (front ++ [')']) = true := by
  have h : isBinaryOperatorChar ')' = false := rfl
  simp [ruleLast, h]

theorem operandText_first_facts {digitTable : Nat → Bool} {w : List Char}
    (h : OperandText digitTable w) :
    ∃ c tail, w = c :: tail ∧ isBinaryOperatorChar c = false
      ∧ (isAsciiDigit c = true ∨ c = '(') := by
  obtain ⟨c, tail, e, hc⟩ := h.first
  refine ⟨c, tail, e, ?_, hc⟩
  rcases hc with hc | hc
  · exact (plain_facts (Or.inl hc)).1
  · rw [hc]; rfl

theorem operandText_literal (digitTable : Nat → Bool) {l : List Char} (h : PlainLiteral l) :
    OperandText digitTable l := by
  obtain ⟨d, tail, e1, hd⟩ := h.first
  obtain ⟨front, d', e2, hd'⟩ := h.last
  exact
    { first := ⟨d, tail, e1, Or.inl hd⟩
      last := ⟨front, d', e2, Or.inl hd'⟩
      nospace := fun c hc => (plain_facts (h.plain c hc)).2.2.2.2
      alphabet := fun rest => ruleAlphabet_plain digitTable l rest h.plain
      points := h.points
      unary := fun rest => ruleUnaryMinus_plain l rest h.plain
      adjacent := fun rest => ruleNoAdjacentBinary_plain l rest h.plain
      brackets := fun b rest _ => bracketLoop_no_paren l
        (fun c hc => ⟨(plain_facts (h.plain c hc)).2.2.1, (plain_facts (h.plain c hc)).2.2.2.1⟩)
        b rest }

theorem operandText_bin (digitTable : Nat → Bool) {wl wr : List Char} (op : Char)
    (hop : isBinaryOperatorChar op = true) (hl : OperandText digitTable wl)
    (hr : OperandText digitTable wr) :
    OperandText digitTable ('(' :: (wl ++ op :: (wr ++ [')']))) := by
  have f := binary_facts hop
  obtain ⟨c, tail, e, hc, _⟩ := operandText_first_facts hr
  refine
    { first := ⟨'(', _, rfl, Or.inr rfl⟩
      last := ⟨'(' :: (wl ++ op :: wr), ')', by simp, Or.inr rfl⟩
      nospace := ?_
      alphabet := ?_
      points := ?_
      unary := ?_
      adjacent := ?_
      brackets := ?_ }
  · intro x hx
    simp only [List.mem_cons, List.mem_append, List.mem_singleton, List.not_mem_nil,
      or_false] at hx
    rcases hx with h | h | h | h | h
    · rw [h]; decide
    · exact hl.nospace x h
    · rw [h]; exact f.2.2.2.2
    · exact hr.nospace x h
    · rw [h]; decide
  · intro rest
    simp only [List.cons_append, List.append_assoc, List.nil_append]
    rw [ruleAlphabet_skip _ (Or.inr (Or.inr (Or.inr (Or.inl rfl)))), hl.alphabet,
      ruleAlphabet_skip _ (Or.inr (Or.inl hop)), hr.alphabet,
      ruleAlphabet_skip _ (Or.inr (Or.inr (Or.inr (Or.inr rfl))))]
  · intro rest
    simp only [List.cons_append, List.append_assoc, List.nil_append]
    rw [rulePoints_skip (by decide), hl.points, rulePoints_skip f.1, hr.points,
      rulePoints_skip (by decide)]
  · intro rest
    simp only [List.cons_append, List.append_assoc, List.nil_append]
    rw [ruleUnaryMinus_skip _ (by decide), hl.unary, ruleUnaryMinus_skip _ f.2.1, hr.unary,
      ruleUnaryMinus_skip _ (by decide)]
  · intro rest
    simp only [List.cons_append, List.append_assoc, List.nil_append]
    rw [ruleNoAdjacentBinary_skip (by rfl), hl.adjacent]
    have h1 : ruleNoAdjacentBinary (op :: (wr ++ ')' :: rest))
        = ruleNoAdjacentBinary (wr ++ ')' :: rest) := by
      rw [e, List.cons_append, ruleNoAdjacentBinary_before hc, ruleNoAdjacentBinary_skip hc]
    rw [h1, hr.adjacent, ruleNoAdjacentBinary_skip (by rfl)]
  · intro b rest hb
    simp only [List.cons_append, List.append_assoc, List.nil_append]
    rw [bracketLoop_open, hl.brackets _ _ (by omega), bracketLoop_skip f.2.2.1 f.2.2.2.1,
      hr.brackets _ _ (by omega), bracketLoop_close b hb]

theorem operandText_neg (digitTable : Nat → Bool) {w : List Char}
    (h : OperandText digitTable w) :
    OperandText digitTable ('(' :: '~' :: (w ++ [')'])) := by
  obtain ⟨c, tail, e, hc⟩ := h.first
  refine
    { first := ⟨'(', _, rfl, Or.inr rfl⟩
      last := ⟨'(' :: '~' :: w, ')', by simp, Or.inr rfl⟩
      nospace := ?_
      alphabet := ?_
      points := ?_
      unary := ?_
      adjacent := ?_
      brackets := ?_ }
  · intro x hx
    simp only [List.mem_cons, List.mem_append, List.mem_singleton, List.not_mem_nil,
      or_false] at hx
    rcases hx with h1 | h1 | h1 | h1
    · rw [h1]; decide
    · rw [h1]; decide
    · exact h.nospace x h1
    · rw [h1]; decide
  · intro rest
    simp only [List.cons_append, List.append_assoc, List.nil_append]
    rw [ruleAlphabet_skip _ (Or.inr (Or.inr (Or.inr (Or.inl rfl)))),
      ruleAlphabet_skip _ (Or.inr (Or.inr (Or.inl rfl))), h.alphabet,
      ruleAlphabet_skip _ (Or.inr (Or.inr (Or.inr (Or.inr rfl))))]
  · intro rest
    simp only [List.cons_append, List.append_assoc, List.nil_append]
    rw [rulePoints_skip (by decide), rulePoints_skip (by decide), h.points,
      rulePoints_skip (by decide)]
  · intro rest
    simp only [List.cons_append, List.append_assoc, List.nil_append]
    rw [ruleUnaryMinus_skip _ (by decide)]
    have h1 : ruleUnaryMinus isAsciiDigit ('~' :: (w ++ ')' :: rest))
        = ruleUnaryMinus isAsciiDigit (w ++ ')' :: rest) := by
      rw [e, List.cons_append]
      rcases hc with hc | hc
      · exact ruleUnaryMinus_digit hc _
      · rw [hc]; exact ruleUnaryMinus_open _ _
    rw [h1, h.unary, ruleUnaryMinus_skip _ (by decide)]
  · intro rest
    simp only [List.cons_append, List.append_assoc, List.nil_append]
    rw [ruleNoAdjacentBinary_skip (by rfl), ruleNoAdjacentBinary_skip (by rfl), h.adjacent,
      ruleNoAdjacentBinary_skip (by rfl)]
  · intro b rest hb
    simp only [List.cons_append, List.append_assoc, List.nil_append]
    rw [bracketLoop_open, bracketLoop_skip (by decide) (by decide), h.brackets _ _ (by omega),
      bracketLoop_close b hb]

theorem operandText_render (digitTable : Nat → Bool) :
    ∀ (t : ExprTree), t.literals = true → OperandText digitTable t.render.data := by
  intro t
  induction t with
  | lit n => intro ht; exact operandText_literal digitTable (plainLiteral_of_numeric n ht)
  | bin op l r ihl ihr =>
    intro ht
    simp only [ExprTree.literals, Bool.and_eq_true] at ht
    rw [render_bin]
    exact operandText_bin digitTable op.char (binOp_facts op).1 (ihl ht.1) (ihr ht.2)
  | neg e ih =>
    intro ht
    simp only [ExprTree.literals] at ht
    rw [render_neg]
    exact operandText_neg digitTable (ih ht)

/-- A text that stands for an operand passes the eight rules. -/
theorem rules_of_operandText (digitTable : Nat → Bool) {w : List Char}
    (h : OperandText digitTable w) :
    validatorRules (isUnicodeDigit digitTable) isAsciiDigit w = true := by
  obtain ⟨c, tail, e1, hc⟩ := h.first
  obtain ⟨front, d, e2, hd⟩ := h.last
  have r2 : ruleAlphabet (isUnicodeDigit digitTable) w = true := by
    have := h.alphabet []
    rw [List.append_nil] at this
    rw [this]; rfl
  have r3 : rulePoints isAsciiDigit w = true := by
    have := h.points []
    rw [List.append_nil] at this
    rw [this]; rfl
  have r4 : ruleBalanced w = true := by
    rw [← bracketLoop_balanced]
    have := h.brackets 0 [] (by omega)
    rw [List.append_nil] at this
    rw [this]; rfl
  have r5 : ruleNoAdjacentBinary w = true := by
    have := h.adjacent []
    rw [List.append_nil] at this
    rw [this]; rfl
  have r6 : ruleUnaryMinus isAsciiDigit w = true := by
    have := h.unary []
    rw [List.append_nil] at this
    rw [this]; rfl
  have r7 : ruleFirst isAsciiDigit w = true := by
    rw [e1]
    rcases hc with hc | hc <;> simp [ruleFirst, hc]
  have r8 : ruleLast w = true := by
    rw [e2]
    rcases hd with hd | hd
    · exact ruleLast_append_digit _ hd
    · rw [hd]; exact ruleLast_append_close _
  have r1 : w.isEmpty = false := by rw [e1]; rfl
  simp [validatorRules, r1, r2, r3, r4, r5, r6, r7, r8]

/-- C20.  For every expression tree whose leaves are numeric literals,
`Convert` applied to the fully parenthesised rendering of the tree succeeds
(the validator accepts the text, no panic, `true` and no error) and sets
`Postfix` to the post-order token sequence of the tree joined by single
spaces. -/
theorem C20_tree_postorder (digitTable : Nat → Bool) (t : ExprTree)
    (ht : t.literals = true) :
    (NewExpression t.render).IsValidMathExpression digitTable = true
    ∧ (NewExpression t.render).Convert digitTable
        = some (⟨t.render, stringsJoinSpace t.postorder⟩, true, none) := by
  have ho := operandText_render digitTable t ht
  have hr := rules_of_operandText digitTable ho
  have hs := removeSpaces_no_space _ ho.nospace
  refine ⟨?_, convert_of_tokens digitTable t.render t.postorder hr hs
    (convertTokens_tree digitTable t ht)⟩
  rw [validator_iff_rules]
  show validatorRules _ _ (removeSpaces t.render.data) = true
  rw [hs]
  exact hr

/-- C20 at work on the tree of `(2+(~(3^4.5)))`. -/
theorem C20_tree_postorder_witness :
    (NewExpression "(2+(~(3^4.5)))").IsValidMathExpression (fun _ => false) = true
    ∧ (NewExpression "(2+(~(3^4.5)))").Convert (fun _ => false)
        = some (⟨"(2+(~(3^4.5)))", "2 3 4.5 ^ ~ +"⟩, true, none) :=
  C20_tree_postorder (fun _ => false)
    (ExprTree.bin BinOp.add (ExprTree.lit "2")
      (ExprTree.neg (ExprTree.bin BinOp.pow (ExprTree.lit "3") (ExprTree.lit "4.5"))))
    (by decide)

/-! ## No access to an empty operator stack -/

theorem bracketLoop_close_eq (b : Int) (rest : List Char) :
    bracketLoop b (')' :: rest) = if b - 1 < 0 then none else bracketLoop (b - 1) rest := by
  have h1 : ¬ (')' = '(') := by decide
  rw [bracketLoop]
  simp only [h1, if_false, if_true]

theorem bracketLoop_append : ∀ (l1 l2 : List Char) (b b' : Int),
    bracketLoop b (l1 ++ l2) = some b' →
    ∃ b1, bracketLoop b l1 = some b1 ∧ bracketLoop b1 l2 = some b' := by
  intro l1
  induction l1 with
  | nil => intro l2 b b' h; exact ⟨b, rfl, h⟩
  | cons c l1 ih =>
    intro l2 b b' h
    rw [List.cons_append] at h
    by_cases h1 : c = '('
    · subst h1
      rw [bracketLoop_open] at h ⊢
      exact ih l2 _ b' h
    · by_cases h2 : c = ')'
      · subst h2
        rw [bracketLoop_close_eq] at h ⊢
        by_cases hneg : b - 1 < 0
        · simp [hneg] at h
        · simp only [hneg, if_false] at h ⊢
          exact ih l2 _ b' h
      · rw [bracketLoop_skip h1 h2] at h ⊢
        exact ih l2 _ b' h

theorem bracketLoop_at_close (b b' : Int) (post : List Char)
    (h : bracketLoop b (')' :: post) = some b') : 0 < b := by
  rw [bracketLoop_close_eq] at h
  by_cases hneg : b - 1 < 0
  · simp [hneg] at h
  · omega

/-- C21.  For a text that the validator accepts, `Convert` never calls `Peek`
or `Pop` on an empty operator stack.  The loop over the characters runs to its
end without a panic; and whenever a `)` is read, after any prefix `pre` of the
space-stripped text, the loop has reached a state whose stack is not empty and
holds a `(`, and the step on `)`, with its loop `for stack.Peek() != "("` and
the `Pop` that follows, ends without a panic. -/
theorem C21_close_finds_open (digitTable : Nat → Bool) (text : String)
    (hvalid : (NewExpression text).IsValidMathExpression digitTable = true) :
    (∃ tokens, convertTokens digitTable (stringsReplaceAllSpace text) = some tokens)
    ∧ ∀ (pre post : List Char), (stringsReplaceAllSpace text).data = pre ++ ')' :: post →
        ∃ st st', convertLoop digitTable ⟨[], NewStack, []⟩ pre = some st
          ∧ st.stack.IsEmptyStack = false ∧ "(" ∈ st.stack.list
          ∧ convertStep digitTable st ')' = some st' := by
  refine ⟨convertTokens_of_valid digitTable (NewExpression text) hvalid, ?_⟩
  intro pre post hsplit
  have hb := (validator_loops digitTable (NewExpression text)).1 hvalid
  have hbal : bracketLoop 0 (stringsReplaceAllSpace text).data = some 0 :=
    (bracketLoop_balanced _).2 hb.2.2.2.1
  rw [hsplit] at hbal
  obtain ⟨b1, hb1, hb2⟩ := bracketLoop_append pre (')' :: post) 0 0 hbal
  have hpos := bracketLoop_at_close b1 0 post hb2
  obtain ⟨st, hst, hcount⟩ :=
    convertLoop_depth digitTable pre ⟨[], NewStack, []⟩ 0 b1 hb1 (by simp [NewStack])
  have hc : 0 < st.stack.list.count "(" := by omega
  have hmem : "(" ∈ st.stack.list := List.count_pos_iff.1 hc
  obtain ⟨st', hstep, _⟩ := (convertStep_depth digitTable st ')').2.1 rfl hc
  refine ⟨st, st', hst, ?_, hmem, hstep⟩
  cases hl : st.stack.list with
  | nil => rw [hl] at hmem; simp at hmem
  | cons a l => simp [Stack.IsEmptyStack, hl]

/-- C21 at work on `(2+3)*4`, at its `)`. -/
theorem C21_close_finds_open_witness :
    (∃ tokens, convertTokens (fun _ => false) (stringsReplaceAllSpace "(2+3)*4") = some tokens)
    ∧ ∃ st st', convertLoop (fun _ => false) ⟨[], NewStack, []⟩ "(2+3".data = some st
        ∧ st.stack.IsEmptyStack = false ∧ "(" ∈ st.stack.list
        ∧ convertStep (fun _ => false) st ')' = some st' :=
  ⟨(C21_close_finds_open (fun _ => false) "(2+3)*4" rfl).1,
    (C21_close_finds_open (fun _ => false) "(2+3)*4" rfl).2 "(2+3".data "*4".data rfl⟩

/-! ## The task graph is a tree -/

theorem operandCount_append (v : String) (results : List Task) (t : Task) :
    operandCount v (results ++ [t]) = operandCount v results + t.uses v := by
  simp [operandCount]

theorem count_cons_if (a v : String) (l : List String) :
    (a :: l).count v = (if a = v then 1 else 0) + l.count v := by
  by_cases h : a = v
  · subst h; simp; omega
  · have h' : ¬ (a == v) = true := by simpa using h
    rw [List.count_cons]
    simp [h, h']

/-- The list that the loop returns is empty (the failure return) or extends
the list it started from. -/
theorem loop_length (ids : IdSupply) :
    ∀ (fuel : Nat) (expression : List String) (results T : List Task) (f : String),
      calculateLoop ids fuel expression results = some (T, f) →
      T = [] ∨ results.length ≤ T.length := by
  intro fuel
  induction fuel with
  | zero =>
    intro expression results T f h
    by_cases hl : expression.length = 1
    · rw [calculateLoop_done ids 0 expression results hl] at h
      cases h; exact Or.inr (Nat.le_refl _)
    · rw [calculateLoop_zero ids expression results hl] at h; cases h
  | succ fuel ih =>
    intro expression results T f h
    by_cases hl : expression.length = 1
    · rw [calculateLoop_done ids _ expression results hl] at h
      cases h; exact Or.inr (Nat.le_refl _)
    · rw [calculateLoop_succ ids fuel expression results hl] at h
      rcases passOf_cases expression (ids.next results.length) with
        ⟨hp, _⟩ | hp | ⟨pre, x, post, _, _, hp⟩ | ⟨pre, x, y, sign, post, _, _, _, _, hp⟩
      · rw [hp] at h; exact ih _ _ T f h
      · rw [hp] at h; cases h; exact Or.inl rfl
      · rw [hp] at h
        rcases ih _ _ T f h with e | e
        · exact Or.inl e
        · right; simp at e; omega
      · rw [hp] at h
        rcases ih _ _ T f h with e | e
        · exact Or.inl e
        · right; simp at e; omega

/-- The counting step of the invariant: one reduction replaces the operands
`a`, `b` by the new identifier. -/
theorem count_step {A a b s c1 c2 n : Nat} {j k : Nat} (hs : s = 0)
    (hn : n = if j = k then 1 else 0)
    (h : A + (c1 + (a + (b + (s + c2)))) = if j < k then 1 else 0) :
    A + (a + b) + (c1 + (n + c2)) = if j < k + 1 then 1 else 0 := by
  subst hs hn
  split_ifs at h ⊢ <;> omega

/-- The invariant of the loop: every identifier drawn so far stands exactly
once in the working sequence or among the operands of the tasks, and no
identifier still to be drawn stands in either. -/
theorem loop_tree (ids : IdSupply) (N : Nat)
    (hd : ∀ i, i < N → ∀ j, j < N → ids.next i = ids.next j → i = j) :
    ∀ (fuel : Nat) (expression : List String) (results T : List Task) (f : String),
      calculateLoop ids fuel expression results = some (T, f) → T.length = N → N ≠ 0 →
      (∀ j t, results[j]? = some t → t.Variable = ids.next j) →
      (∀ j, j < N → operandCount (ids.next j) results + expression.count (ids.next j)
          = if j < results.length then 1 else 0) →
      (∀ j t, T[j]? = some t → t.Variable = ids.next j)
      ∧ (∀ j, j < N → operandCount (ids.next j) T + [f].count (ids.next j) = 1) := by
  intro fuel
  induction fuel with
  | zero =>
    intro expression results T f h hN h0 hv hc
    by_cases hl : expression.length = 1
    · rw [calculateLoop_done ids 0 expression results hl] at h
      simp only [Option.some.injEq, Prod.mk.injEq] at h
      obtain ⟨e1, e2⟩ := h
      subst e1
      obtain ⟨a, ha⟩ := List.length_eq_one.1 hl
      rw [ha] at e2 hc
      simp only [List.getD_cons_zero] at e2
      subst e2
      refine ⟨hv, ?_⟩
      intro j hj
      have := hc j hj
      rw [if_pos (by omega)] at this
      exact this
    · rw [calculateLoop_zero ids expression results hl] at h; cases h
  | succ fuel ih =>
    intro expression results T f h hN h0 hv hc
    by_cases hl : expression.length = 1
    · rw [calculateLoop_done ids _ expression results hl] at h
      simp only [Option.some.injEq, Prod.mk.injEq] at h
      obtain ⟨e1, e2⟩ := h
      subst e1
      obtain ⟨a, ha⟩ := List.length_eq_one.1 hl
      rw [ha] at e2 hc
      simp only [List.getD_cons_zero] at e2
      subst e2
      refine ⟨hv, ?_⟩
      intro j hj
      have := hc j hj
      rw [if_pos (by omega)] at this
      exact this
    · rw [calculateLoop_succ ids fuel expression results hl] at h
      have hzero : ∀ j, ("0" : String) ≠ ids.next j := by
        intro j e
        have := ids.canonical j
        rw [← e] at this
        exact absurd this (by decide)
      have hvar : ∀ (t : Task), t.Variable = ids.next results.length →
          ∀ j u, (results ++ [t])[j]? = some u → u.Variable = ids.next j := by
        intro t ht j u hu
        by_cases hj : j < results.length
        · rw [List.getElem?_append_left hj] at hu
          exact hv j u hu
        · by_cases hj2 : j = results.length
          · subst hj2
            simp at hu
            rw [← hu]; exact ht
          · have : (results ++ [t]).length ≤ j := by simp; omega
            rw [List.getElem?_eq_none this] at hu
            cases hu
      rcases passOf_cases expression (ids.next results.length) with
        ⟨hp, _⟩ | hp | ⟨pre, x, post, he, _, hp⟩ | ⟨pre, x, y, sign, post, he, _, hs1, _, hp⟩
      · rw [hp] at h; exact ih _ _ T f h hN h0 hv hc
      · rw [hp] at h
        simp only [Option.some.injEq, Prod.mk.injEq] at h
        rw [← h.1] at hN
        simp at hN
        exact absurd hN.symm h0
      · rw [hp] at h
        have hk : results.length < N := by
          rcases loop_length ids _ _ _ T f h with e | e
          · rw [e] at hN; simp at hN; exact absurd hN.symm h0
          · simp at e; omega
        refine ih _ _ T f h hN h0 (hvar _ rfl) ?_
        intro j hj
        have hold := hc j hj
        rw [he] at hold
        rw [operandCount_append, List.length_append, List.length_singleton]
        simp only [List.count_append, count_cons_if] at hold ⊢
        have hn : (if ids.next results.length = ids.next j then 1 else 0)
            = if j = results.length then 1 else 0 := by
          by_cases e : j = results.length
          · rw [e]; simp
          · have : ¬ ids.next results.length = ids.next j :=
              fun e2 => e (hd _ hk _ hj e2).symm
            simp [e, this]
        have hs : (if ("~" : String) = ids.next j then 1 else 0) = 0 := by
          have : ¬ ("~" : String) = ids.next j := by
            intro e
            have := ids.canonical j
            rw [← e] at this
            exact absurd this (by decide)
          simp [this]
        have hz : (if ("0" : String) = ids.next j then 1 else 0) = 0 := by
          simp [hzero j]
        simp only [Task.uses, hz]
        have := @count_step (operandCount (ids.next j) results) 0
          (if x = ids.next j then 1 else 0) _ (pre.count (ids.next j)) (post.count (ids.next j))
          _ j results.length hs hn (by omega)
        omega
      · rw [hp] at h
        have hk : results.length < N := by
          rcases loop_length ids _ _ _ T f h with e | e
          · rw [e] at hN; simp at hN; exact absurd hN.symm h0
          · simp at e; omega
        refine ih _ _ T f h hN h0 (hvar _ rfl) ?_
        intro j hj
        have hold := hc j hj
        rw [he] at hold
        rw [operandCount_append, List.length_append, List.length_singleton]
        simp only [List.count_append, count_cons_if] at hold ⊢
        have hn : (if ids.next results.length = ids.next j then 1 else 0)
            = if j = results.length then 1 else 0 := by
          by_cases e : j = results.length
          · rw [e]; simp
          · have : ¬ ids.next results.length = ids.next j :=
              fun e2 => e (hd _ hk _ hj e2).symm
            simp [e, this]
        have hs : (if sign = ids.next j then 1 else 0) = 0 := by
          have : ¬ sign = ids.next j := by
            intro e
            rw [e, operatorPriority_canonical (ids.canonical j)] at hs1
            cases hs1
          simp [this]
        simp only [Task.uses]
        exact count_step hs hn hold

/-- C22.  Whenever `Calculate` returns a task list that is not empty, the
identifiers drawn for it being pairwise distinct and none of them a token of
the postfix, the task graph is a tree: the returned final identifier is the
`Variable` of the last task and is an operand of no task, and the `Variable`
of every other task occurs exactly once as an operand (`Num1` or `Num2`) among
all the tasks of the list. -/
theorem C22_task_graph_is_tree (ids : IdSupply) (fuel : Nat) (e : Expression)
    (tasks : List Task) (final : String)
    (hrun : e.Calculate ids fuel = some (tasks, final)) (hne : tasks ≠ [])
    (hdistinct : ∀ i, i < tasks.length → ∀ j, j < tasks.length →
      ids.next i = ids.next j → i = j)
    (hfresh : ∀ k, k < tasks.length → ids.next k ∉ stringsSplitSpace e.Postfix) :
    (∃ t, tasks.getLast? = some t ∧ t.Variable = final)
    ∧ operandCount final tasks = 0
    ∧ ∀ i t, tasks[i]? = some t → i + 1 < tasks.length →
        operandCount t.Variable tasks = 1 := by
  unfold Expression.Calculate at hrun
  by_cases hl : (stringsSplitSpace e.Postfix).length = 1
  · simp only [hl, if_true, NewExample, Option.some.injEq, Prod.mk.injEq] at hrun
    obtain ⟨e1, e2⟩ := hrun
    subst e1 e2
    obtain ⟨a, ha⟩ := List.length_eq_one.1 hl
    have hf : ¬ a = ids.next 0 := by
      intro h
      have := hfresh 0 (by simp)
      rw [ha] at this
      exact this (by simp [h])
    have hz : ¬ ("0" : String) = ids.next 0 := by
      intro h
      have := ids.canonical 0
      rw [← h] at this
      exact absurd this (by decide)
    refine ⟨⟨_, rfl, rfl⟩, ?_, ?_⟩
    · simp [operandCount, Task.uses, ha, hf, hz]
    · intro i t _ hi
      simp at hi
  · simp only [hl, if_false] at hrun
    have hN : tasks.length ≠ 0 := fun h => hne (List.length_eq_zero.1 h)
    obtain ⟨hv, hc⟩ := loop_tree ids tasks.length hdistinct fuel _ [] tasks final hrun rfl hN
      (by intro j t h; simp at h)
      (by
        intro j hj
        have := List.count_eq_zero.2 (hfresh j hj)
        simp [operandCount, this])
    rcases loop_final ids fuel _ [] tasks final hrun (by intro t h; simp at h) (fun _ => hl) with
      ⟨h, _⟩ | ⟨t, ht, hfin⟩
    · exact absurd h hne
    · have hlast : tasks[tasks.length - 1]? = some t := by
        rw [← List.getLast?_eq_getElem?]; exact ht
      have hfv : final = ids.next (tasks.length - 1) := by
        rw [← hfin]; exact hv _ t hlast
      refine ⟨⟨t, ht, hfin⟩, ?_, ?_⟩
      · have := hc (tasks.length - 1) (by omega)
        rw [← hfv] at this
        simp at this
        exact this
      · intro i u hu hi
        have h1 := hv i u hu
        have h2 := hc i (by omega)
        have hneq : ¬ final = ids.next i := by
          rw [hfv]
          intro h
          have := hdistinct _ (by omega) _ (by omega) h
          omega
        rw [h1]
        have h3 : [final].count (ids.next i) = 0 := by
          rw [count_cons_if]
          simp [hneq]
        omega

/-- C22 at work on the postfix `2 3 4 * +`: the final identifier is the
`Variable` of the second task and no operand, and the `Variable` of the first
task is an operand once. -/
theorem C22_task_graph_is_tree_witness :
    (∃ t, ([⟨"3", "4", "*", sampleIds.next 0, "", 0, false⟩,
            ⟨"2", sampleIds.next 0, "+", sampleIds.next 1, "", 0, false⟩] : List Task).getLast?
          = some t ∧ t.Variable = sampleIds.next 1)
    ∧ operandCount (sampleIds.next 1)
        [⟨"3", "4", "*", sampleIds.next 0, "", 0, false⟩,
         ⟨"2", sampleIds.next 0, "+", sampleIds.next 1, "", 0, false⟩] = 0
    ∧ operandCount (sampleIds.next 0)
        [⟨"3", "4", "*", sampleIds.next 0, "", 0, false⟩,
         ⟨"2", sampleIds.next 0, "+", sampleIds.next 1, "", 0, false⟩] = 1 :=
  (fun h => ⟨h.1, h.2.1,
      h.2.2 0 ⟨"3", "4", "*", sampleIds.next 0, "", 0, false⟩ rfl (by decide)⟩)
    (C22_task_graph_is_tree sampleIds 2 ⟨"2+3*4", "2 3 4 * +"⟩
      [⟨"3", "4", "*", sampleIds.next 0, "", 0, false⟩,
       ⟨"2", sampleIds.next 0, "+", sampleIds.next 1, "", 0, false⟩]
      (sampleIds.next 1) rfl (by simp) (by decide) (by decide))

/-! ## The validator and its eight rules -/

theorem ruleAlphabet_congr (d1 d2 : Char → Bool) :
    ∀ (t : List Char), (∀ c ∈ t, d1 c = d2 c) → ruleAlphabet d1 t = ruleAlphabet d2 t := by
  intro t
  induction t with
  | nil => intro _; rfl
  | cons c t ih =>
    intro h
    have hc := h c (by simp)
    have ht := ih (fun x hx => h x (by simp [hx]))
    unfold ruleAlphabet at ht ⊢
    simp only [List.all_cons, hc, ht]

theorem rulePoints_congr (p1 p2 : Char → Bool) :
    ∀ (t : List Char), (∀ c ∈ t, p1 c = p2 c) → rulePoints p1 t = rulePoints p2 t := by
  intro t
  induction t with
  | nil => intro _; rfl
  | cons c t ih =>
    intro h
    have ht := ih (fun x hx => h x (by simp [hx]))
    cases t with
    | nil => simp [rulePoints]
    | cons d t =>
      have hd := h d (by simp)
      simp only [rulePoints] at ht ⊢
      rw [hd, ht]

theorem ruleUnaryMinus_congr (p1 p2 : Char → Bool) :
    ∀ (t : List Char), (∀ c ∈ t, p1 c = p2 c) → ruleUnaryMinus p1 t = ruleUnaryMinus p2 t := by
  intro t
  induction t with
  | nil => intro _; rfl
  | cons c t ih =>
    intro h
    have ht := ih (fun x hx => h x (by simp [hx]))
    cases t with
    | nil => simp [ruleUnaryMinus]
    | cons d t =>
      have hd := h d (by simp)
      simp only [ruleUnaryMinus] at ht ⊢
      rw [hd, ht]

theorem ruleFirst_congr (p1 p2 : Char → Bool) (t : List Char) (h : ∀ c ∈ t, p1 c = p2 c) :
    ruleFirst p1 t = ruleFirst p2 t := by
  cases t with
  | nil => rfl
  | cons c t => simp [ruleFirst, h c (by simp)]

/-- The eight rules give the same verdict for two notions of digit that agree
on the characters of the text. -/
theorem validatorRules_congr (d1 d2 p1 p2 : Char → Bool) (t : List Char)
    (hd : ∀ c ∈ t, d1 c = d2 c) (hp : ∀ c ∈ t, p1 c = p2 c) :
    validatorRules d1 p1 t = validatorRules d2 p2 t := by
  unfold validatorRules
  rw [ruleAlphabet_congr d1 d2 t hd, rulePoints_congr p1 p2 t hp,
    ruleUnaryMinus_congr p1 p2 t hp, ruleFirst_congr p1 p2 t hp]

/-- C3 (as stated, refuted).  With a tab inside, `1<TAB>2` is rejected by the
validator although the text with its whitespace removed, `12`, satisfies all
eight rules, whichever way a digit is read: the code removes the space
character only. -/
theorem C3_counterexample :
    Expression.IsValidMathExpression (fun _ => false) ⟨"1\t2", ""⟩ = false
    ∧ removeWhitespace "1\t2".data = "12".data
    ∧ validatorRules isAsciiDigit isAsciiDigit (removeWhitespace "1\t2".data) = true
    ∧ validatorRules (isUnicodeDigit (fun _ => false)) (isUnicodeDigit (fun _ => false))
        (removeWhitespace "1\t2".data) = true := by
  refine ⟨?_, ?_, ?_, ?_⟩ <;> decide

/-- C3 (amended).  For a text that holds no digit other than `0` to `9`,
`IsValidMathExpression` returns true exactly when the text with its space
characters (U+0020) removed satisfies the eight rules; on such a text the rules
read with the digits `0` to `9` and read with `unicode.IsDigit` are the same
condition. -/
theorem C3_validator_rules (digitTable : Nat → Bool) (s : Expression)
    (hdigits : ∀ c ∈ s.Infix.data, isUnicodeDigit digitTable c = true → isAsciiDigit c = true) :
    (s.IsValidMathExpression digitTable = true
      ↔ validatorRules isAsciiDigit isAsciiDigit (removeSpaces s.Infix.data) = true)
    ∧ (s.IsValidMathExpression digitTable = true
      ↔ validatorRules (isUnicodeDigit digitTable) (isUnicodeDigit digitTable)
          (removeSpaces s.Infix.data) = true) := by
  have hagree : ∀ c ∈ removeSpaces s.Infix.data, isUnicodeDigit digitTable c = isAsciiDigit c := by
    intro c hc
    have hmem : c ∈ s.Infix.data := by
      unfold removeSpaces at hc
      exact (List.mem_filter.1 hc).1
    cases ha : isAsciiDigit c with
    | true => exact isUnicodeDigit_of_ascii digitTable ha
    | false =>
      cases hu : isUnicodeDigit digitTable c with
      | false => rfl
      | true =>
        have := hdigits c hmem hu
        rw [ha] at this
        cases this
  constructor
  · rw [validator_iff_rules,
      validatorRules_congr (isUnicodeDigit digitTable) isAsciiDigit isAsciiDigit isAsciiDigit _
        hagree (fun _ _ => rfl)]
  · rw [validator_iff_rules,
      validatorRules_congr (isUnicodeDigit digitTable) (isUnicodeDigit digitTable) isAsciiDigit
        (isUnicodeDigit digitTable) _ (fun _ _ => rfl) (fun c hc => (hagree c hc).symm)]

/-- C3 (amended) at work on ` (1.5 + ~2) * 3`, with U+0663 in the table of
`unicode.IsDigit`. -/
theorem C3_validator_rules_witness :
    (Expression.IsValidMathExpression (fun r => r == 0x663) ⟨" (1.5 + ~2) * 3", ""⟩ = true
      ↔ validatorRules isAsciiDigit isAsciiDigit (removeSpaces " (1.5 + ~2) * 3".data) = true)
    ∧ (Expression.IsValidMathExpression (fun r => r == 0x663) ⟨" (1.5 + ~2) * 3", ""⟩ = true
      ↔ validatorRules (isUnicodeDigit (fun r => r == 0x663)) (isUnicodeDigit (fun r => r == 0x663))
          (removeSpaces " (1.5 + ~2) * 3".data) = true) :=
  C3_validator_rules (fun r => r == 0x663) ⟨" (1.5 + ~2) * 3", ""⟩ (by decide)

/-- Outside the digits `0` to `9` the tests of the validator disagree with one
another.  With U+0663 (ARABIC-INDIC DIGIT THREE) in the table of
`unicode.IsDigit`, the first loop takes the character for a digit, so `1`
followed by U+0663 and `1+` followed by U+0663 are accepted; the tests on what
follows a decimal point and on the first character read one byte of it, so
`1.` followed by U+0663 and U+0663 followed by `+1` are rejected. -/
theorem validator_digit_tests_disagree :
    Expression.IsValidMathExpression (fun r => r == 0x663) ⟨"1٣", ""⟩ = true
    ∧ Expression.IsValidMathExpression (fun r => r == 0x663) ⟨"1+٣", ""⟩ = true
    ∧ Expression.IsValidMathExpression (fun r => r == 0x663) ⟨"1.٣", ""⟩ = false
    ∧ Expression.IsValidMathExpression (fun r => r == 0x663) ⟨"٣+1", ""⟩ = false := by
  refine ⟨?_, ?_, ?_, ?_⟩ <;> decide

end Calcflow
